import Mathlib

/-!
Verification of the layered configuration merge-and-resolve algorithm of
@jungvonmatt/config-loader (src/index.ts), against its natural-language
specification.

The embedding models JavaScript configuration values as a `JSON` inductive
type; JS objects are association lists of string keys preserving insertion
order (JS object keys are unique).  JS `undefined` is modelled as key
absence; explicit `null` is `JSON.null`.  Numeric literals are modelled as
integers.  External collaborators that are not part of this repository's
src (the defu deep-merge library, the destr coercion library, and the
env.ts overlay whose source file is absent — only its tests exist) are
modelled from the specification, as marked on each definition.
-/

namespace ConfigLoader

/-- A JavaScript configuration value (spec §3 ConfigValue): scalar, ordered
sequence, or string-keyed mapping with unique keys in insertion order. -/
inductive JSON where
  | str (s : String)
  | num (n : Int)
  | bool (b : Bool)
  | null
  | arr (elems : List JSON)
  | obj (entries : List (String × JSON))

/-- Object entries, as produced by the loaders: an insertion-ordered
association list. -/
abbrev Entries := List (String × JSON)

/-- JS property read `o[k]` (first — unique — binding wins). -/
def getKey : Entries → String → Option JSON
  | [], _ => none
  | (k', v) :: rest, k => if k' = k then some v else getKey rest k

/-- JS property write `o[k] = v`: replace in place if the key exists,
append otherwise. -/
def setKey : Entries → String → JSON → Entries
  | [], k, v => [(k, v)]
  | (k', v') :: rest, k, v =>
    if k' = k then (k, v) :: rest else (k', v') :: setKey rest k v

/-- `Object.keys`. -/
def keysOf (es : Entries) : List String := es.map Prod.fst

/-- Key existence (JS `key in obj` / `Object.keys(obj).includes(key)`). -/
def hasKey (es : Entries) (k : String) : Bool := (getKey es k).isSome

/-- Whether a value is a plain object (defu's `isPlainObject`; arrays and
null are not plain objects). -/
def isObj : JSON → Bool
  | .obj _ => true
  | _ => false

mutual

/-- Structural size of a value, used as the recursion bound of the
fuel-indexed recursive functions below. -/
def sizeJ : JSON → Nat
  | .str _ => 1
  | .num _ => 1
  | .bool _ => 1
  | .null => 1
  | .arr es => 1 + sizeJA es
  | .obj es => 1 + sizeJE es

/-- Structural size of a value sequence. -/
def sizeJA : List JSON → Nat
  | [] => 1
  | v :: rest => 1 + sizeJ v + sizeJA rest

/-- Structural size of an entry list. -/
def sizeJE : List (String × JSON) → Nat
  | [] => 1
  | (_, v) :: rest => 1 + sizeJ v + sizeJE rest

end

/-- One `_defu(base, defaults)` pass of the customized defu instance built
in src/index.ts: iterate over the higher-precedence `base` entries, writing
into the lower-precedence `ds`.  `null`/absent values in `base` are
skipped; when both sides hold plain objects the merge recurses; the
customization from src/index.ts replaces arrays (higher-precedence array
wins wholesale) instead of concatenating.  The defu library itself is not
in src/; its traversal is modelled from the spec (§4.4 Layer Merge
Engine). -/
def defuGoF : Nat → Entries → Entries → Entries
  | 0, _, ds => ds
  | _ + 1, [], ds => ds
  | fuel + 1, (k, v) :: rest, ds =>
    defuGoF fuel rest
      (match v, getKey ds k with
       | JSON.null, _ => ds
       | JSON.obj o1, some (JSON.obj o2) => setKey ds k (JSON.obj (defuGoF fuel o1 o2))
       | v', _ => setKey ds k v')

/-- The `_defu` pass at its natural recursion depth (`sizeJE` strictly
bounds the recursion, so the fuel never runs out; see
`defuGoF_congr`). -/
def defuGo (b ds : Entries) : Entries := defuGoF (sizeJE b) b ds

/-- The body of one entry step of `_defu`, phrased with the fuel-free
merge. -/
def defuStep (ds : Entries) (k : String) (v : JSON) : Entries :=
  match v, getKey ds k with
  | JSON.null, _ => ds
  | JSON.obj o1, some (JSON.obj o2) => setKey ds k (JSON.obj (defuGo o1 o2))
  | v', _ => setKey ds k v'

/-- Variadic `defu(l₁, l₂, …)`: fold the pairwise merge left, starting from
a fresh empty object, earlier arguments taking precedence (spec §4.4). -/
def defu (layers : List Entries) : Entries :=
  layers.foldl (fun p c => defuGo p c) []

/-- The `\x7b` character, kept symbolic. -/
def lbrace : Char := Char.ofNat 123

/-- The `\x7d` character, kept symbolic. -/
def rbrace : Char := Char.ofNat 125

/-- The opening square bracket character. -/
def lbrack : Char := Char.ofNat 91

/-- The closing square bracket character. -/
def rbrack : Char := Char.ofNat 93

/-- JSON insignificant whitespace. -/
def isWs (c : Char) : Bool := c = ' ' || c = '\t' || c = '\n' || c = '\r'

/-- Drop leading whitespace. -/
def skipWs : List Char → List Char
  | [] => []
  | c :: cs => if isWs c then skipWs cs else c :: cs

/-- Split a leading run of decimal digits. -/
def takeDigits : List Char → (List Char × List Char)
  | [] => ([], [])
  | c :: cs =>
    if c.isDigit then
      let (ds, rest) := takeDigits cs
      (c :: ds, rest)
    else ([], c :: cs)

/-- Decimal digit run to a natural number. -/
def digitsToNat (ds : List Char) : Nat :=
  ds.foldl (fun acc c => acc * 10 + (c.toNat - 48)) 0

/-- Parse a decimal integer literal with optional leading minus sign. -/
def parseNum : List Char → Option (JSON × List Char)
  | '-' :: cs =>
    match takeDigits cs with
    | ([], _) => none
    | (ds, rest) => some (JSON.num (-(digitsToNat ds : Int)), rest)
  | cs =>
    match takeDigits cs with
    | ([], _) => none
    | (ds, rest) => some (JSON.num ((digitsToNat ds : Int)), rest)

/-- Parse the body of a double-quoted string (the opening quote already
consumed); a backslash makes the following character literal. -/
def parseStrBody : List Char → Option (List Char × List Char)
  | [] => none
  | '"' :: cs => some ([], cs)
  | '\\' :: c :: cs => (parseStrBody cs).map (fun p => (c :: p.1, p.2))
  | c :: cs => (parseStrBody cs).map (fun p => (c :: p.1, p.2))

/-- Match an exact keyword at the head of the input. -/
def parseLit (lit : String) (v : JSON) (cs : List Char) : Option (JSON × List Char) :=
  if lit.data.isPrefixOf cs then some (v, cs.drop lit.length) else none

mutual

/-- Fuel-indexed recursive-descent parser for structured (JSON) values. -/
def parseVal : Nat → List Char → Option (JSON × List Char)
  | 0, _ => none
  | fuel + 1, cs =>
    match skipWs cs with
    | [] => none
    | c :: cs' =>
      if c = '"' then
        (parseStrBody cs').map (fun p => (JSON.str (String.mk p.1), p.2))
      else if c = lbrace then parseMembers fuel (skipWs cs') true
      else if c = lbrack then parseElems fuel (skipWs cs') true
      else if (parseLit "true" (JSON.bool true) (c :: cs')).isSome then
        parseLit "true" (JSON.bool true) (c :: cs')
      else if (parseLit "false" (JSON.bool false) (c :: cs')).isSome then
        parseLit "false" (JSON.bool false) (c :: cs')
      else if (parseLit "null" JSON.null (c :: cs')).isSome then
        parseLit "null" JSON.null (c :: cs')
      else parseNum (c :: cs')

/-- Parse the members of an object after the opening brace; `first` marks
that no member has been consumed yet (so a closing brace is allowed). -/
def parseMembers : Nat → List Char → Bool → Option (JSON × List Char)
  | 0, _, _ => none
  | fuel + 1, cs, first =>
    match skipWs cs with
    | [] => none
    | c :: cs' =>
      if c = rbrace ∧ first then some (JSON.obj [], cs')
      else
        match goMember fuel (c :: cs') with
        | none => none
        | some (k, v, rest) =>
          match skipWs rest with
          | ',' :: rest' =>
            match parseMembers fuel rest' false with
            | some (JSON.obj es, rest'') => some (JSON.obj ((k, v) :: es), rest'')
            | _ => none
          | c' :: rest' =>
            if c' = rbrace then some (JSON.obj [(k, v)], rest') else none
          | [] => none

/-- Parse one `"key": value` member. -/
def goMember : Nat → List Char → Option (String × JSON × List Char)
  | 0, _ => none
  | fuel + 1, cs =>
    match skipWs cs with
    | '"' :: cs' =>
      match parseStrBody cs' with
      | none => none
      | some (kchars, rest) =>
        match skipWs rest with
        | ':' :: rest' =>
          match parseVal fuel rest' with
          | none => none
          | some (v, rest'') => some (String.mk kchars, v, rest'')
        | _ => none
    | _ => none

/-- Parse the elements of an array after the opening bracket; `first`
marks that no element has been consumed yet. -/
def parseElems : Nat → List Char → Bool → Option (JSON × List Char)
  | 0, _, _ => none
  | fuel + 1, cs, first =>
    match skipWs cs with
    | [] => none
    | c :: cs' =>
      if c = rbrack ∧ first then some (JSON.arr [], cs')
      else
        match parseVal fuel (c :: cs') with
        | none => none
        | some (v, rest) =>
          match skipWs rest with
          | ',' :: rest' =>
            match parseElems fuel rest' false with
            | some (JSON.arr es, rest'') => some (JSON.arr (v :: es), rest'')
            | _ => none
          | c' :: rest' =>
            if c' = rbrack then some (JSON.arr [v], rest') else none
          | [] => none

end

/-- A string fully matching the (integer) numeric-literal grammar. -/
def isIntLit (s : String) : Bool :=
  match s.data with
  | '-' :: ds => !ds.isEmpty && ds.all Char.isDigit
  | ds => !ds.isEmpty && ds.all Char.isDigit

/-- Value of an integer numeric literal. -/
def parseIntLit (s : String) : Int :=
  match s.data with
  | '-' :: ds => -(digitsToNat ds : Int)
  | ds => (digitsToNat ds : Int)

/-- Value Coercion (spec §4.1).  Modelled from the spec: the destr library
used at src/index.ts is an external dependency whose source is not in
src/.  `"true"`/`"false"` become booleans, a string fully matching the
numeric-literal grammar becomes a number (numeric literals are modelled as
integers), a string starting with a brace or bracket that parses as
structured data becomes the parsed structure, and anything else — in
particular any failed parse — is returned as the original string.  The
function is total and deterministic by construction. -/
def coerce (s : String) : JSON :=
  if s = "true" then JSON.bool true
  else if s = "false" then JSON.bool false
  else if isIntLit s then JSON.num (parseIntLit s)
  else
    match s.data with
    | c :: _ =>
      if c = lbrace || c = lbrack then
        match parseVal (s.length + 2) s.data with
        | some (v, rest) => if (skipWs rest).isEmpty then v else JSON.str s
        | none => JSON.str s
      else JSON.str s
    | [] => JSON.str s

/-- The inputs Value Coercion recognizes as other than a plain string:
exactly the boolean keywords, numeric literals, and successfully parsed
structures. -/
def coerceRecognized (s : String) : Bool :=
  s = "true" || s = "false" || isIntLit s ||
  (match s.data with
   | c :: _ =>
     (c = lbrace || c = lbrack) &&
     (match parseVal (s.length + 2) s.data with
      | some (_, rest) => (skipWs rest).isEmpty
      | none => false)
   | [] => false)

/-- Key-path mangling (spec §4.2): upper-snake-case a (camel-case) key
segment.  Modelled from the spec: the scule `snakeCase` helper and the
env.ts reader that use it are not in src/. -/
def mangleKey (s : String) : String :=
  String.mk (s.data.foldr
    (fun c acc => if c.isUpper then '_' :: c :: acc else c.toUpper :: acc) [])

/-- Path-Mangled Environment Reader (spec §4.2).  Modelled from the spec:
env.ts is not in src/ (only its tests are).  Looks up the mangled name
under `pfx`, falling back to `altPfx`, and coerces any hit. -/
def getEnv (env : String → Option String) (pfx : String) (altPfx : Option String)
    (key : String) : Option JSON :=
  match env (pfx ++ mangleKey key) with
  | some raw => some (coerce raw)
  | none =>
    match altPfx with
    | some ap => (env (ap ++ mangleKey key)).map coerce
    | none => none

/-- Shallow merge of an environment-sourced object into an existing object
(spec §4.3 step 4): environment keys win, keys only present in the
existing object are preserved. -/
def shallowMergeEnv (existing envObj : Entries) : Entries :=
  envObj.foldl (fun acc kv => setKey acc kv.1 kv.2) existing

/-- Recursive Environment Overlay (spec §4.3).  Modelled from the spec:
env.ts is not in src/ (only its tests are).  Walks the tree depth-first;
a found environment value replaces the existing value, except that two
object-shaped values are shallow-merged (environment keys winning); when
nothing is found, recursion continues into object-shaped values.  The
accumulated path is carried as the growing variable-name prefix `pfx`.
The `envExpansion` option (placeholder substitution in string leaves) is
not modelled; no claim concerns it. -/
def applyEnvF : Nat → (String → Option String) → String → Entries → Entries
  | 0, _, _, _ => []
  | _ + 1, _, _, [] => []
  | fuel + 1, env, pfx, (k, v) :: rest =>
    (k,
      match getEnv env pfx none k, v with
      | some (JSON.obj eo), JSON.obj tv => JSON.obj (shallowMergeEnv tv eo)
      | some found, _ => found
      | none, JSON.obj tv => JSON.obj (applyEnvF fuel env (pfx ++ mangleKey k ++ "_") tv)
      | none, v' => v') ::
    applyEnvF fuel env pfx rest

/-- The overlay at its natural recursion depth (`sizeJE` strictly bounds
the recursion, so the fuel never runs out; see `applyEnvF_congr`). -/
def applyEnv (env : String → Option String) (pfx : String) (es : Entries) : Entries :=
  applyEnvF (sizeJE es) env pfx es

/-- The overlay's resolution of one key (spec §4.3 steps 1–5), phrased
with the fuel-free overlay. -/
def applyEnvStep (env : String → Option String) (pfx : String) (k : String)
    (v : JSON) : JSON :=
  match getEnv env pfx none k, v with
  | some (JSON.obj eo), JSON.obj tv => JSON.obj (shallowMergeEnv tv eo)
  | some found, _ => found
  | none, JSON.obj tv => JSON.obj (applyEnv env (pfx ++ mangleKey k ++ "_") tv)
  | none, v' => v'

/-- The envMap loop of `loadConfig` (src/index.ts lines 206–212): for each
`envKey → key` entry in order, a defined environment variable is coerced
and written to `key`; undefined variables leave the accumulator
untouched. -/
def applyEnvMap (em : List (String × String)) (env : String → Option String)
    (cfg : Entries) : Entries :=
  em.foldl (fun acc e =>
    match env e.1 with
    | some raw => setKey acc e.2 (coerce raw)
    | none => acc) cfg

/-- A prompt descriptor (spec §3 PromptDescriptor): the fields the
resolver reads or synthesizes; extra prompt-engine rendering fields do not
influence the algorithm and are not modelled. -/
structure PromptDesc where
  name : String
  type : String
  message : String
deriving DecidableEq

/-- The `prompts` option: absent, explicitly `false`, or a descriptor
array (a function-valued option is modelled by its resolved result). -/
inductive PromptsOpt where
  | undef
  | disabled
  | arr (l : List PromptDesc)
deriving DecidableEq

/-- The inputs of one `loadConfig` invocation (src/index.ts lines
120–158), with the external collaborators' results substituted in:
`moduleConfig` is the discovered module-config layer, `extraConfig` the
explicit config-file layer (each `[]` when absent — defu treats a missing
layer and an empty object alike), `env` the process environment as it
stands after the dotenv collaborator, and `promptFn` the prompting
collaborator.  Function-valued `required`/`prompt`/`prompts` options are
modelled by their resolved results, which the code awaits exactly once. -/
structure LoadOpts where
  name : String
  overrides : Entries
  defaultConfig : Entries
  moduleConfig : Entries
  extraConfig : Entries
  dotenv : Bool
  env : String → Option String
  envMap : List (String × String)
  required : Option (List String)
  prompt : Option (List String)
  prompts : PromptsOpt
  hasTTY : Bool
  promptFn : List PromptDesc → Entries

/-- The result of `loadConfig` restricted to the fields the claims are
about; `promptCalls` instruments how many times the prompting collaborator
was invoked (the code invokes it at most once). -/
structure LoadResult where
  config : Entries
  missing : List String
  promptCalls : Nat

/-- Step 3 of `loadConfig` (src/index.ts lines 176–183): the pre-environment
merge `defu({}, overrides, extraConfig, moduleConfig, defaultConfig)`. -/
def preConfig (o : LoadOpts) : Entries :=
  defu [o.overrides, o.extraConfig, o.moduleConfig, o.defaultConfig]

/-- The implicit-overlay variable-name root
`` `${snakeCase(name).toUpperCase()}_CONFIG_` `` (src/index.ts line 203). -/
def envPfx (o : LoadOpts) : String :=
  mangleKey o.name ++ "_CONFIG_"

/-- The environment layer (src/index.ts lines 190–213): when `dotenv` is
enabled, the path-mangled overlay applied to a deep clone of the merged
config, followed by the envMap assignments; otherwise empty.  The deep
clone (klona) has no observable effect on the produced value and is the
identity here. -/
def envConfig (o : LoadOpts) : Entries :=
  if o.dotenv then
    applyEnvMap o.envMap o.env (applyEnv o.env (envPfx o) (preConfig o))
  else []

/-- Step 4 of `loadConfig` (src/index.ts line 216): the pre-prompt merge
`defu({}, overrides, envConfig, _config)`. -/
def mergedConfig (o : LoadOpts) : Entries :=
  defu [o.overrides, envConfig o, preConfig o]

/-- The missing set (src/index.ts line 230): required keys not among
`Object.keys(config)`; `[]` when the `required` option is absent. -/
def missingOf (o : LoadOpts) : List String :=
  match o.required with
  | some req => req.filter (fun k => !(keysOf (mergedConfig o)).contains k)
  | none => []

/-- First-occurrence deduplication with the set of already-seen keys
carried along. -/
def dedupGo (seen : List String) : List String → List String
  | [] => []
  | x :: xs =>
    if seen.contains x then dedupGo seen xs
    else x :: dedupGo (x :: seen) xs

/-- First-occurrence deduplication, as `[...new Set(l)]` produces. -/
def dedupFirst (l : List String) : List String := dedupGo [] l

/-- The combined missing/prompt key set
`[...new Set([...missing, ...(prompt || [])])]` (src/index.ts line 260). -/
def combinedOf (o : LoadOpts) : List String :=
  dedupFirst (missingOf o ++ (o.prompt.getD []))

/-- The fallback descriptor synthesized for a key with no matching entry
in the prompts array (src/index.ts lines 246–250). -/
def fallbackDesc (k : String) : PromptDesc :=
  ⟨k, "input", "Please specify value for \"" ++ k ++ "\""⟩

/-- `findPrompt` (src/index.ts lines 245–257): select the first descriptor
naming the key from the resolved prompts array, else the fallback. -/
def findPrompt (ps : Option (List PromptDesc)) (k : String) : PromptDesc :=
  match ps with
  | some l => ((l.find? (fun p => p.name = k)).getD (fallbackDesc k))
  | none => fallbackDesc k

/-- The resolved prompts array (src/index.ts lines 241–243): a static
array is used as is; `false` never reaches this point (the gate throws
first); a function-valued option is modelled by its resolved result
(`undef` when it yields nothing). -/
def promptsResolved (o : LoadOpts) : Option (List PromptDesc) :=
  match o.prompts with
  | PromptsOpt.arr l => some l
  | _ => none

/-- The position of the first descriptor naming `k`, if any. -/
def promptIdxN : List PromptDesc → String → Option Nat
  | [], _ => none
  | p :: rest, k =>
    if p.name = k then some 0 else (promptIdxN rest k).map (· + 1)

/-- `findIndex(p => p.name === key)` over the prompts array, JS-style
(−1 when absent). -/
def promptIdx (ps : List PromptDesc) (k : String) : Int :=
  match promptIdxN ps k with
  | some i => (i : Int)
  | none => -1

/-- The sort comparator of src/index.ts lines 260–266. -/
def promptCmp (ps : List PromptDesc) (a b : String) : Int :=
  if promptIdx ps a = -1 then 1
  else if promptIdx ps b = -1 then -1
  else promptIdx ps a - promptIdx ps b

/-- One binary-search descent of V8's `BinaryInsertionSort`
(v8/third_party/v8/builtins/array-sort.tq): locate the insertion point
of the pivot `x` in the prefix `P` between `left` and `right`, halving
at `mid = left + ((right - left) >> 1)` and moving `right` down to
`mid` when `comparefn(pivot, P[mid]) < 0`, `left` past `mid`
otherwise.  Fuel-indexed (the gap `right - left` shrinks each step). -/
def binSearchGo (cmp : String → String → Int) (x : String)
    (P : List String) : Nat → Nat → Nat → Nat
  | 0, left, _ => left
  | fuel + 1, left, right =>
    if left < right then
      if cmp x (P.getD (left + (right - left) / 2) "") < 0 then
        binSearchGo cmp x P fuel left (left + (right - left) / 2)
      else binSearchGo cmp x P fuel (left + (right - left) / 2 + 1) right
    else left

/-- V8's binary insertion of one element into the current prefix:
search over the whole prefix, then shift and store. -/
def binInsertJS (cmp : String → String → Int) (P : List String)
    (x : String) : List String :=
  P.take (binSearchGo cmp x P (P.length + 1) 0 P.length) ++
    x :: P.drop (binSearchGo cmp x P (P.length + 1) 0 P.length)

/-- The non-descending extension step of V8's `CountAndMakeRun`: extend
while `comparefn(next, prev) >= 0`; returns the extension and the
untouched tail. -/
def ascRunGo (cmp : String → String → Int) : String → List String →
    List String × List String
  | _, [] => ([], [])
  | prev, x :: rest =>
    if 0 ≤ cmp x prev then
      (x :: (ascRunGo cmp x rest).1, (ascRunGo cmp x rest).2)
    else ([], x :: rest)

/-- The strictly-descending extension step of `CountAndMakeRun`. -/
def descRunGo (cmp : String → String → Int) : String → List String →
    List String × List String
  | _, [] => ([], [])
  | prev, x :: rest =>
    if cmp x prev < 0 then
      (x :: (descRunGo cmp x rest).1, (descRunGo cmp x rest).2)
    else ([], x :: rest)

/-- `Array.prototype.sort` with a comparator, as V8 (Node's engine,
version ≥ 11) executes it on the short arrays at hand: TimSort detects
one initial run — a non-descending prefix kept in place, or a strictly
descending prefix reversed — and, that run being shorter than the
minimum run length (which is the whole length below 64 elements),
extends it by binary-inserting every remaining element left to right
(`CountAndMakeRun` + `BinaryInsertionSort` in
v8/third_party/v8/builtins/array-sort.tq); no merge pass occurs below
64 elements. -/
def v8Sort (cmp : String → String → Int) : List String → List String
  | [] => []
  | [x] => [x]
  | a :: b :: rest =>
    if cmp b a < 0 then
      (descRunGo cmp b rest).2.foldl (binInsertJS cmp)
        (a :: b :: (descRunGo cmp b rest).1).reverse
    else
      (ascRunGo cmp b rest).2.foldl (binInsertJS cmp)
        (a :: b :: (ascRunGo cmp b rest).1)

/-- The final ordered key list (src/index.ts lines 259–267): the combined
set sorted by the comparator when a prompts array resolved, the combined
set as is otherwise. -/
def promptKeysOf (o : LoadOpts) : List String :=
  match promptsResolved o with
  | some ps => v8Sort (promptCmp ps) (combinedOf o)
  | none => combinedOf o

/-- The descriptor list handed to the prompting collaborator
(src/index.ts line 269). -/
def promptDescsOf (o : LoadOpts) : List PromptDesc :=
  (promptKeysOf o).map (findPrompt (promptsResolved o))

/-- The `missing.join` call at src/index.ts line 234. -/
def joinComma : List String → String
  | [] => ""
  | [x] => x
  | x :: rest => x ++ ", " ++ joinComma rest

/-- The validation error message thrown at src/index.ts lines 234–238. -/
def missingMessage (missing : List String) : String :=
  "Configuration validation failed: Required fields are missing [" ++
    joinComma missing ++
    "]. TTY is not available for interactive prompts. " ++
    "Please provide these values via environment variables or configuration files."

/-- `loadConfig` (src/index.ts lines 120–282) after the external
collaborators' results are substituted in: merge the file layers with
overrides and defaults, compute the environment layer, re-merge with
overrides on top, then resolve missing required fields — failing when
prompting is needed but unavailable, prompting otherwise, and finally
folding the response back in with highest precedence. -/
def loadConfig (o : LoadOpts) : Except String LoadResult :=
  if o.required.isSome || o.prompt.isSome then
    if (missingOf o).length > 0 || !(o.prompt.getD []).isEmpty then
      if !o.hasTTY || o.prompts = PromptsOpt.disabled then
        Except.error (missingMessage (missingOf o))
      else
        Except.ok ⟨defu [o.promptFn (promptDescsOf o), mergedConfig o],
          missingOf o, 1⟩
    else Except.ok ⟨mergedConfig o, [], 0⟩
  else Except.ok ⟨mergedConfig o, [], 0⟩

/-- A value that the merge and the overlay pass through verbatim: neither
`null` (skipped by defu) nor an object (merged recursively). -/
def isAtomic : JSON → Bool
  | .null => false
  | .obj _ => false
  | _ => true

/-- Key uniqueness at the top level of an object, as JS objects guarantee
by construction. -/
def nodupKeysB : Entries → Bool
  | [] => true
  | (k, _) :: rest => (getKey rest k).isNone && nodupKeysB rest

mutual

/-- Hereditary well-formedness of a value: every object layer has unique
keys (which JS objects guarantee by construction). -/
def wfJ : JSON → Bool
  | .obj es => nodupKeysB es && wfJE es
  | .arr es => wfJA es
  | _ => true

/-- Hereditary well-formedness, on sequences. -/
def wfJA : List JSON → Bool
  | [] => true
  | v :: rest => wfJ v && wfJA rest

/-- Hereditary well-formedness, on entry lists. -/
def wfJE : Entries → Bool
  | [] => true
  | (_, v) :: rest => wfJ v && wfJE rest

end

mutual

/-- No sequence anywhere in the value. -/
def arrFreeJ : JSON → Bool
  | .arr _ => false
  | .obj es => arrFreeJE es
  | _ => true

/-- No sequence anywhere in the entry list. -/
def arrFreeJE : Entries → Bool
  | [] => true
  | (_, v) :: rest => arrFreeJ v && arrFreeJE rest

end

/-- The envMap loop's effect on the value recorded for config key `k`,
starting from `acc`: each entry targeting `k` whose environment variable
is defined overwrites the accumulator with the coerced value. -/
def envMapAux (em : List (String × String)) (env : String → Option String)
    (k : String) (acc : Option JSON) : Option JSON :=
  em.foldl (fun acc e =>
    if e.2 = k then
      match env e.1 with
      | some raw => some (coerce raw)
      | none => acc
    else acc) acc

/-- The value the envMap loop leaves at config key `k`: the coercion of
the last envMap entry targeting `k` whose environment variable is defined,
if any. -/
def envMapValueAt (em : List (String × String)) (env : String → Option String)
    (k : String) : Option JSON :=
  envMapAux em env k none

/-- The environment layer's value at top-level key `k`, stated the way the
spec describes the layer (spec §2, §4.3, §6): when dotenv is enabled, an
envMap hit wins; otherwise the path-mangled overlay variable applies to
keys that exist in the merged pre-environment config. -/
def envLayerValueAt (o : LoadOpts) (k : String) : Option JSON :=
  if o.dotenv then
    match envMapValueAt o.envMap o.env k with
    | some v => some v
    | none =>
      if hasKey (preConfig o) k then
        (o.env (envPfx o ++ mangleKey k)).map coerce
      else none
  else none

/-- First defined value in a chain of layers. -/
def firstSome : List (Option JSON) → Option JSON
  | [] => none
  | some v :: _ => some v
  | none :: rest => firstSome rest

/-- Spec-side definition (spec §3 Invariant): the precedence chain
`prompt response > overrides > environment > config file > module config >
defaults`, read off the spec's words, to be compared with what
`loadConfig` computes. -/
def specPrecedence (o : LoadOpts) (resp : Entries) (k : String) : Option JSON :=
  firstSome [getKey resp k, getKey o.overrides k, envLayerValueAt o k,
    getKey o.extraConfig k, getKey o.moduleConfig k, getKey o.defaultConfig k]

/-- Whether the resolver reaches the prompting collaborator: the gate is
active, the combined missing/prompt set is non-empty, and interactive
prompting is available and not disabled (src/index.ts lines 228–241). -/
def promptHappens (o : LoadOpts) : Bool :=
  (o.required.isSome || o.prompt.isSome) &&
  ((missingOf o).length > 0 || !(o.prompt.getD []).isEmpty) &&
  (o.hasTTY && !(o.prompts = PromptsOpt.disabled : Bool))

/-- The user-prompt response layer actually folded into the result: the
collaborator's answer when prompting happens, the empty layer otherwise. -/
def respUsed (o : LoadOpts) : Entries :=
  if promptHappens o then o.promptFn (promptDescsOf o) else []

/-- Whether the resolver fails at the TTY gate (src/index.ts lines
232–239). -/
def gateFails (o : LoadOpts) : Bool :=
  (o.required.isSome || o.prompt.isSome) &&
  ((missingOf o).length > 0 || !(o.prompt.getD []).isEmpty) &&
  (!o.hasTTY || (o.prompts = PromptsOpt.disabled : Bool))

/-- Substring occurrence, at the character-list level. -/
def occursIn (needle hay : String) : Prop :=
  ∃ u v, u ++ needle.data ++ v = hay.data

/-- A `loadConfig` invocation with nothing configured beyond the given
fields: no discovered or explicit file layer, no environment, prompting
collaborator answering nothing. -/
def bareOpts : LoadOpts :=
  { name := "test"
  , overrides := []
  , defaultConfig := []
  , moduleConfig := []
  , extraConfig := []
  , dotenv := false
  , env := fun _ => none
  , envMap := []
  , required := none
  , prompt := none
  , prompts := PromptsOpt.undef
  , hasTTY := true
  , promptFn := fun _ => [] }

/-- Fixture for C4: `required:["a"]` against a config holding the falsy
value `0` at `a`. -/
def exOptsC4 : LoadOpts :=
  { bareOpts with
    defaultConfig := [("a", JSON.num 0)]
  , required := some ["a"] }

/-- Fixture for the C2 counterexample: empty missing set, non-empty
prompt-only set, no TTY. -/
def exOptsC2a : LoadOpts :=
  { bareOpts with
    prompt := some ["x"]
  , hasTTY := false }

/-- Fixture for the C2 witness: an unmet required key with no TTY. -/
def exOptsC2b : LoadOpts :=
  { bareOpts with
    required := some ["x", "y"]
  , hasTTY := false }

/-- Fixture refuting the unrestricted precedence claim: `overrides`
defines `a` as `null` and `b` as the object `\x7bx: 1\x7d`, while
`defaultConfig` carries `a = 5` and `b = \x7bx: 2, y: 3\x7d`. -/
def exOptsC1cx : LoadOpts :=
  { name := "test"
  , overrides := [("a", JSON.null), ("b", JSON.obj [("x", JSON.num 1)])]
  , defaultConfig := [("a", JSON.num 5),
      ("b", JSON.obj [("x", JSON.num 2), ("y", JSON.num 3)])]
  , moduleConfig := []
  , extraConfig := []
  , dotenv := false
  , env := fun _ => none
  , envMap := []
  , required := none
  , prompt := none
  , prompts := PromptsOpt.undef
  , hasTTY := true
  , promptFn := fun _ => [] }

/-- Fixture for C1: an overridden key, an environment-overridden key
sourced from the module layer, and a defaults-only key. -/
def exOptsC1 : LoadOpts :=
  { name := "test"
  , overrides := [("value", JSON.str "override")]
  , defaultConfig := [("value", JSON.str "default"),
      ("envv", JSON.str "default-e"), ("only", JSON.num 7)]
  , moduleConfig := [("envv", JSON.str "module")]
  , extraConfig := []
  , dotenv := true
  , env := fun n => if n = "TEST_CONFIG_ENVV" then some "env-value" else none
  , envMap := []
  , required := none
  , prompt := none
  , prompts := PromptsOpt.undef
  , hasTTY := true
  , promptFn := fun _ => [] }

/-- The spec's §8 environment-overlay example tree
`\x7bdatabase:\x7bhost:"x",port:1\x7d\x7d`. -/
def treeSpecEx : Entries :=
  [("database", JSON.obj [("host", JSON.str "x"), ("port", JSON.num 1)])]

/-- Environment holding `APP_CONFIG_DATABASE` set to the JSON object text
of the spec's §8 object-merge example. -/
def envSpecObj : String → Option String := fun n =>
  if n = "APP_CONFIG_DATABASE" then some "\x7b\"host\":\"z\",\"ssl\":true\x7d"
  else none

/-- Environment holding `APP_CONFIG_DATABASE=plain-string` (the spec's §8
scalar-replace example). -/
def envSpecScalar : String → Option String := fun n =>
  if n = "APP_CONFIG_DATABASE" then some "plain-string" else none

/-- Fixture for C7: one envMap entry with its variable defined, one whose
variable is undefined, against a default layer. -/
def exOptsC7 : LoadOpts :=
  { bareOpts with
    dotenv := true
  , defaultConfig := [("database", JSON.str "default-db"), ("port", JSON.num 1)]
  , envMap := [("DATABASE_URL", "database"), ("MISSING_VAR", "port")]
  , env := fun n =>
      if n = "DATABASE_URL" then some "postgres://localhost" else none }

/-- Fixture for the spec's prompt-ordering example: three combined keys,
a prompts array naming `c` then `a`. -/
def exOptsC3ex : LoadOpts :=
  { bareOpts with
    required := some ["a", "b", "c"]
  , prompts := PromptsOpt.arr [⟨"c", "input", "m"⟩, ⟨"a", "input", "m"⟩] }

/-! ### Heap model for the aliasing / frame claim

`loadConfig` manipulates JavaScript objects by reference, and the frame
claim is about in-place mutation, so this section gives the object
pipeline a small store-passing semantics: a heap maps identifiers to
objects or arrays whose field values are scalars or references.  The
operations the pipeline performs on objects — the custom `defu`
(an `Object.assign` shallow copy plus per-key writes into that fresh
copy), `klona` (deep clone), the `applyEnv` overlay (in-place writes)
and the `envMap` loop — are re-expressed as heap transformers, and the
frame theorems show that every write lands on a cell allocated after
the call began, so no caller-owned object is ever written. -/

/-- A JavaScript runtime value: a primitive, or a reference to a heap
cell. -/
inductive HVal where
  | str (s : String)
  | num (n : Int)
  | bool (b : Bool)
  | null
  | ref (r : Nat)
deriving DecidableEq

/-- A heap cell: a plain object (insertion-ordered fields) or an
array. -/
inductive HObj where
  | obj (entries : List (String × HVal))
  | arr (elems : List HVal)
deriving DecidableEq

/-- The store: an allocation pointer and a list of cells, most recent
binding first. -/
structure Heap where
  next : Nat
  cells : List (Nat × HObj)

/-- Lookup in a cell list (first — most recent — binding wins). -/
def cellsGet : List (Nat × HObj) → Nat → Option HObj
  | [], _ => none
  | (i, ob) :: rest, id => if i = id then some ob else cellsGet rest id

/-- The cell at identifier `id`, if allocated. -/
def Heap.mem (h : Heap) (id : Nat) : Option HObj := cellsGet h.cells id

/-- Well-formed heap: nothing is allocated at or above the allocation
pointer. -/
def heapWF (h : Heap) : Prop := ∀ id, h.next ≤ id → h.mem id = none

/-- Allocate a fresh cell (JS object/array literal creation). -/
def alloc (h : Heap) (ob : HObj) : Heap × Nat :=
  (⟨h.next + 1, (h.next, ob) :: h.cells⟩, h.next)

/-- Overwrite the cell at `r`. -/
def writeAt (h : Heap) (r : Nat) (ob : HObj) : Heap :=
  ⟨h.next, (r, ob) :: h.cells⟩

/-- Field read on a field list (heap-value analogue of `getKey`). -/
def getF : List (String × HVal) → String → Option HVal
  | [], _ => none
  | (k', v) :: rest, k => if k' = k then some v else getF rest k

/-- Field write on a field list (heap-value analogue of `setKey`):
replace in place if the key exists, append otherwise. -/
def setF : List (String × HVal) → String → HVal → List (String × HVal)
  | [], k, v => [(k, v)]
  | (k', v') :: rest, k, v =>
    if k' = k then (k, v) :: rest else (k', v') :: setF rest k v

/-- JS property read `o[k]` through a reference. -/
def getFieldAt (h : Heap) (r : Nat) (k : String) : Option HVal :=
  match h.mem r with
  | some (HObj.obj es) => getF es k
  | _ => none

/-- JS property write `o[k] = v` through a reference: mutates the cell
at `r` in place (no-op on a non-object cell). -/
def setFieldAt (h : Heap) (r : Nat) (k : String) (v : HVal) : Heap :=
  match h.mem r with
  | some (HObj.obj es) => writeAt h r (HObj.obj (setF es k v))
  | _ => h

/-- The field list of an object value (empty for non-objects), as read
by `Object.assign(\x7b\x7d, v)`. -/
def objEntriesOf (h : Heap) (v : HVal) : List (String × HVal) :=
  match v with
  | HVal.ref r =>
    match h.mem r with
    | some (HObj.obj es) => es
    | _ => []
  | _ => []

/-- `isPlainObject` on a runtime value. -/
def isObjRefH (h : Heap) (v : HVal) : Bool :=
  match v with
  | HVal.ref r =>
    match h.mem r with
    | some (HObj.obj _) => true
    | _ => false
  | _ => false

/-- `Array.isArray` on a runtime value. -/
def isArrRefH (h : Heap) (v : HVal) : Bool :=
  match v with
  | HVal.ref r =>
    match h.mem r with
    | some (HObj.arr _) => true
    | _ => false
  | _ => false

mutual

/-- Materialize a parsed JSON value (e.g. a `destr` result) as a runtime
value: scalars stay immediate, every object/array allocates a fresh
cell. -/
def allocJSON : Heap → JSON → Heap × HVal
  | h, JSON.str s => (h, HVal.str s)
  | h, JSON.num n => (h, HVal.num n)
  | h, JSON.bool b => (h, HVal.bool b)
  | h, JSON.null => (h, HVal.null)
  | h, JSON.arr es =>
    let p := allocJSONArr h es
    let q := alloc p.1 (HObj.arr p.2)
    (q.1, HVal.ref q.2)
  | h, JSON.obj es =>
    let p := allocJSONEntries h es
    let q := alloc p.1 (HObj.obj p.2)
    (q.1, HVal.ref q.2)

/-- Materialize a list of JSON values left to right. -/
def allocJSONArr : Heap → List JSON → Heap × List HVal
  | h, [] => (h, [])
  | h, v :: rest =>
    let p := allocJSON h v
    let q := allocJSONArr p.1 rest
    (q.1, p.2 :: q.2)

/-- Materialize JSON object entries left to right. -/
def allocJSONEntries : Heap → Entries → Heap × List (String × HVal)
  | h, [] => (h, [])
  | h, (k, v) :: rest =>
    let p := allocJSON h v
    let q := allocJSONEntries p.1 rest
    (q.1, (k, p.2) :: q.2)

end

mutual

/-- Heap semantics of one `_defu(base, defaults)` step of the custom defu
(src/index.ts lines 47–55 together with the defu library's `_defu`,
spec-modelled): allocate `Object.assign(\x7b\x7d, defaults)` — a fresh
shallow copy — then walk the base object's entries, writing only into
that copy.  Returns the reference of the fresh result object. -/
def defuH : Nat → Heap → HVal → HVal → Option (Heap × Nat)
  | 0, _, _, _ => none
  | fuel + 1, h, base, dflts =>
    let p := alloc h (HObj.obj (objEntriesOf h dflts))
    match base with
    | HVal.ref rb =>
      match p.1.mem rb with
      | some (HObj.obj bes) => defuEntriesH fuel p.1 p.2 bes
      | _ => some (p.1, p.2)
    | _ => some (p.1, p.2)

/-- The `for key in baseObject` loop of `_defu`, writing into the fresh
copy `robj`: null/undefined skipped, array-array replaced by the custom
merger, object-object merged recursively, anything else assigned. -/
def defuEntriesH : Nat → Heap → Nat → List (String × HVal) → Option (Heap × Nat)
  | 0, _, _, _ => none
  | _ + 1, h, robj, [] => some (h, robj)
  | fuel + 1, h, robj, (k, v) :: rest =>
    if v = HVal.null then defuEntriesH fuel h robj rest
    else
      match getFieldAt h robj k with
      | some cur =>
        if isArrRefH h v && isArrRefH h cur then
          defuEntriesH fuel (setFieldAt h robj k v) robj rest
        else if isObjRefH h v && isObjRefH h cur then
          match defuH fuel h v cur with
          | some q => defuEntriesH fuel (setFieldAt q.1 robj k (HVal.ref q.2)) robj rest
          | none => none
        else
          defuEntriesH fuel (setFieldAt h robj k v) robj rest
      | none => defuEntriesH fuel (setFieldAt h robj k v) robj rest

end

/-- `args.reduce((p, c) => _defu(p, c), \x7b\x7d)`: fold `_defu` over the
argument list starting from a fresh empty accumulator (the defu
library's variadic entry point, spec-modelled). -/
def defuFoldH : Nat → Heap → Nat → List HVal → Option (Heap × Nat)
  | _, h, racc, [] => some (h, racc)
  | fuel, h, racc, c :: rest =>
    match defuH fuel h (HVal.ref racc) c with
    | some q => defuFoldH fuel q.1 q.2 rest
    | none => none

/-- Variadic `defu(l₁, …, lₙ)` on the heap. -/
def defuNH (fuel : Nat) (h : Heap) (layers : List HVal) : Option (Heap × Nat) :=
  let p := alloc h (HObj.obj [])
  defuFoldH fuel p.1 p.2 layers

mutual

/-- Heap semantics of `klona` (deep clone, spec-modelled library): copy
the value's reachable graph, allocating fresh cells for every object and
array; primitives are returned as-is and a dangling reference clones to
null. -/
def klonaH : Nat → Heap → HVal → Option (Heap × HVal)
  | 0, _, _ => none
  | fuel + 1, h, v =>
    match v with
    | HVal.ref r =>
      match h.mem r with
      | some (HObj.obj es) =>
        match klonaEntriesH fuel h es with
        | some p =>
          let q := alloc p.1 (HObj.obj p.2)
          some (q.1, HVal.ref q.2)
        | none => none
      | some (HObj.arr vs) =>
        match klonaListH fuel h vs with
        | some p =>
          let q := alloc p.1 (HObj.arr p.2)
          some (q.1, HVal.ref q.2)
        | none => none
      | none => some (h, HVal.null)
    | v => some (h, v)

/-- Deep-clone object entries left to right. -/
def klonaEntriesH : Nat → Heap → List (String × HVal) →
    Option (Heap × List (String × HVal))
  | 0, _, _ => none
  | _ + 1, h, [] => some (h, [])
  | fuel + 1, h, (k, v) :: rest =>
    match klonaH fuel h v with
    | some p =>
      match klonaEntriesH fuel p.1 rest with
      | some q => some (q.1, (k, p.2) :: q.2)
      | none => none
    | none => none

/-- Deep-clone array elements left to right. -/
def klonaListH : Nat → Heap → List HVal → Option (Heap × List HVal)
  | 0, _, _ => none
  | _ + 1, h, [] => some (h, [])
  | fuel + 1, h, v :: rest =>
    match klonaH fuel h v with
    | some p =>
      match klonaListH fuel p.1 rest with
      | some q => some (q.1, p.2 :: q.2)
      | none => none
    | none => none

end

/-- In-place shallow merge of a coerced environment object's entries
into the existing object at `rk` (spec §4.2 step 4): each environment
key's value is materialized fresh and written over the existing
field. -/
def shallowMergeH : Heap → Nat → Entries → Heap
  | h, _, [] => h
  | h, rk, (k, j) :: rest =>
    let p := allocJSON h j
    shallowMergeH (setFieldAt p.1 rk k p.2) rk rest

mutual

/-- Heap semantics of the `applyEnv` overlay (spec §4.2, env.ts absent
from src/), mutating the object at `r` in place: an environment hit on
an object-valued field shallow-merges into the existing object, any
other hit replaces the field with a freshly materialized coerced value,
and misses recurse into object-valued fields with an extended prefix. -/
def applyEnvH : Nat → (String → Option String) → String → Heap → Nat →
    Option Heap
  | 0, _, _, _, _ => none
  | fuel + 1, env, pfx, h, r =>
    match h.mem r with
    | some (HObj.obj es) => applyEnvKeysH fuel env pfx h r (es.map Prod.fst)
    | _ => some h

/-- The per-key loop of `applyEnv` over the snapshot of the object's
keys. -/
def applyEnvKeysH : Nat → (String → Option String) → String → Heap → Nat →
    List String → Option Heap
  | 0, _, _, _, _, _ => none
  | _ + 1, _, _, h, _, [] => some h
  | fuel + 1, env, pfx, h, r, k :: rest =>
    match env (pfx ++ mangleKey k) with
    | some raw =>
      match coerce raw, getFieldAt h r k with
      | JSON.obj eo, some (HVal.ref rk) =>
        match h.mem rk with
        | some (HObj.obj _) => applyEnvKeysH fuel env pfx (shallowMergeH h rk eo) r rest
        | _ =>
          let p := allocJSON h (JSON.obj eo)
          applyEnvKeysH fuel env pfx (setFieldAt p.1 r k p.2) r rest
      | cv, _ =>
        let p := allocJSON h cv
        applyEnvKeysH fuel env pfx (setFieldAt p.1 r k p.2) r rest
    | none =>
      match getFieldAt h r k with
      | some (HVal.ref rk) =>
        match h.mem rk with
        | some (HObj.obj _) =>
          match applyEnvH fuel env (pfx ++ mangleKey k ++ "_") h rk with
          | some h2 => applyEnvKeysH fuel env pfx h2 r rest
          | none => none
        | _ => applyEnvKeysH fuel env pfx h r rest
      | _ => applyEnvKeysH fuel env pfx h r rest

end

/-- Heap semantics of the envMap loop (src/index.ts lines 206–212):
defined variables are coerced, materialized fresh and written onto the
env config object at `r`. -/
def applyEnvMapH : List (String × String) → (String → Option String) →
    Heap → Nat → Heap
  | [], _, h, _ => h
  | e :: rest, env, h, r =>
    match env e.1 with
    | some raw =>
      let p := allocJSON h (coerce raw)
      applyEnvMapH rest env (setFieldAt p.1 r e.2 p.2) r
    | none => applyEnvMapH rest env h r

/-- Heap semantics of the object pipeline inside `loadConfig`
(src/index.ts lines 176–216 and 271–273): merge the caller's layers with
the custom defu (`defu(\x7b\x7d, overrides, extraConfig, moduleConfig,
defaultConfig)`), build the environment config by running the overlay
and the envMap loop on a `klona` deep clone of that merge, re-merge with
overrides preferred (`defu(\x7b\x7d, overrides, envConfig, _config)`),
and finally merge an optional prompt response — a fresh object the
prompt engine materializes — via `defu(\x7b\x7d, response, config)`.
Loader-produced layers (`moduleConfig`, `extraConfig`) enter as heap
values exactly like the caller's. -/
def loadConfigPipeH (fuel : Nat) (h : Heap) (name : String)
    (ov ex md df : HVal) (dotenv : Bool) (env : String → Option String)
    (em : List (String × String)) (respond : Option JSON) :
    Option (Heap × Nat) :=
  let e0 := alloc h (HObj.obj [])
  match defuNH fuel e0.1 [HVal.ref e0.2, ov, ex, md, df] with
  | none => none
  | some c1 =>
    match
      (if dotenv then
        match klonaH fuel c1.1 (HVal.ref c1.2) with
        | some p =>
          match p.2 with
          | HVal.ref rk =>
            match applyEnvH fuel env (mangleKey name ++ "_CONFIG_") p.1 rk with
            | some h3 => some (applyEnvMapH em env h3 rk, HVal.ref rk)
            | none => none
          | v => some (p.1, v)
        | none => none
      else
        let q := alloc c1.1 (HObj.obj [])
        some (q.1, HVal.ref q.2)) with
    | none => none
    | some envp =>
      let e1 := alloc envp.1 (HObj.obj [])
      match defuNH fuel e1.1 [HVal.ref e1.2, ov, envp.2, HVal.ref c1.2] with
      | none => none
      | some c2 =>
        match respond with
        | none => some (c2.1, c2.2)
        | some j =>
          let p := allocJSON c2.1 j
          let e2 := alloc p.1 (HObj.obj [])
          defuNH fuel e2.1 [HVal.ref e2.2, p.2, HVal.ref c2.2]

/-- A value confined to the heap segment at or above the watermark
`n0`: a reference at or above `n0`, or a primitive. -/
def ValAbove (n0 : Nat) : HVal → Prop
  | HVal.ref r => n0 ≤ r
  | _ => True

/-- A cell all of whose contained values are confined above `n0`. -/
def ObjAbove (n0 : Nat) : HObj → Prop
  | HObj.obj es => ∀ kv, kv ∈ es → ValAbove n0 kv.2
  | HObj.arr vs => ∀ v, v ∈ vs → ValAbove n0 v

/-- The heap segment at or above `n0` is closed: cells there reference
only cells at or above `n0`. -/
def SegAbove (h : Heap) (n0 : Nat) : Prop :=
  ∀ id ob, n0 ≤ id → h.mem id = some ob → ObjAbove n0 ob

/-- Allocation-only evolution: the allocation pointer grows and every
pre-existing cell is untouched (well-formedness is carried along). -/
def FrameAll (h h2 : Heap) : Prop :=
  h.next ≤ h2.next ∧ (∀ id, id < h.next → h2.mem id = h.mem id) ∧
    (heapWF h → heapWF h2)

/-- Segment-confined evolution: the allocation pointer grows, every cell
below the watermark `n0` is untouched, and the result is well-formed
with a closed segment (used for the in-place overlay, whose writes all
land at or above `n0`). -/
def FrameSeg (n0 : Nat) (h h2 : Heap) : Prop :=
  h.next ≤ h2.next ∧ (∀ id, id < n0 → h2.mem id = h.mem id) ∧
    heapWF h2 ∧ SegAbove h2 n0

/-- Concrete caller heap for the frame witness: cell 0 holds the
caller's `overrides` object, cell 1 the caller's `defaultConfig`. -/
def heapC10 : Heap :=
  ⟨2, [(0, HObj.obj [("host", HVal.str "o")]),
       (1, HObj.obj [("host", HVal.str "d"), ("port", HVal.num 1)])]⟩

/-- Concrete environment for the frame witness: one overlay hit. -/
def envC10 : String → Option String :=
  fun s => if s = "TEST_CONFIG_HOST" then some "envhost" else none

/-- Stage values of the frame-witness pipeline run, used to drive the
staged evaluation of `loadConfigPipeH` on the witness input. -/
def pipeH1C10 : Heap := ⟨9, [(8, HObj.obj [("host", HVal.str "o"), ("port", HVal.num 1)]), (8, HObj.obj [("host", HVal.str "d"), ("port", HVal.num 1)]), (7, HObj.obj [("host", HVal.str "o")]), (7, HObj.obj []), (6, HObj.obj [("host", HVal.str "o")]), (6, HObj.obj []), (5, HObj.obj [("host", HVal.str "o")]), (4, HObj.obj []), (3, HObj.obj []), (2, HObj.obj []), (0, HObj.obj [("host", HVal.str "o")]), (1, HObj.obj [("host", HVal.str "d"), ("port", HVal.num 1)])]⟩

/-- Heap after the `klona` deep clone of the witness merge. -/
def pipeH2C10 : Heap := ⟨10, [(9, HObj.obj [("host", HVal.str "o"), ("port", HVal.num 1)]), (8, HObj.obj [("host", HVal.str "o"), ("port", HVal.num 1)]), (8, HObj.obj [("host", HVal.str "d"), ("port", HVal.num 1)]), (7, HObj.obj [("host", HVal.str "o")]), (7, HObj.obj []), (6, HObj.obj [("host", HVal.str "o")]), (6, HObj.obj []), (5, HObj.obj [("host", HVal.str "o")]), (4, HObj.obj []), (3, HObj.obj []), (2, HObj.obj []), (0, HObj.obj [("host", HVal.str "o")]), (1, HObj.obj [("host", HVal.str "d"), ("port", HVal.num 1)])]⟩

/-- Heap after the environment overlay on the witness clone. -/
def pipeH3C10 : Heap := ⟨10, [(9, HObj.obj [("host", HVal.str "envhost"), ("port", HVal.num 1)]), (9, HObj.obj [("host", HVal.str "o"), ("port", HVal.num 1)]), (8, HObj.obj [("host", HVal.str "o"), ("port", HVal.num 1)]), (8, HObj.obj [("host", HVal.str "d"), ("port", HVal.num 1)]), (7, HObj.obj [("host", HVal.str "o")]), (7, HObj.obj []), (6, HObj.obj [("host", HVal.str "o")]), (6, HObj.obj []), (5, HObj.obj [("host", HVal.str "o")]), (4, HObj.obj []), (3, HObj.obj []), (2, HObj.obj []), (0, HObj.obj [("host", HVal.str "o")]), (1, HObj.obj [("host", HVal.str "d"), ("port", HVal.num 1)])]⟩

/-- Heap after the second (override-preferring) witness merge. -/
def pipeH5C10 : Heap := ⟨16, [(15, HObj.obj [("host", HVal.str "o"), ("port", HVal.num 1)]), (15, HObj.obj [("host", HVal.str "o"), ("port", HVal.num 1)]), (15, HObj.obj [("host", HVal.str "o"), ("port", HVal.num 1)]), (14, HObj.obj [("host", HVal.str "o"), ("port", HVal.num 1)]), (14, HObj.obj [("host", HVal.str "envhost"), ("port", HVal.num 1)]), (13, HObj.obj [("host", HVal.str "o")]), (12, HObj.obj []), (11, HObj.obj []), (10, HObj.obj []), (9, HObj.obj [("host", HVal.str "envhost"), ("port", HVal.num 1)]), (9, HObj.obj [("host", HVal.str "o"), ("port", HVal.num 1)]), (8, HObj.obj [("host", HVal.str "o"), ("port", HVal.num 1)]), (8, HObj.obj [("host", HVal.str "d"), ("port", HVal.num 1)]), (7, HObj.obj [("host", HVal.str "o")]), (7, HObj.obj []), (6, HObj.obj [("host", HVal.str "o")]), (6, HObj.obj []), (5, HObj.obj [("host", HVal.str "o")]), (4, HObj.obj []), (3, HObj.obj []), (2, HObj.obj []), (0, HObj.obj [("host", HVal.str "o")]), (1, HObj.obj [("host", HVal.str "d"), ("port", HVal.num 1)])]⟩

/-- Heap after materializing the witness prompt response. -/
def pipeH6C10 : Heap := ⟨17, [(16, HObj.obj [("extra", HVal.num 7)]), (15, HObj.obj [("host", HVal.str "o"), ("port", HVal.num 1)]), (15, HObj.obj [("host", HVal.str "o"), ("port", HVal.num 1)]), (15, HObj.obj [("host", HVal.str "o"), ("port", HVal.num 1)]), (14, HObj.obj [("host", HVal.str "o"), ("port", HVal.num 1)]), (14, HObj.obj [("host", HVal.str "envhost"), ("port", HVal.num 1)]), (13, HObj.obj [("host", HVal.str "o")]), (12, HObj.obj []), (11, HObj.obj []), (10, HObj.obj []), (9, HObj.obj [("host", HVal.str "envhost"), ("port", HVal.num 1)]), (9, HObj.obj [("host", HVal.str "o"), ("port", HVal.num 1)]), (8, HObj.obj [("host", HVal.str "o"), ("port", HVal.num 1)]), (8, HObj.obj [("host", HVal.str "d"), ("port", HVal.num 1)]), (7, HObj.obj [("host", HVal.str "o")]), (7, HObj.obj []), (6, HObj.obj [("host", HVal.str "o")]), (6, HObj.obj []), (5, HObj.obj [("host", HVal.str "o")]), (4, HObj.obj []), (3, HObj.obj []), (2, HObj.obj []), (0, HObj.obj [("host", HVal.str "o")]), (1, HObj.obj [("host", HVal.str "d"), ("port", HVal.num 1)])]⟩

/-- Final heap of the witness pipeline run. -/
def pipeH7C10 : Heap := ⟨22, [(21, HObj.obj [("host", HVal.str "o"), ("port", HVal.num 1), ("extra", HVal.num 7)]), (21, HObj.obj [("host", HVal.str "o"), ("port", HVal.num 1)]), (20, HObj.obj [("extra", HVal.num 7)]), (19, HObj.obj []), (18, HObj.obj []), (17, HObj.obj []), (16, HObj.obj [("extra", HVal.num 7)]), (15, HObj.obj [("host", HVal.str "o"), ("port", HVal.num 1)]), (15, HObj.obj [("host", HVal.str "o"), ("port", HVal.num 1)]), (15, HObj.obj [("host", HVal.str "o"), ("port", HVal.num 1)]), (14, HObj.obj [("host", HVal.str "o"), ("port", HVal.num 1)]), (14, HObj.obj [("host", HVal.str "envhost"), ("port", HVal.num 1)]), (13, HObj.obj [("host", HVal.str "o")]), (12, HObj.obj []), (11, HObj.obj []), (10, HObj.obj []), (9, HObj.obj [("host", HVal.str "envhost"), ("port", HVal.num 1)]), (9, HObj.obj [("host", HVal.str "o"), ("port", HVal.num 1)]), (8, HObj.obj [("host", HVal.str "o"), ("port", HVal.num 1)]), (8, HObj.obj [("host", HVal.str "d"), ("port", HVal.num 1)]), (7, HObj.obj [("host", HVal.str "o")]), (7, HObj.obj []), (6, HObj.obj [("host", HVal.str "o")]), (6, HObj.obj []), (5, HObj.obj [("host", HVal.str "o")]), (4, HObj.obj []), (3, HObj.obj []), (2, HObj.obj []), (0, HObj.obj [("host", HVal.str "o")]), (1, HObj.obj [("host", HVal.str "d"), ("port", HVal.num 1)])]⟩

example : coerce "123" = JSON.num 123 := rfl
example : coerce "-45" = JSON.num (-45) := rfl
example : coerce "true" = JSON.bool true := rfl
example : coerce "30_000" = JSON.str "30_000" := rfl
example :
    coerce "\x7b\"host\": \"z\", \"ssl\": true\x7d" =
      JSON.obj [("host", JSON.str "z"), ("ssl", JSON.bool true)] := rfl
example :
    coerce "[\"item1\", \"item2\"]" =
      JSON.arr [JSON.str "item1", JSON.str "item2"] := rfl
example : mangleKey "camelCaseVar" = "CAMEL_CASE_VAR" := rfl

theorem sizeJE_pos (es : Entries) : 0 < sizeJE es := by
  cases es with
  | nil => simp [sizeJE]
  | cons kv rest =>
    obtain ⟨k, v⟩ := kv
    simp [sizeJE]

theorem sizeJE_cons (k : String) (v : JSON) (rest : Entries) :
    sizeJE ((k, v) :: rest) = 1 + sizeJ v + sizeJE rest := rfl

theorem sizeJ_obj (o : Entries) : sizeJ (JSON.obj o) = 1 + sizeJE o := rfl

/-- The fuel of `defuGoF` is irrelevant once it dominates the structural
size of the base argument. -/
theorem defuGoF_congr : ∀ (n m : Nat) (b ds : Entries),
    sizeJE b ≤ n → sizeJE b ≤ m → defuGoF n b ds = defuGoF m b ds := by
  intro n
  induction n with
  | zero =>
    intro m b ds hn _
    have := sizeJE_pos b
    omega
  | succ n ih =>
    intro m b ds hn hm
    match m, b with
    | 0, b =>
      have := sizeJE_pos b
      omega
    | m + 1, [] => rfl
    | m + 1, (k, v) :: rest =>
      rw [sizeJE_cons] at hn hm
      have hrn : sizeJE rest ≤ n := by omega
      have hrm : sizeJE rest ≤ m := by omega
      cases v with
      | null =>
        simp only [defuGoF]
        exact ih m rest ds hrn hrm
      | str s =>
        simp only [defuGoF]
        exact ih m rest _ hrn hrm
      | num x =>
        simp only [defuGoF]
        exact ih m rest _ hrn hrm
      | bool bb =>
        simp only [defuGoF]
        exact ih m rest _ hrn hrm
      | arr a =>
        simp only [defuGoF]
        exact ih m rest _ hrn hrm
      | obj o1 =>
        rw [sizeJ_obj] at hn hm
        have h1n : sizeJE o1 ≤ n := by omega
        have h1m : sizeJE o1 ≤ m := by omega
        simp only [defuGoF]
        cases hg : getKey ds k with
        | none => exact ih m rest _ hrn hrm
        | some w =>
          cases w with
          | obj o2 =>
            show defuGoF n rest (setKey ds k (JSON.obj (defuGoF n o1 o2))) =
              defuGoF m rest (setKey ds k (JSON.obj (defuGoF m o1 o2)))
            rw [ih m o1 o2 h1n h1m]
            exact ih m rest _ hrn hrm
          | null => exact ih m rest _ hrn hrm
          | str s => exact ih m rest _ hrn hrm
          | num x => exact ih m rest _ hrn hrm
          | bool bb => exact ih m rest _ hrn hrm
          | arr a => exact ih m rest _ hrn hrm

theorem defuGo_nil (ds : Entries) : defuGo [] ds = ds := rfl

/-- Sufficient fuel computes the fuel-free merge. -/
theorem defuGoF_eq_defuGo (n : Nat) (b ds : Entries) (h : sizeJE b ≤ n) :
    defuGoF n b ds = defuGo b ds :=
  defuGoF_congr n (sizeJE b) b ds h le_rfl

theorem defuGo_cons (k : String) (v : JSON) (rest ds : Entries) :
    defuGo ((k, v) :: rest) ds = defuGo rest (defuStep ds k v) := by
  have key : ∀ (n : Nat), sizeJ v + sizeJE rest ≤ n →
      defuGoF (n + 1) ((k, v) :: rest) ds = defuGo rest (defuStep ds k v) := by
    intro n hn
    simp only [defuGoF]
    cases v with
    | null => exact defuGoF_eq_defuGo n rest ds (by omega)
    | str s => exact defuGoF_eq_defuGo n rest _ (by omega)
    | num x => exact defuGoF_eq_defuGo n rest _ (by omega)
    | bool bb => exact defuGoF_eq_defuGo n rest _ (by omega)
    | arr a => exact defuGoF_eq_defuGo n rest _ (by omega)
    | obj o1 =>
      rw [sizeJ_obj] at hn
      cases hg : getKey ds k with
      | none =>
        have hd : defuStep ds k (JSON.obj o1) = setKey ds k (JSON.obj o1) := by
          unfold defuStep
          rw [hg]
        rw [hd]
        exact defuGoF_eq_defuGo n rest _ (by omega)
      | some w =>
        cases w with
        | obj o2 =>
          have hd : defuStep ds k (JSON.obj o1) =
              setKey ds k (JSON.obj (defuGo o1 o2)) := by
            unfold defuStep
            rw [hg]
          rw [hd]
          show defuGoF n rest (setKey ds k (JSON.obj (defuGoF n o1 o2))) = _
          rw [defuGoF_eq_defuGo n o1 o2 (by omega)]
          exact defuGoF_eq_defuGo n rest _ (by omega)
        | null =>
          have hd : defuStep ds k (JSON.obj o1) = setKey ds k (JSON.obj o1) := by
            unfold defuStep
            rw [hg]
          rw [hd]
          exact defuGoF_eq_defuGo n rest _ (by omega)
        | str s =>
          have hd : defuStep ds k (JSON.obj o1) = setKey ds k (JSON.obj o1) := by
            unfold defuStep
            rw [hg]
          rw [hd]
          exact defuGoF_eq_defuGo n rest _ (by omega)
        | num x =>
          have hd : defuStep ds k (JSON.obj o1) = setKey ds k (JSON.obj o1) := by
            unfold defuStep
            rw [hg]
          rw [hd]
          exact defuGoF_eq_defuGo n rest _ (by omega)
        | bool bb =>
          have hd : defuStep ds k (JSON.obj o1) = setKey ds k (JSON.obj o1) := by
            unfold defuStep
            rw [hg]
          rw [hd]
          exact defuGoF_eq_defuGo n rest _ (by omega)
        | arr a =>
          have hd : defuStep ds k (JSON.obj o1) = setKey ds k (JSON.obj o1) := by
            unfold defuStep
            rw [hg]
          rw [hd]
          exact defuGoF_eq_defuGo n rest _ (by omega)
  have hs : sizeJE ((k, v) :: rest) = (sizeJ v + sizeJE rest) + 1 := by
    rw [sizeJE_cons]
    omega
  calc defuGo ((k, v) :: rest) ds
      = defuGoF ((sizeJ v + sizeJE rest) + 1) ((k, v) :: rest) ds := by
        unfold defuGo
        rw [hs]
    _ = defuGo rest (defuStep ds k v) := key _ le_rfl

/-- The fuel of `applyEnvF` is irrelevant once it dominates the structural
size of the tree. -/
theorem applyEnvF_congr : ∀ (n m : Nat) (env : String → Option String)
    (pfx : String) (es : Entries), sizeJE es ≤ n → sizeJE es ≤ m →
    applyEnvF n env pfx es = applyEnvF m env pfx es := by
  intro n
  induction n with
  | zero =>
    intro m env pfx es hn _
    have := sizeJE_pos es
    omega
  | succ n ih =>
    intro m env pfx es hn hm
    match m, es with
    | 0, es =>
      have := sizeJE_pos es
      omega
    | m + 1, [] => rfl
    | m + 1, (k, v) :: rest =>
      rw [sizeJE_cons] at hn hm
      have hrn : sizeJE rest ≤ n := by omega
      have hrm : sizeJE rest ≤ m := by omega
      simp only [applyEnvF]
      rw [ih m env pfx rest hrn hrm]
      cases hg : getEnv env pfx none k with
      | some f => cases f <;> cases v <;> rfl
      | none =>
        cases v with
        | obj tv =>
          have htn : sizeJE tv ≤ n := by
            rw [sizeJ_obj] at hn
            omega
          have htm : sizeJE tv ≤ m := by
            rw [sizeJ_obj] at hm
            omega
          show (k, JSON.obj (applyEnvF n env (pfx ++ mangleKey k ++ "_") tv)) ::
              applyEnvF m env pfx rest =
            (k, JSON.obj (applyEnvF m env (pfx ++ mangleKey k ++ "_") tv)) ::
              applyEnvF m env pfx rest
          rw [ih m env (pfx ++ mangleKey k ++ "_") tv htn htm]
        | null => rfl
        | str s => rfl
        | num x => rfl
        | bool bb => rfl
        | arr a => rfl

/-- Sufficient fuel computes the fuel-free overlay. -/
theorem applyEnvF_eq_applyEnv (n : Nat) (env : String → Option String)
    (pfx : String) (es : Entries) (h : sizeJE es ≤ n) :
    applyEnvF n env pfx es = applyEnv env pfx es :=
  applyEnvF_congr n (sizeJE es) env pfx es h le_rfl

theorem applyEnv_nil (env : String → Option String) (pfx : String) :
    applyEnv env pfx [] = [] := rfl

theorem applyEnv_cons (env : String → Option String) (pfx : String)
    (k : String) (v : JSON) (rest : Entries) :
    applyEnv env pfx ((k, v) :: rest) =
      (k, applyEnvStep env pfx k v) :: applyEnv env pfx rest := by
  have key : ∀ (n : Nat), sizeJ v + sizeJE rest ≤ n →
      applyEnvF (n + 1) env pfx ((k, v) :: rest) =
        (k, applyEnvStep env pfx k v) :: applyEnv env pfx rest := by
    intro n hn
    simp only [applyEnvF]
    rw [applyEnvF_eq_applyEnv n env pfx rest (by omega)]
    cases hg : getEnv env pfx none k with
    | some f => cases f <;> cases v <;> simp only [applyEnvStep, hg]
    | none =>
      cases v with
      | obj tv =>
        simp only [applyEnvStep, hg]
        rw [applyEnvF_eq_applyEnv n env (pfx ++ mangleKey k ++ "_") tv
          (by rw [sizeJ_obj] at hn; omega)]
      | null => simp only [applyEnvStep, hg]
      | str s => simp only [applyEnvStep, hg]
      | num x => simp only [applyEnvStep, hg]
      | bool bb => simp only [applyEnvStep, hg]
      | arr a => simp only [applyEnvStep, hg]
  have hs : sizeJE ((k, v) :: rest) = (sizeJ v + sizeJE rest) + 1 := by
    rw [sizeJE_cons]
    omega
  calc applyEnv env pfx ((k, v) :: rest)
      = applyEnvF ((sizeJ v + sizeJE rest) + 1) env pfx ((k, v) :: rest) := by
        unfold applyEnv
        rw [hs]
    _ = (k, applyEnvStep env pfx k v) :: applyEnv env pfx rest := key _ le_rfl

theorem getKey_setKey_self (l : Entries) (k : String) (v : JSON) :
    getKey (setKey l k v) k = some v := by
  induction l with
  | nil => simp [setKey, getKey]
  | cons kv rest ih =>
    obtain ⟨k', v'⟩ := kv
    by_cases h : k' = k
    · subst h
      simp [setKey, getKey]
    · simp [setKey, getKey, h, ih]

theorem getKey_setKey_ne (l : Entries) (k k2 : String) (v : JSON)
    (h : k2 ≠ k) : getKey (setKey l k v) k2 = getKey l k2 := by
  have hne : k ≠ k2 := fun hh => h hh.symm
  induction l with
  | nil => simp [setKey, getKey, hne]
  | cons kv rest ih =>
    obtain ⟨k', v'⟩ := kv
    by_cases hk : k' = k
    · subst hk
      simp [setKey, getKey, hne]
    · by_cases hk2 : k' = k2
      · subst hk2
        simp [setKey, getKey, hk]
      · simp [setKey, getKey, hk, hk2, ih]

theorem setKey_self (l : Entries) (k : String) (v : JSON)
    (h : getKey l k = some v) : setKey l k v = l := by
  induction l with
  | nil => simp [getKey] at h
  | cons kv rest ih =>
    obtain ⟨k', v'⟩ := kv
    by_cases hk : k' = k
    · subst hk
      simp [getKey] at h
      simp [setKey, h]
    · simp [getKey, hk] at h
      simp [setKey, hk, ih h]

theorem getKey_isSome_of_mem (l : Entries) (k : String) (v : JSON)
    (h : (k, v) ∈ l) : (getKey l k).isSome := by
  induction l with
  | nil => simp at h
  | cons kv rest ih =>
    obtain ⟨k', v'⟩ := kv
    by_cases hk : k' = k
    · subst hk
      simp [getKey]
    · rcases List.mem_cons.mp h with h1 | h1
      · exact absurd (congrArg Prod.fst h1).symm hk
      · simp [getKey, hk, ih h1]

theorem mem_getKey_self (l : Entries) (k : String) (v : JSON)
    (hn : nodupKeysB l = true) (h : (k, v) ∈ l) : getKey l k = some v := by
  induction l with
  | nil => simp at h
  | cons kv rest ih =>
    obtain ⟨k', v'⟩ := kv
    simp only [nodupKeysB, Bool.and_eq_true] at hn
    rcases List.mem_cons.mp h with h1 | h1
    · rw [show k = k' from (congrArg Prod.fst h1),
        show v = v' from (congrArg Prod.snd h1)]
      simp [getKey]
    · by_cases hk : k' = k
      · subst hk
        have hsome := getKey_isSome_of_mem rest k' v h1
        have hn1 : getKey rest k' = none := Option.isNone_iff_eq_none.mp hn.1
        rw [hn1] at hsome
        simp at hsome
      · simp [getKey, hk, ih hn.2 h1]

theorem defuStep_atomic (ds : Entries) (k : String) (v : JSON)
    (h : isAtomic v = true) : defuStep ds k v = setKey ds k v := by
  cases v with
  | null => simp [isAtomic] at h
  | obj o => simp [isAtomic] at h
  | str s => rfl
  | num n => rfl
  | bool b => rfl
  | arr a => rfl

theorem defuStep_null (ds : Entries) (k : String) :
    defuStep ds k JSON.null = ds := rfl

theorem defuStep_get_ne (ds : Entries) (k k2 : String) (v : JSON)
    (h : k2 ≠ k) : getKey (defuStep ds k v) k2 = getKey ds k2 := by
  cases v with
  | null => rfl
  | str s => exact getKey_setKey_ne ds k k2 _ h
  | num n => exact getKey_setKey_ne ds k k2 _ h
  | bool b => exact getKey_setKey_ne ds k k2 _ h
  | arr a => exact getKey_setKey_ne ds k k2 _ h
  | obj o1 =>
    unfold defuStep
    cases hg : getKey ds k with
    | none => exact getKey_setKey_ne ds k k2 _ h
    | some w => cases w <;> exact getKey_setKey_ne ds k k2 _ h

theorem defuGo_get_absent (b : Entries) (k : String) :
    ∀ (ds : Entries), getKey b k = none →
      getKey (defuGo b ds) k = getKey ds k := by
  induction b with
  | nil => intro ds _; rw [defuGo_nil]
  | cons kv rest ih =>
    intro ds h
    obtain ⟨k', v'⟩ := kv
    by_cases hk : k' = k
    · subst hk
      simp [getKey] at h
    · simp only [getKey, if_neg hk] at h
      rw [defuGo_cons, ih _ h, defuStep_get_ne _ _ _ _ (fun hh => hk hh.symm)]

theorem defuGo_get_atomic (b : Entries) (k : String) (v : JSON) :
    ∀ (ds : Entries), nodupKeysB b = true → getKey b k = some v →
      isAtomic v = true → getKey (defuGo b ds) k = some v := by
  induction b with
  | nil => intro ds _ h _; simp [getKey] at h
  | cons kv rest ih =>
    intro ds hn h ha
    obtain ⟨k', v'⟩ := kv
    simp only [nodupKeysB, Bool.and_eq_true] at hn
    by_cases hk : k' = k
    · subst hk
      simp [getKey] at h
      subst h
      have habs : getKey rest k' = none := Option.isNone_iff_eq_none.mp hn.1
      rw [defuGo_cons, defuGo_get_absent rest k' _ habs,
        defuStep_atomic _ _ _ ha, getKey_setKey_self]
    · simp only [getKey, if_neg hk] at h
      rw [defuGo_cons]
      exact ih _ hn.2 h ha

theorem defuGo_get_null (b : Entries) (k : String) :
    ∀ (ds : Entries), nodupKeysB b = true → getKey b k = some JSON.null →
      getKey (defuGo b ds) k = getKey ds k := by
  induction b with
  | nil => intro ds _ h; simp [getKey] at h
  | cons kv rest ih =>
    intro ds hn h
    obtain ⟨k', v'⟩ := kv
    simp only [nodupKeysB, Bool.and_eq_true] at hn
    by_cases hk : k' = k
    · subst hk
      simp [getKey] at h
      subst h
      have habs : getKey rest k' = none := Option.isNone_iff_eq_none.mp hn.1
      rw [defuGo_cons, defuGo_get_absent rest k' _ habs, defuStep_null]
    · simp only [getKey, if_neg hk] at h
      rw [defuGo_cons, ih _ hn.2 h, defuStep_get_ne _ _ _ _ (fun hh => hk hh.symm)]

theorem defuGo_self_aux : ∀ (n : Nat) (b l : Entries), sizeJE b ≤ n →
    wfJE b = true → (∀ kv ∈ b, getKey l kv.1 = some kv.2) →
    defuGo b l = l := by
  intro n
  induction n with
  | zero =>
    intro b l hs _ _
    have := sizeJE_pos b
    omega
  | succ n ih =>
    intro b l hs hwf hmem
    match b with
    | [] => exact defuGo_nil l
    | (k, v) :: rest =>
      rw [sizeJE_cons] at hs
      simp only [wfJE, Bool.and_eq_true] at hwf
      have hv : getKey l k = some v := hmem (k, v) (List.mem_cons_self _ _)
      have hstep : defuStep l k v = l := by
        cases v with
        | null => exact defuStep_null l k
        | str s =>
          rw [defuStep_atomic l k (JSON.str s) rfl]
          exact setKey_self _ _ _ hv
        | num x =>
          rw [defuStep_atomic l k (JSON.num x) rfl]
          exact setKey_self _ _ _ hv
        | bool bb =>
          rw [defuStep_atomic l k (JSON.bool bb) rfl]
          exact setKey_self _ _ _ hv
        | arr a =>
          rw [defuStep_atomic l k (JSON.arr a) rfl]
          exact setKey_self _ _ _ hv
        | obj o =>
          have hwo : nodupKeysB o = true ∧ wfJE o = true := by
            have hh := hwf.1
            simp only [wfJ, Bool.and_eq_true] at hh
            exact hh
          have hoo : defuGo o o = o := by
            apply ih o o ?_ hwo.2 ?_
            · have hso : sizeJ (JSON.obj o) = 1 + sizeJE o := sizeJ_obj o
              omega
            · intro kv hkv
              exact mem_getKey_self o kv.1 kv.2 hwo.1 (by simpa using hkv)
          have hd : defuStep l k (JSON.obj o) =
              setKey l k (JSON.obj (defuGo o o)) := by
            simp only [defuStep, hv]
          rw [hd, hoo]
          exact setKey_self _ _ _ hv
      rw [defuGo_cons, hstep]
      exact ih rest l (by omega) hwf.2
        (fun kv hkv => hmem kv (List.mem_cons_of_mem _ hkv))

/-- C5: in every pairwise merge of the Layer Merge Engine, a key holding a
sequence in both layers takes the higher-precedence layer's sequence
wholesale (sequences are never concatenated); and on the spec's example,
merging `\x7ba:\x7bitems:[1,2]\x7d\x7d` over the lower-precedence
`\x7ba:\x7bitems:[9]\x7d\x7d` yields `\x7ba:\x7bitems:[1,2]\x7d\x7d`. -/
theorem merge_replaces_arrays :
    (∀ (b d : Entries) (k : String) (xs ys : List JSON),
        nodupKeysB b = true → getKey b k = some (JSON.arr xs) →
        getKey d k = some (JSON.arr ys) →
        getKey (defuGo b d) k = some (JSON.arr xs)) ∧
    defu [[("a", JSON.obj [("items", JSON.arr [JSON.num 1, JSON.num 2])])],
        [("a", JSON.obj [("items", JSON.arr [JSON.num 9])])]] =
      [("a", JSON.obj [("items", JSON.arr [JSON.num 1, JSON.num 2])])] := by
  constructor
  · intro b d k xs ys hn hb _
    exact defuGo_get_atomic b k (JSON.arr xs) d hn hb rfl
  · rfl

/-- Witness for `merge_replaces_arrays`: its hypotheses hold at the
one-key layers `\x7bitems:[1,2]\x7d` and `\x7bitems:[9]\x7d`, and the
theorem computes the merged value there. -/
theorem merge_replaces_arrays_witness :
    nodupKeysB [("items", JSON.arr [JSON.num 1, JSON.num 2])] = true ∧
    getKey (defuGo [("items", JSON.arr [JSON.num 1, JSON.num 2])]
        [("items", JSON.arr [JSON.num 9])]) "items" =
      some (JSON.arr [JSON.num 1, JSON.num 2]) :=
  ⟨rfl, merge_replaces_arrays.1 _ _ "items" _ _ rfl rfl rfl⟩

/-- C9: the Layer Merge Engine is idempotent on duplicated input — merging
a well-formed, array-free object layer with itself (as both the earlier
and the later argument) yields that layer unchanged. -/
theorem merge_idempotent (l : Entries) (h1 : nodupKeysB l = true)
    (h2 : wfJE l = true) (h3 : arrFreeJE l = true) :
    defu [l, l] = l := by
  have hd : defu [l, l] = defuGo (defuGo [] l) l := rfl
  rw [hd, defuGo_nil]
  exact defuGo_self_aux (sizeJE l) l l le_rfl h2
    (fun kv hkv => mem_getKey_self l kv.1 kv.2 h1 (by simpa using hkv))

/-- Witness for `merge_idempotent` at a two-key layer with a nested
object. -/
theorem merge_idempotent_witness :
    nodupKeysB [("a", JSON.num 0), ("b", JSON.obj [("c", JSON.str "x")])] = true ∧
    wfJE [("a", JSON.num 0), ("b", JSON.obj [("c", JSON.str "x")])] = true ∧
    arrFreeJE [("a", JSON.num 0), ("b", JSON.obj [("c", JSON.str "x")])] = true ∧
    defu [[("a", JSON.num 0), ("b", JSON.obj [("c", JSON.str "x")])],
        [("a", JSON.num 0), ("b", JSON.obj [("c", JSON.str "x")])]] =
      [("a", JSON.num 0), ("b", JSON.obj [("c", JSON.str "x")])] :=
  ⟨rfl, rfl, rfl, merge_idempotent _ rfl rfl rfl⟩

theorem mem_keysOf_iff (l : Entries) (k : String) :
    k ∈ keysOf l ↔ (getKey l k).isSome = true := by
  induction l with
  | nil => simp [keysOf, getKey]
  | cons kv rest ih =>
    obtain ⟨k', v'⟩ := kv
    by_cases hk : k' = k
    · subst hk
      simp [keysOf, getKey]
    · have hk2 : ¬(k = k') := fun hh => hk hh.symm
      have hg : getKey ((k', v') :: rest) k = getKey rest k := by
        simp [getKey, hk]
      rw [show keysOf ((k', v') :: rest) = k' :: keysOf rest from rfl,
        List.mem_cons, hg]
      constructor
      · intro h
        rcases h with h | h
        · exact absurd h hk2
        · exact ih.mp h
      · intro h
        exact Or.inr (ih.mpr h)

theorem contains_keysOf (l : Entries) (k : String) :
    (keysOf l).contains k = hasKey l k := by
  cases hs : getKey l k with
  | none =>
    have hmem : k ∉ keysOf l := by
      rw [mem_keysOf_iff]
      simp [hs]
    simp [List.contains, List.elem_eq_mem, hmem, hasKey, hs]
  | some v =>
    have hmem : k ∈ keysOf l := by
      rw [mem_keysOf_iff]
      simp [hs]
    simp [List.contains, List.elem_eq_mem, hmem, hasKey, hs]

theorem missingOf_eq_filter (o : LoadOpts) (req : List String)
    (h : o.required = some req) :
    missingOf o = req.filter (fun k => (getKey (mergedConfig o) k).isNone) := by
  unfold missingOf
  rw [h]
  apply List.filter_congr
  intro k _
  rw [contains_keysOf]
  unfold hasKey
  cases getKey (mergedConfig o) k <;> rfl

/-- C4: the missing set is exactly the required keys absent by key
existence from the merged pre-prompt config (falsy values count as
present, since only key existence is tested); and an empty combined
missing/prompt set makes `loadConfig` return `missing = []` with zero
prompting-collaborator invocations. -/
theorem missing_by_key_existence :
    (∀ (o : LoadOpts) (req : List String), o.required = some req →
      missingOf o = req.filter (fun k => (getKey (mergedConfig o) k).isNone)) ∧
    (∀ o : LoadOpts, missingOf o = [] → o.prompt.getD [] = [] →
      loadConfig o = Except.ok ⟨mergedConfig o, [], 0⟩) := by
  constructor
  · exact missingOf_eq_filter
  · intro o hm hp
    unfold loadConfig
    by_cases hr : (o.required.isSome || o.prompt.isSome) = true
    · simp [hr, hm, hp]
    · simp [hr]

/-- Witness for `missing_by_key_existence`: `required:["a"]` against
`\x7ba:0\x7d` yields `missing = []` and no prompt call. -/
theorem missing_by_key_existence_witness :
    exOptsC4.required = some ["a"] ∧
    missingOf exOptsC4 =
      List.filter (fun k => (getKey (mergedConfig exOptsC4) k).isNone) ["a"] ∧
    missingOf exOptsC4 = [] ∧
    loadConfig exOptsC4 = Except.ok ⟨mergedConfig exOptsC4, [], 0⟩ :=
  ⟨rfl, missing_by_key_existence.1 exOptsC4 ["a"] rfl, rfl,
    missing_by_key_existence.2 exOptsC4 rfl rfl⟩

theorem occursIn_joinComma (l : List String) (k : String) (h : k ∈ l) :
    ∃ u v, u ++ k.data ++ v = (joinComma l).data := by
  induction l with
  | nil => simp at h
  | cons x rest ih =>
    rcases List.mem_cons.mp h with h1 | h1
    · subst h1
      cases rest with
      | nil => exact ⟨[], [], by simp [joinComma]⟩
      | cons y r =>
        refine ⟨[], (", " ++ joinComma (y :: r)).data, ?_⟩
        show k.data ++ (", " ++ joinComma (y :: r)).data = (joinComma (k :: y :: r)).data
        simp [joinComma, String.data_append]
    · cases rest with
      | nil => simp at h1
      | cons y r =>
        obtain ⟨u, v, he⟩ := ih h1
        refine ⟨(x ++ ", ").data ++ u, v, ?_⟩
        show (x ++ ", ").data ++ u ++ k.data ++ v = (joinComma (x :: y :: r)).data
        simp only [joinComma, String.data_append, List.append_assoc]
        rw [← he]
        simp [String.data_append]

theorem data_append (a b : String) : (a ++ b).data = a.data ++ b.data := rfl

theorem occursIn_missingMessage (missing : List String) (k : String)
    (h : k ∈ missing) : occursIn k (missingMessage missing) := by
  obtain ⟨u, v, he⟩ := occursIn_joinComma missing k h
  refine ⟨("Configuration validation failed: Required fields are missing [").data ++ u,
    v ++ ("]. TTY is not available for interactive prompts. " ++
      "Please provide these values via environment variables or configuration files.").data, ?_⟩
  unfold missingMessage
  rw [data_append, data_append, data_append, data_append]
  rw [← he]
  simp only [List.append_assoc]

/-- C2 (amended): whenever prompting is unavailable (`hasTTY = false`) or
explicitly disabled, a non-empty combined missing/prompt set makes
`loadConfig` fail with the validation error — including when the missing
set is empty and only prompt-only keys are present — and the message
enumerates every missing key by name (an empty enumeration when missing is
empty). -/
theorem gate_error_enumerates_missing (o : LoadOpts)
    (h1 : o.hasTTY = false ∨ o.prompts = PromptsOpt.disabled)
    (h2 : missingOf o ≠ [] ∨ o.prompt.getD [] ≠ []) :
    loadConfig o = Except.error (missingMessage (missingOf o)) ∧
    ∀ k ∈ missingOf o, occursIn k (missingMessage (missingOf o)) := by
  constructor
  · have hgate : (o.required.isSome || o.prompt.isSome) = true := by
      rcases h2 with h2 | h2
      · unfold missingOf at h2
        cases hr : o.required with
        | none => rw [hr] at h2; simp at h2
        | some req => simp [hr]
      · cases hp : o.prompt with
        | none => rw [hp] at h2; simp at h2
        | some l => simp [hp]
    have hne : (decide ((missingOf o).length > 0) ||
        !(o.prompt.getD []).isEmpty) = true := by
      rcases h2 with h2 | h2
      · have : (missingOf o).length > 0 := List.length_pos.mpr h2
        simp [this]
      · have : ¬(o.prompt.getD []).isEmpty = true := by
          intro he
          exact h2 (List.isEmpty_iff.mp he)
        simp only [Bool.or_eq_true, Bool.not_eq_true']
        right
        cases he : (o.prompt.getD []).isEmpty
        · rfl
        · exact absurd he this
    have htty : (!o.hasTTY || decide (o.prompts = PromptsOpt.disabled)) = true := by
      rcases h1 with h1 | h1 <;> simp [h1]
    unfold loadConfig
    rw [hgate, hne, htty]
    simp
  · intro k hk
    exact occursIn_missingMessage _ k hk

/-- Counterexample to C2 as stated: with an empty missing set, a non-empty
prompt-only set and no TTY, `loadConfig` does not proceed to a prompt call
— it fails at the gate (with an empty enumeration in the message). -/
theorem gate_error_prompt_only_counterexample :
    missingOf exOptsC2a = [] ∧ exOptsC2a.prompt = some ["x"] ∧
    loadConfig exOptsC2a = Except.error (missingMessage []) :=
  ⟨rfl, rfl, rfl⟩

/-- Witness for `gate_error_enumerates_missing`: two unmet required keys
under no TTY produce the validation error naming both. -/
theorem gate_error_enumerates_missing_witness :
    (exOptsC2b.hasTTY = false ∨ exOptsC2b.prompts = PromptsOpt.disabled) ∧
    missingOf exOptsC2b = ["x", "y"] ∧
    (loadConfig exOptsC2b = Except.error (missingMessage (missingOf exOptsC2b)) ∧
      ∀ k ∈ missingOf exOptsC2b, occursIn k (missingMessage (missingOf exOptsC2b))) :=
  ⟨Or.inl rfl, rfl,
    gate_error_enumerates_missing exOptsC2b (Or.inl rfl)
      (Or.inl (by decide))⟩

theorem promptCmp_nf_left (ps : List PromptDesc) (a b : String)
    (h : promptIdx ps a = -1) : promptCmp ps a b = 1 := by
  simp [promptCmp, h]

theorem promptCmp_f_nf (ps : List PromptDesc) (a b : String)
    (ha : promptIdx ps a ≠ -1) (hb : promptIdx ps b = -1) :
    promptCmp ps a b = -1 := by
  simp [promptCmp, ha, hb]

theorem promptCmp_f_f (ps : List PromptDesc) (a b : String)
    (ha : promptIdx ps a ≠ -1) (hb : promptIdx ps b ≠ -1) :
    promptCmp ps a b = promptIdx ps a - promptIdx ps b := by
  simp [promptCmp, ha, hb]

theorem promptIdxN_inj : ∀ (ps : List PromptDesc) (a b : String) (i : Nat),
    promptIdxN ps a = some i → promptIdxN ps b = some i → a = b := by
  intro ps
  induction ps with
  | nil => intro a b i ha _; exact Option.noConfusion ha
  | cons p rest ih =>
    intro a b i ha hb
    simp only [promptIdxN] at ha hb
    by_cases hpa : p.name = a
    · by_cases hpb : p.name = b
      · exact hpa.symm.trans hpb
      · rw [if_pos hpa] at ha
        rw [if_neg hpb] at hb
        cases ha
        cases hr : promptIdxN rest b with
        | none => rw [hr] at hb; exact Option.noConfusion hb
        | some j =>
          rw [hr] at hb
          simp at hb
    · by_cases hpb : p.name = b
      · rw [if_neg hpa] at ha
        rw [if_pos hpb] at hb
        cases hb
        cases hr : promptIdxN rest a with
        | none => rw [hr] at ha; exact Option.noConfusion ha
        | some j =>
          rw [hr] at ha
          simp at ha
      · rw [if_neg hpa] at ha
        rw [if_neg hpb] at hb
        cases hra : promptIdxN rest a with
        | none => rw [hra] at ha; exact Option.noConfusion ha
        | some ja =>
          cases hrb : promptIdxN rest b with
          | none => rw [hrb] at hb; exact Option.noConfusion hb
          | some jb =>
            rw [hra] at ha
            rw [hrb] at hb
            simp only [Option.map_some'] at ha hb
            injection ha with ha'
            injection hb with hb'
            have : ja = jb := by omega
            exact ih a b ja hra (this ▸ hrb)

theorem promptIdx_found_cases (ps : List PromptDesc) (k : String) :
    (promptIdx ps k = -1 ∧ promptIdxN ps k = none) ∨
      ∃ i : Nat, promptIdxN ps k = some i ∧ promptIdx ps k = (i : Int) := by
  unfold promptIdx
  cases h : promptIdxN ps k with
  | none => exact Or.inl ⟨rfl, rfl⟩
  | some i => exact Or.inr ⟨i, rfl, rfl⟩

theorem promptIdx_nonneg (ps : List PromptDesc) (k : String)
    (h : promptIdx ps k ≠ -1) : 0 ≤ promptIdx ps k := by
  rcases promptIdx_found_cases ps k with ⟨h1, _⟩ | ⟨i, _, h2⟩
  · exact absurd h1 h
  · rw [h2]; exact Int.ofNat_nonneg i

theorem promptIdx_inj (ps : List PromptDesc) (a b : String)
    (ha : promptIdx ps a ≠ -1) (hb : promptIdx ps b ≠ -1)
    (heq : promptIdx ps a = promptIdx ps b) : a = b := by
  rcases promptIdx_found_cases ps a with ⟨h1, _⟩ | ⟨i, hia, hva⟩
  · exact absurd h1 ha
  · rcases promptIdx_found_cases ps b with ⟨h1, _⟩ | ⟨j, hib, hvb⟩
    · exact absurd h1 hb
    · rw [hva, hvb] at heq
      have hij : i = j := by exact_mod_cast heq
      exact promptIdxN_inj ps a b i hia (hij ▸ hib)

theorem binSearchGo_boundary (cmp : String → String → Int) (x : String)
    (P : List String) (b : Nat)
    (hb : ∀ m, m < P.length → ((cmp x (P.getD m "") < 0) ↔ b ≤ m)) :
    ∀ (fuel left right : Nat), left ≤ b → b ≤ right → right ≤ P.length →
      right - left < fuel → binSearchGo cmp x P fuel left right = b := by
  intro fuel
  induction fuel with
  | zero => intro l r h1 h2 _ h4; omega
  | succ n ih =>
    intro l r h1 h2 h3 h4
    simp only [binSearchGo]
    split
    · rename_i hlr
      have hmlt : l + (r - l) / 2 < r := by omega
      have hmge : l ≤ l + (r - l) / 2 := by omega
      split
      · rename_i hc
        have hble := (hb _ (by omega)).mp hc
        exact ih l (l + (r - l) / 2) h1 hble (by omega) (by omega)
      · rename_i hc
        have hgt : ¬ b ≤ l + (r - l) / 2 :=
          fun hle => hc ((hb _ (by omega)).mpr hle)
        exact ih (l + (r - l) / 2 + 1) r (by omega) h2 h3 (by omega)
    · rename_i hlr
      omega

theorem binInsertJS_eq (cmp : String → String → Int) (x : String)
    (P : List String) (b : Nat) (hble : b ≤ P.length)
    (hb : ∀ m, m < P.length → ((cmp x (P.getD m "") < 0) ↔ b ≤ m)) :
    binInsertJS cmp P x = P.take b ++ x :: P.drop b := by
  have hs := binSearchGo_boundary cmp x P b hb (P.length + 1) 0 P.length
    (Nat.zero_le b) hble le_rfl (by omega)
  simp only [binInsertJS, hs]

theorem binInsertJS_notfound (ps : List PromptDesc) (x : String)
    (hx : promptIdx ps x = -1) (P : List String) :
    binInsertJS (promptCmp ps) P x = P ++ [x] := by
  have hb : ∀ m, m < P.length →
      ((promptCmp ps x (P.getD m "") < 0) ↔ P.length ≤ m) := by
    intro m hm
    rw [promptCmp_nf_left ps x (P.getD m "") hx]
    constructor
    · intro h; omega
    · intro h; omega
  rw [binInsertJS_eq (promptCmp ps) x P P.length le_rfl hb,
    List.take_length, List.drop_length]

theorem sortedSplit (ps : List PromptDesc) (x : String) :
    ∀ (F : List String),
    List.Pairwise (fun a b => promptIdx ps a < promptIdx ps b) F →
    (∀ f ∈ F, promptIdx ps f ≠ promptIdx ps x) →
    ∃ F₁ F₂, F = F₁ ++ F₂ ∧
      (∀ f ∈ F₁, promptIdx ps f < promptIdx ps x) ∧
      (∀ f ∈ F₂, promptIdx ps x < promptIdx ps f) := by
  intro F
  induction F with
  | nil =>
    intro _ _
    exact ⟨[], [], rfl,
      ⟨fun f hf => absurd hf (List.not_mem_nil f),
       fun f hf => absurd hf (List.not_mem_nil f)⟩⟩
  | cons f F ih =>
    intro hpw hne
    rcases List.pairwise_cons.mp hpw with ⟨hf, hpw'⟩
    by_cases hlt : promptIdx ps f < promptIdx ps x
    · obtain ⟨F₁, F₂, he, h1, h2⟩ :=
        ih hpw' (fun g hg => hne g (List.mem_cons_of_mem _ hg))
      refine ⟨f :: F₁, F₂, by rw [he]; rfl, ⟨?_, h2⟩⟩
      intro g hg
      rcases List.mem_cons.mp hg with h | h
      · rw [h]; exact hlt
      · exact h1 g h
    · have hxf : promptIdx ps x < promptIdx ps f := by
        have := hne f (List.mem_cons_self _ _)
        omega
      refine ⟨[], f :: F, rfl,
        ⟨fun g hg => absurd hg (List.not_mem_nil g), ?_⟩⟩
      intro g hg
      rcases List.mem_cons.mp hg with h | h
      · rw [h]; exact hxf
      · exact lt_trans hxf (hf g h)

theorem binInsertJS_found (ps : List PromptDesc) (x : String)
    (hx : promptIdx ps x ≠ -1) (F₁ F₂ N : List String)
    (h1 : ∀ f ∈ F₁, promptIdx ps f < promptIdx ps x)
    (h1f : ∀ f ∈ F₁, promptIdx ps f ≠ -1)
    (h2 : ∀ f ∈ F₂, promptIdx ps x < promptIdx ps f)
    (hN : ∀ n ∈ N, promptIdx ps n = -1) :
    binInsertJS (promptCmp ps) (F₁ ++ (F₂ ++ N)) x =
      F₁ ++ x :: (F₂ ++ N) := by
  have h2f : ∀ f ∈ F₂, promptIdx ps f ≠ -1 := by
    intro f hf
    have := h2 f hf
    have := promptIdx_nonneg ps x hx
    omega
  have hb : ∀ m, m < (F₁ ++ (F₂ ++ N)).length →
      ((promptCmp ps x ((F₁ ++ (F₂ ++ N)).getD m "") < 0) ↔
        F₁.length ≤ m) := by
    intro m hm
    by_cases hm1 : m < F₁.length
    · rw [List.getD_append _ _ _ _ hm1]
      have hmem : F₁.getD m "" ∈ F₁ := by
        rw [List.getD_eq_get _ _ hm1]
        exact List.get_mem _ _ _
      rw [promptCmp_f_f ps x _ hx (h1f _ hmem)]
      have := h1 _ hmem
      constructor
      · intro h; omega
      · intro h; omega
    · push_neg at hm1
      rw [List.getD_append_right _ _ _ _ hm1]
      by_cases hm2 : m - F₁.length < F₂.length
      · rw [List.getD_append _ _ _ _ hm2]
        have hmem : F₂.getD (m - F₁.length) "" ∈ F₂ := by
          rw [List.getD_eq_get _ _ hm2]
          exact List.get_mem _ _ _
        rw [promptCmp_f_f ps x _ hx (h2f _ hmem)]
        have := h2 _ hmem
        constructor
        · intro _; omega
        · intro _; omega
      · push_neg at hm2
        rw [List.getD_append_right _ _ _ _ hm2]
        have hlen : m - F₁.length - F₂.length < N.length := by
          rw [List.length_append, List.length_append] at hm
          omega
        have hmem : N.getD (m - F₁.length - F₂.length) "" ∈ N := by
          rw [List.getD_eq_get _ _ hlen]
          exact List.get_mem _ _ _
        rw [promptCmp_f_nf ps x _ hx (hN _ hmem)]
        constructor
        · intro _; omega
        · intro _; omega
  have := binInsertJS_eq (promptCmp ps) x (F₁ ++ (F₂ ++ N)) F₁.length
    (by rw [List.length_append]; omega) hb
  rw [this, List.take_left, List.drop_left]

theorem foldBinInsert (ps : List PromptDesc) :
    ∀ (T D F : List String),
    (D ++ T).Nodup →
    F.Perm (D.filter (fun k => !(promptIdx ps k == -1))) →
    (∀ f ∈ F, promptIdx ps f ≠ -1) →
    List.Pairwise (fun a b => promptIdx ps a < promptIdx ps b) F →
    ∃ F2, List.foldl (binInsertJS (promptCmp ps))
        (F ++ D.filter (fun k => promptIdx ps k == -1)) T =
        F2 ++ (D ++ T).filter (fun k => promptIdx ps k == -1) ∧
      F2.Perm ((D ++ T).filter (fun k => !(promptIdx ps k == -1))) ∧
      (∀ f ∈ F2, promptIdx ps f ≠ -1) ∧
      List.Pairwise (fun a b => promptIdx ps a < promptIdx ps b) F2 := by
  intro T
  induction T with
  | nil =>
    intro D F hnd hperm hfnd hpw
    refine ⟨F, by simp, ?_, hfnd, hpw⟩
    simpa using hperm
  | cons x T ih =>
    intro D F hnd hperm hfnd hpw
    have hDx : D ++ x :: T = (D ++ [x]) ++ T := by simp
    by_cases hx : promptIdx ps x = -1
    · have hstep : binInsertJS (promptCmp ps)
          (F ++ D.filter (fun k => promptIdx ps k == -1)) x =
          F ++ (D ++ [x]).filter (fun k => promptIdx ps k == -1) := by
        rw [binInsertJS_notfound ps x hx]
        simp [List.filter_append, List.filter_cons, hx, List.append_assoc]
      rw [List.foldl_cons, hstep, hDx]
      apply ih (D ++ [x]) F (by rwa [← hDx])
      · rw [List.filter_append]
        simpa [List.filter_cons, hx] using hperm
      · exact hfnd
      · exact hpw
    · have hxD : x ∉ D := by
        intro hmem
        rcases List.nodup_append.mp hnd with ⟨_, _, hdisj⟩
        exact hdisj hmem (List.mem_cons_self _ _)
      have hne : ∀ f ∈ F, promptIdx ps f ≠ promptIdx ps x := by
        intro f hf heq
        have hfD : f ∈ D :=
          (List.mem_filter.mp (hperm.mem_iff.mp hf)).1
        have hfx : f = x := promptIdx_inj ps f x (hfnd f hf) hx heq
        exact hxD (hfx ▸ hfD)
      obtain ⟨F₁, F₂, hFe, hl1, hl2⟩ := sortedSplit ps x F hpw hne
      have h1f : ∀ f ∈ F₁, promptIdx ps f ≠ -1 :=
        fun f hf => hfnd f (hFe ▸ List.mem_append_left _ hf)
      have h2f : ∀ f ∈ F₂, promptIdx ps f ≠ -1 :=
        fun f hf => hfnd f (hFe ▸ List.mem_append_right _ hf)
      have hNprop : ∀ n ∈ D.filter (fun k => promptIdx ps k == -1),
          promptIdx ps n = -1 := by
        intro n hn
        have := (List.mem_filter.mp hn).2
        simpa using this
      have hstep : binInsertJS (promptCmp ps)
          (F ++ D.filter (fun k => promptIdx ps k == -1)) x =
          (F₁ ++ x :: F₂) ++
            (D ++ [x]).filter (fun k => promptIdx ps k == -1) := by
        rw [hFe, List.append_assoc]
        rw [binInsertJS_found ps x hx F₁ F₂ _ hl1 h1f hl2 hNprop]
        have hflt : (D ++ [x]).filter (fun k => promptIdx ps k == -1) =
            D.filter (fun k => promptIdx ps k == -1) := by
          simp [List.filter_append, List.filter_cons, hx]
        rw [hflt]
        simp [List.append_assoc]
      rw [List.foldl_cons, hstep, hDx]
      apply ih (D ++ [x]) (F₁ ++ x :: F₂) (by rwa [← hDx])
      · have hfl : (D ++ [x]).filter (fun k => !(promptIdx ps k == -1)) =
            D.filter (fun k => !(promptIdx ps k == -1)) ++ [x] := by
          simp [List.filter_append, List.filter_cons, hx]
        rw [hfl]
        have p1 : (F₁ ++ x :: F₂).Perm (x :: F) := by
          rw [hFe]; exact List.perm_middle
        have p2 : (x :: F).Perm
            (x :: D.filter (fun k => !(promptIdx ps k == -1))) :=
          hperm.cons x
        have p3 : (x :: D.filter (fun k => !(promptIdx ps k == -1))).Perm
            (D.filter (fun k => !(promptIdx ps k == -1)) ++ [x]) :=
          (List.perm_append_singleton x _).symm
        exact (p1.trans p2).trans p3
      · intro f hf
        rcases List.mem_append.mp hf with h | h
        · exact h1f f h
        · rcases List.mem_cons.mp h with h | h
          · rw [h]; exact hx
          · exact h2f f h
      · have hpwF : List.Pairwise
            (fun a b => promptIdx ps a < promptIdx ps b) (F₁ ++ F₂) :=
          hFe ▸ hpw
        rcases List.pairwise_append.mp hpwF with ⟨hpw1, hpw2, hcross⟩
        apply List.pairwise_append.mpr
        refine ⟨hpw1, List.pairwise_cons.mpr ⟨fun b hb => hl2 b hb, hpw2⟩, ?_⟩
        intro a ha b hb
        rcases List.mem_cons.mp hb with h | h
        · rw [h]; exact hl1 a ha
        · exact hcross a ha b h

theorem ascRunGo_append (cmp : String → String → Int) :
    ∀ (l : List String) (prev : String),
    (ascRunGo cmp prev l).1 ++ (ascRunGo cmp prev l).2 = l := by
  intro l
  induction l with
  | nil => intro prev; rfl
  | cons x rest ih =>
    intro prev
    simp only [ascRunGo]
    split
    · simp only [List.cons_append]
      rw [ih x]
    · rfl

theorem ascRunGo_chain (cmp : String → String → Int) :
    ∀ (l : List String) (prev : String),
    List.Chain (fun u v => 0 ≤ cmp v u) prev (ascRunGo cmp prev l).1 := by
  intro l
  induction l with
  | nil => intro prev; exact List.Chain.nil
  | cons x rest ih =>
    intro prev
    simp only [ascRunGo]
    split
    · rename_i hc
      exact List.Chain.cons hc (ih x)
    · exact List.Chain.nil

theorem descRunGo_append (cmp : String → String → Int) :
    ∀ (l : List String) (prev : String),
    (descRunGo cmp prev l).1 ++ (descRunGo cmp prev l).2 = l := by
  intro l
  induction l with
  | nil => intro prev; rfl
  | cons x rest ih =>
    intro prev
    simp only [descRunGo]
    split
    · simp only [List.cons_append]
      rw [ih x]
    · rfl

theorem descRunGo_chain (cmp : String → String → Int) :
    ∀ (l : List String) (prev : String),
    List.Chain (fun u v => cmp v u < 0) prev (descRunGo cmp prev l).1 := by
  intro l
  induction l with
  | nil => intro prev; exact List.Chain.nil
  | cons x rest ih =>
    intro prev
    simp only [descRunGo]
    split
    · rename_i hc
      exact List.Chain.cons hc (ih x)
    · exact List.Chain.nil

theorem chainNF (ps : List PromptDesc) : ∀ (l : List String) (prev : String),
    promptIdx ps prev = -1 →
    List.Chain (fun u v => 0 ≤ promptCmp ps v u) prev l →
    ∀ y ∈ l, promptIdx ps y = -1 := by
  intro l
  induction l with
  | nil => intro prev _ _ y hy; cases hy
  | cons z rest ih =>
    intro prev hprev hch y hy
    cases hch with
    | cons hrel hch2 =>
      have hz : promptIdx ps z = -1 := by
        by_contra hzf
        rw [promptCmp_f_nf ps z prev hzf hprev] at hrel
        omega
      rcases List.mem_cons.mp hy with h | h
      · rw [h]; exact hz
      · exact ih z hz hch2 y h

theorem chainDom (ps : List PromptDesc) : ∀ (l : List String) (prev : String),
    promptIdx ps prev ≠ -1 →
    List.Chain (fun u v => 0 ≤ promptCmp ps v u) prev l →
    ∀ y ∈ l, promptIdx ps y ≠ -1 → promptIdx ps prev ≤ promptIdx ps y := by
  intro l
  induction l with
  | nil => intro prev _ _ y hy; cases hy
  | cons z rest ih =>
    intro prev hprev hch y hy hyf
    cases hch with
    | cons hrel hch2 =>
      by_cases hz : promptIdx ps z = -1
      · have hall := chainNF ps rest z hz hch2
        rcases List.mem_cons.mp hy with h | h
        · rw [h] at hyf; exact absurd hz hyf
        · exact absurd (hall y h) hyf
      · rw [promptCmp_f_f ps z prev hz hprev] at hrel
        rcases List.mem_cons.mp hy with h | h
        · rw [h]; omega
        · have := ih z hz hch2 y h hyf
          omega

theorem ascShape (ps : List PromptDesc) : ∀ (l : List String) (prev : String),
    List.Chain (fun u v => 0 ≤ promptCmp ps v u) prev l →
    (prev :: l).Nodup →
    (prev :: l) =
        (prev :: l).filter (fun k => !(promptIdx ps k == -1)) ++
          (prev :: l).filter (fun k => promptIdx ps k == -1) ∧
      List.Pairwise (fun a b => promptIdx ps a < promptIdx ps b)
        ((prev :: l).filter (fun k => !(promptIdx ps k == -1))) := by
  intro l
  induction l with
  | nil =>
    intro prev _ _
    by_cases hp : promptIdx ps prev = -1
    · simp [List.filter_cons, hp]
    · simp [List.filter_cons, hp]
  | cons z rest ih =>
    intro prev hch hnd
    by_cases hp : promptIdx ps prev = -1
    · have hall := chainNF ps (z :: rest) prev hp hch
      have h1 : (prev :: z :: rest).filter
          (fun k => !(promptIdx ps k == -1)) = [] := by
        rw [List.filter_eq_nil]
        intro a ha
        rcases List.mem_cons.mp ha with h | h
        · rw [h]; simp [hp]
        · simp [hall a h]
      have h2 : (prev :: z :: rest).filter
          (fun k => promptIdx ps k == -1) = prev :: z :: rest := by
        rw [List.filter_eq_self]
        intro a ha
        rcases List.mem_cons.mp ha with h | h
        · rw [h]; simp [hp]
        · simp [hall a h]
      rw [h1, h2]
      exact ⟨rfl, List.Pairwise.nil⟩
    · cases hch with
      | cons hrel hch2 =>
        obtain ⟨ihe, ihpw⟩ := ih z hch2 (List.Nodup.of_cons hnd)
        have hdom : ∀ y ∈ z :: rest, promptIdx ps y ≠ -1 →
            promptIdx ps prev < promptIdx ps y := by
          intro y hy hyf
          have hle := chainDom ps (z :: rest) prev hp
            (List.Chain.cons hrel hch2) y hy hyf
          have hneq : prev ≠ y := by
            intro he
            rw [← he] at hy
            exact (List.nodup_cons.mp hnd).1 hy
          have : promptIdx ps prev ≠ promptIdx ps y :=
            fun he => hneq (promptIdx_inj ps prev y hp hyf he)
          omega
        have hfc : (prev :: z :: rest).filter
            (fun k => !(promptIdx ps k == -1)) =
            prev :: (z :: rest).filter (fun k => !(promptIdx ps k == -1)) := by
          simp [List.filter_cons, hp]
        have hnc : (prev :: z :: rest).filter
            (fun k => promptIdx ps k == -1) =
            (z :: rest).filter (fun k => promptIdx ps k == -1) := by
          simp [List.filter_cons, hp]
        constructor
        · rw [hfc, hnc, List.cons_append]
          exact congrArg (List.cons prev) ihe
        · rw [hfc]
          refine List.pairwise_cons.mpr ⟨?_, ihpw⟩
          intro y hy
          exact hdom y (List.mem_of_mem_filter hy)
            (by simpa using (List.mem_filter.mp hy).2)

theorem descTailFound (ps : List PromptDesc) :
    ∀ (l : List String) (prev : String),
    List.Chain (fun u v => promptCmp ps v u < 0) prev l →
    ∀ y ∈ l, promptIdx ps y ≠ -1 := by
  intro l
  induction l with
  | nil => intro prev _ y hy; cases hy
  | cons z rest ih =>
    intro prev hch y hy
    cases hch with
    | cons hrel hch2 =>
      have hz : promptIdx ps z ≠ -1 := by
        intro hzn
        rw [promptCmp_nf_left ps z prev hzn] at hrel
        omega
      rcases List.mem_cons.mp hy with h | h
      · rw [h]; exact hz
      · exact ih z hch2 y h

theorem descPW (ps : List PromptDesc) : ∀ (l : List String) (prev : String),
    promptIdx ps prev ≠ -1 →
    List.Chain (fun u v => promptCmp ps v u < 0) prev l →
    List.Pairwise (fun a b => promptIdx ps b < promptIdx ps a) (prev :: l) := by
  intro l
  induction l with
  | nil =>
    intro prev _ _
    exact List.pairwise_singleton _ _
  | cons z rest ih =>
    intro prev hprev hch
    cases hch with
    | cons hrel hch2 =>
      have hz : promptIdx ps z ≠ -1 := by
        intro hzn
        rw [promptCmp_nf_left ps z prev hzn] at hrel
        omega
      rw [promptCmp_f_f ps z prev hz hprev] at hrel
      have ihpw := ih z hz hch2
      refine List.pairwise_cons.mpr ⟨?_, ihpw⟩
      intro y hy
      rcases List.mem_cons.mp hy with h | h
      · rw [h]; omega
      · have := (List.pairwise_cons.mp ihpw).1 y h
        omega

theorem v8Sort_split (ps : List PromptDesc) (A : List String)
    (hA : A.Nodup) :
    ∃ F, v8Sort (promptCmp ps) A =
        F ++ A.filter (fun k => promptIdx ps k == -1) ∧
      F.Perm (A.filter (fun k => !(promptIdx ps k == -1))) ∧
      List.Pairwise (fun a b => promptIdx ps a < promptIdx ps b) F := by
  cases A with
  | nil => exact ⟨[], by simp [v8Sort], by simp, List.Pairwise.nil⟩
  | cons a A1 =>
    cases A1 with
    | nil =>
      by_cases hx : promptIdx ps a = -1
      · exact ⟨[], by simp [v8Sort, List.filter_cons, hx],
          by simp [List.filter_cons, hx], List.Pairwise.nil⟩
      · exact ⟨[a], by simp [v8Sort, List.filter_cons, hx],
          by simp [List.filter_cons, hx], List.pairwise_singleton _ _⟩
    | cons b rest =>
      simp only [v8Sort]
      split
      · -- descending initial run, reversed, then binary insertion
        rename_i hba
        have hApp : (a :: b :: (descRunGo (promptCmp ps) b rest).1) ++
            (descRunGo (promptCmp ps) b rest).2 = a :: b :: rest := by
          simp only [List.cons_append]
          rw [descRunGo_append]
        have hchain := descRunGo_chain (promptCmp ps) rest b
        have hchainA : List.Chain (fun u v => promptCmp ps v u < 0) a
            (b :: (descRunGo (promptCmp ps) b rest).1) :=
          List.Chain.cons hba hchain
        have tFound := descTailFound ps
          (b :: (descRunGo (promptCmp ps) b rest).1) a hchainA
        have bF : promptIdx ps b ≠ -1 := tFound b (List.mem_cons_self _ _)
        have hpwT := descPW ps (descRunGo (promptCmp ps) b rest).1 b bF hchain
        have hA2 : ((a :: b :: (descRunGo (promptCmp ps) b rest).1) ++
            (descRunGo (promptCmp ps) b rest).2).Nodup := by
          rw [hApp]; exact hA
        have hndperm : (((a :: b :: (descRunGo (promptCmp ps) b rest).1).reverse ++
            (descRunGo (promptCmp ps) b rest).2)).Nodup := by
          refine (List.Perm.nodup_iff ?_).mpr hA2
          exact (List.reverse_perm _).append_right _
        have hTF : (b :: (descRunGo (promptCmp ps) b rest).1).filter
            (fun k => !(promptIdx ps k == -1)) =
            b :: (descRunGo (promptCmp ps) b rest).1 := by
          rw [List.filter_eq_self]
          intro y hy
          simp [tFound y hy]
        have hTN : (b :: (descRunGo (promptCmp ps) b rest).1).filter
            (fun k => promptIdx ps k == -1) = [] := by
          rw [List.filter_eq_nil]
          intro y hy
          simp [tFound y hy]
        by_cases ha : promptIdx ps a = -1
        · have hdf : (a :: b :: (descRunGo (promptCmp ps) b rest).1).filter
              (fun k => !(promptIdx ps k == -1)) =
              b :: (descRunGo (promptCmp ps) b rest).1 := by
            rw [List.filter_cons]
            simp only [ha]
            simpa using hTF
          have hdn : (a :: b :: (descRunGo (promptCmp ps) b rest).1).filter
              (fun k => promptIdx ps k == -1) = [a] := by
            rw [List.filter_cons]
            simp only [ha]
            simpa using hTN
          have hDf : ((a :: b :: (descRunGo (promptCmp ps) b rest).1).reverse).filter
              (fun k => !(promptIdx ps k == -1)) =
              (b :: (descRunGo (promptCmp ps) b rest).1).reverse := by
            rw [List.filter_reverse, hdf]
          have hDn : ((a :: b :: (descRunGo (promptCmp ps) b rest).1).reverse).filter
              (fun k => promptIdx ps k == -1) = [a] := by
            rw [List.filter_reverse, hdn]
            rfl
          have hDdec : (a :: b :: (descRunGo (promptCmp ps) b rest).1).reverse =
              ((a :: b :: (descRunGo (promptCmp ps) b rest).1).reverse).filter
                (fun k => !(promptIdx ps k == -1)) ++
              ((a :: b :: (descRunGo (promptCmp ps) b rest).1).reverse).filter
                (fun k => promptIdx ps k == -1) := by
            rw [hDf, hDn]
            exact List.reverse_cons _ _
          have hpwD : List.Pairwise
              (fun x y => promptIdx ps x < promptIdx ps y)
              (((a :: b :: (descRunGo (promptCmp ps) b rest).1).reverse).filter
                (fun k => !(promptIdx ps k == -1))) := by
            rw [hDf]
            exact List.pairwise_reverse.mpr hpwT
          rw [hDdec]
          obtain ⟨F2, hfold, hperm2, _, hpw2⟩ :=
            foldBinInsert ps (descRunGo (promptCmp ps) b rest).2
              ((a :: b :: (descRunGo (promptCmp ps) b rest).1).reverse)
              (((a :: b :: (descRunGo (promptCmp ps) b rest).1).reverse).filter
                (fun k => !(promptIdx ps k == -1)))
              hndperm (List.Perm.refl _)
              (by
                intro f hf
                have := (List.mem_filter.mp hf).2
                simpa using this)
              hpwD
          refine ⟨F2, ?_, ?_, hpw2⟩
          · rw [hfold, ← hApp, List.filter_append, List.filter_append,
              hDn, hdn]
          · refine hperm2.trans ?_
            rw [← hApp, List.filter_append, List.filter_append, hDf, hdf]
            exact ((List.reverse_perm _).append_right _)
        · have hpwDn := descPW ps
            (b :: (descRunGo (promptCmp ps) b rest).1) a ha hchainA
          have hdf : (a :: b :: (descRunGo (promptCmp ps) b rest).1).filter
              (fun k => !(promptIdx ps k == -1)) =
              a :: b :: (descRunGo (promptCmp ps) b rest).1 := by
            rw [List.filter_eq_self]
            intro y hy
            rcases List.mem_cons.mp hy with h | h
            · rw [h]; simp [ha]
            · simp [tFound y h]
          have hdn : (a :: b :: (descRunGo (promptCmp ps) b rest).1).filter
              (fun k => promptIdx ps k == -1) = [] := by
            rw [List.filter_eq_nil]
            intro y hy
            rcases List.mem_cons.mp hy with h | h
            · rw [h]; simp [ha]
            · simp [tFound y h]
          have hDf : ((a :: b :: (descRunGo (promptCmp ps) b rest).1).reverse).filter
              (fun k => !(promptIdx ps k == -1)) =
              (a :: b :: (descRunGo (promptCmp ps) b rest).1).reverse := by
            rw [List.filter_reverse, hdf]
          have hDn : ((a :: b :: (descRunGo (promptCmp ps) b rest).1).reverse).filter
              (fun k => promptIdx ps k == -1) = [] := by
            rw [List.filter_reverse, hdn]
            rfl
          have hDdec : (a :: b :: (descRunGo (promptCmp ps) b rest).1).reverse =
              ((a :: b :: (descRunGo (promptCmp ps) b rest).1).reverse).filter
                (fun k => !(promptIdx ps k == -1)) ++
              ((a :: b :: (descRunGo (promptCmp ps) b rest).1).reverse).filter
                (fun k => promptIdx ps k == -1) := by
            rw [hDf, hDn, List.append_nil]
          have hpwD : List.Pairwise
              (fun x y => promptIdx ps x < promptIdx ps y)
              (((a :: b :: (descRunGo (promptCmp ps) b rest).1).reverse).filter
                (fun k => !(promptIdx ps k == -1))) := by
            rw [hDf]
            exact List.pairwise_reverse.mpr hpwDn
          rw [hDdec]
          obtain ⟨F2, hfold, hperm2, _, hpw2⟩ :=
            foldBinInsert ps (descRunGo (promptCmp ps) b rest).2
              ((a :: b :: (descRunGo (promptCmp ps) b rest).1).reverse)
              (((a :: b :: (descRunGo (promptCmp ps) b rest).1).reverse).filter
                (fun k => !(promptIdx ps k == -1)))
              hndperm (List.Perm.refl _)
              (by
                intro f hf
                have := (List.mem_filter.mp hf).2
                simpa using this)
              hpwD
          refine ⟨F2, ?_, ?_, hpw2⟩
          · rw [hfold, ← hApp, List.filter_append, List.filter_append,
              hDn, hdn]
          · refine hperm2.trans ?_
            rw [← hApp, List.filter_append, List.filter_append, hDf, hdf]
            exact ((List.reverse_perm _).append_right _)
      · -- non-descending initial run kept in place
        rename_i hba
        have hba' : 0 ≤ promptCmp ps b a := Int.not_lt.mp hba
        have hApp : (a :: b :: (ascRunGo (promptCmp ps) b rest).1) ++
            (ascRunGo (promptCmp ps) b rest).2 = a :: b :: rest := by
          simp only [List.cons_append]
          rw [ascRunGo_append]
        have hch : List.Chain (fun u v => 0 ≤ promptCmp ps v u) a
            (b :: (ascRunGo (promptCmp ps) b rest).1) :=
          List.Chain.cons hba' (ascRunGo_chain (promptCmp ps) rest b)
        have hA2 : ((a :: b :: (ascRunGo (promptCmp ps) b rest).1) ++
            (ascRunGo (promptCmp ps) b rest).2).Nodup := by
          rw [hApp]; exact hA
        have hndrun : (a :: b :: (ascRunGo (promptCmp ps) b rest).1).Nodup :=
          List.Nodup.of_append_left hA2
        obtain ⟨hsh1, hsh2⟩ := ascShape ps
          (b :: (ascRunGo (promptCmp ps) b rest).1) a hch hndrun
        rw [hsh1]
        obtain ⟨F2, hfold, hperm2, _, hpw2⟩ :=
          foldBinInsert ps (ascRunGo (promptCmp ps) b rest).2
            (a :: b :: (ascRunGo (promptCmp ps) b rest).1)
            ((a :: b :: (ascRunGo (promptCmp ps) b rest).1).filter
              (fun k => !(promptIdx ps k == -1)))
            hA2 (List.Perm.refl _)
            (by
              intro f hf
              have := (List.mem_filter.mp hf).2
              simpa using this)
            hsh2
        refine ⟨F2, ?_, ?_, hpw2⟩
        · rw [hfold, hApp]
        · rw [hApp] at hperm2
          exact hperm2

theorem dedupGo_nodup : ∀ (l seen : List String),
    (dedupGo seen l).Nodup ∧
      ∀ x ∈ dedupGo seen l, seen.contains x = false := by
  intro l
  induction l with
  | nil =>
    intro seen
    exact ⟨List.nodup_nil, fun x hx => absurd hx (List.not_mem_nil x)⟩
  | cons x xs ih =>
    intro seen
    simp only [dedupGo]
    split
    · exact ih seen
    · rename_i hns
      obtain ⟨ihnd, ihseen⟩ := ih (x :: seen)
      constructor
      · refine List.nodup_cons.mpr ⟨?_, ihnd⟩
        intro hmem
        have hc := ihseen x hmem
        simp [List.contains_cons] at hc
      · intro y hy
        rcases List.mem_cons.mp hy with h | h
        · rw [h]
          exact Bool.eq_false_iff.mpr hns
        · have hc := ihseen y h
          simp only [List.contains_cons, Bool.or_eq_false_iff] at hc
          exact hc.2

theorem dedupFirst_nodup (l : List String) : (dedupFirst l).Nodup :=
  (dedupGo_nodup l []).1

/-- C3: when a prompts descriptor array is resolved, the final ordered
prompt list places the keys that appear in that array first, in the
array's relative order (pairwise ascending `findIndex` positions), and
appends the combined-set keys not found in the array afterward
preserving their original relative order: the not-found suffix is
exactly the `filter` of the combined set, in place.  For each key the
first descriptor naming it is selected from the array when present,
otherwise the fallback `\x7bname, type: "input", message: 'Please
specify value for "<key>"'\x7d` is synthesized.  The sort is modelled
as V8's TimSort run detection plus binary insertion (`v8Sort`), the
path Node ≥ 11 takes for these short arrays. -/
theorem prompt_order (o : LoadOpts) (ps : List PromptDesc)
    (hres : promptsResolved o = some ps) :
    (∃ F, promptKeysOf o =
        F ++ (combinedOf o).filter (fun k => promptIdx ps k == -1) ∧
      F.Perm ((combinedOf o).filter (fun k => !(promptIdx ps k == -1))) ∧
      List.Pairwise (fun a b => promptIdx ps a < promptIdx ps b) F) ∧
    promptDescsOf o = (promptKeysOf o).map (findPrompt (some ps)) ∧
    (∀ k d, ps.find? (fun p => p.name = k) = some d →
      findPrompt (some ps) k = d) ∧
    (∀ k, ps.find? (fun p => p.name = k) = none →
      findPrompt (some ps) k = fallbackDesc k) := by
  refine ⟨?_, ?_, ?_, ?_⟩
  · have hnd : (combinedOf o).Nodup := dedupFirst_nodup _
    have h := v8Sort_split ps (combinedOf o) hnd
    simpa only [promptKeysOf, hres] using h
  · simp only [promptDescsOf, hres]
  · intro k d h
    show (List.find? (fun p => decide (p.name = k)) ps).getD
      (fallbackDesc k) = d
    rw [h]
    rfl
  · intro k h
    show (List.find? (fun p => decide (p.name = k)) ps).getD
      (fallbackDesc k) = fallbackDesc k
    rw [h]
    rfl

/-- Witness for `prompt_order` at the spec's example: the resolved
prompts array is `[\x7bc\x7d, \x7ba\x7d]`, the combined set `[a, b, c]`,
and the invocation order comes out `[c, a, b]` — found keys first in
the array's order, the not-found key `b` afterward — with the matching
descriptors selected and the fallback synthesized for `b`. -/
theorem prompt_order_witness :
    promptsResolved exOptsC3ex =
      some [⟨"c", "input", "m"⟩, ⟨"a", "input", "m"⟩] ∧
    promptKeysOf exOptsC3ex = ["c", "a", "b"] ∧
    promptDescsOf exOptsC3ex =
      [⟨"c", "input", "m"⟩, ⟨"a", "input", "m"⟩, fallbackDesc "b"] ∧
    (∃ F, promptKeysOf exOptsC3ex =
        F ++ (combinedOf exOptsC3ex).filter (fun k =>
          promptIdx [⟨"c", "input", "m"⟩, ⟨"a", "input", "m"⟩] k == -1) ∧
      F.Perm ((combinedOf exOptsC3ex).filter (fun k =>
        !(promptIdx [⟨"c", "input", "m"⟩, ⟨"a", "input", "m"⟩] k == -1))) ∧
      List.Pairwise (fun a b =>
        promptIdx [⟨"c", "input", "m"⟩, ⟨"a", "input", "m"⟩] a <
          promptIdx [⟨"c", "input", "m"⟩, ⟨"a", "input", "m"⟩] b) F) :=
  ⟨rfl, rfl, rfl,
    (prompt_order exOptsC3ex [⟨"c", "input", "m"⟩, ⟨"a", "input", "m"⟩]
      rfl).1⟩

theorem getEnv_pfx_only (env : String → Option String) (pfx k : String) :
    getEnv env pfx none k = (env (pfx ++ mangleKey k)).map coerce := by
  unfold getEnv
  cases env (pfx ++ mangleKey k) <;> rfl

theorem applyEnv_get (env : String → Option String) (pfx : String) :
    ∀ (es : Entries) (k : String),
      getKey (applyEnv env pfx es) k =
        Option.map (applyEnvStep env pfx k) (getKey es k) := by
  intro es
  induction es with
  | nil => intro k; rfl
  | cons kv rest ih =>
    intro k
    obtain ⟨k', v⟩ := kv
    rw [applyEnv_cons]
    by_cases hk : k' = k
    · subst hk
      simp [getKey]
    · simp [getKey, hk, ih]

theorem applyEnvStep_hit_obj_obj (env : String → Option String)
    (pfx k : String) (tv eo : Entries) (raw : String)
    (h : env (pfx ++ mangleKey k) = some raw)
    (hc : coerce raw = JSON.obj eo) :
    applyEnvStep env pfx k (JSON.obj tv) =
      JSON.obj (shallowMergeEnv tv eo) := by
  unfold applyEnvStep
  rw [getEnv_pfx_only, h]
  simp only [Option.map_some']
  rw [hc]

theorem applyEnvStep_hit_nonobj (env : String → Option String)
    (pfx k : String) (v : JSON) (raw : String)
    (h : env (pfx ++ mangleKey k) = some raw)
    (hno : isObj (coerce raw) = false) :
    applyEnvStep env pfx k v = coerce raw := by
  unfold applyEnvStep
  rw [getEnv_pfx_only, h]
  simp only [Option.map_some']
  cases hc : coerce raw with
  | obj eo => rw [hc] at hno; simp [isObj] at hno
  | null => cases v <;> rfl
  | str s => cases v <;> rfl
  | num n => cases v <;> rfl
  | bool b => cases v <;> rfl
  | arr a => cases v <;> rfl

theorem shallowMergeEnv_get (eo : Entries) :
    ∀ (tv : Entries) (k : String), nodupKeysB eo = true →
      getKey (shallowMergeEnv tv eo) k =
        (match getKey eo k with
         | some w => some w
         | none => getKey tv k) := by
  induction eo with
  | nil => intro tv k _; rfl
  | cons kv rest ih =>
    intro tv k hn
    obtain ⟨k1, w⟩ := kv
    simp only [nodupKeysB, Bool.and_eq_true] at hn
    have hstep : shallowMergeEnv tv ((k1, w) :: rest) =
        shallowMergeEnv (setKey tv k1 w) rest := rfl
    rw [hstep, ih (setKey tv k1 w) k hn.2]
    by_cases hk : k1 = k
    · subst hk
      have hr : getKey rest k1 = none := Option.isNone_iff_eq_none.mp hn.1
      rw [hr]
      simp [getKey, getKey_setKey_self]
    · have hne : k ≠ k1 := fun hh => hk hh.symm
      simp [getKey, hk, getKey_setKey_ne tv k1 k w hne]

/-- C6: in the Recursive Environment Overlay, a found environment value
that is an object shallow-merges into an existing object value
(environment keys winning, existing-only keys preserved), while a found
non-object value replaces the existing value entirely, even a whole
sub-object; on the spec's §8 examples,
`APP_CONFIG_DATABASE=\x7b"host":"z","ssl":true\x7d` yields
`\x7bdatabase:\x7bhost:"z",port:1,ssl:true\x7d\x7d` and
`APP_CONFIG_DATABASE=plain-string` yields
`\x7bdatabase:"plain-string"\x7d`. -/
theorem env_overlay_merge_or_replace :
    (∀ (env : String → Option String) (pfx : String) (es : Entries)
        (k : String) (tv eo : Entries) (raw : String),
      getKey es k = some (JSON.obj tv) →
      env (pfx ++ mangleKey k) = some raw →
      coerce raw = JSON.obj eo →
      getKey (applyEnv env pfx es) k =
        some (JSON.obj (shallowMergeEnv tv eo))) ∧
    (∀ (eo tv : Entries) (k2 : String), nodupKeysB eo = true →
      getKey (shallowMergeEnv tv eo) k2 =
        (match getKey eo k2 with
         | some w => some w
         | none => getKey tv k2)) ∧
    (∀ (env : String → Option String) (pfx : String) (es : Entries)
        (k : String) (v : JSON) (raw : String),
      getKey es k = some v →
      env (pfx ++ mangleKey k) = some raw →
      isObj (coerce raw) = false →
      getKey (applyEnv env pfx es) k = some (coerce raw)) ∧
    applyEnv envSpecObj "APP_CONFIG_" treeSpecEx =
      [("database", JSON.obj [("host", JSON.str "z"), ("port", JSON.num 1),
        ("ssl", JSON.bool true)])] ∧
    applyEnv envSpecScalar "APP_CONFIG_" treeSpecEx =
      [("database", JSON.str "plain-string")] := by
  refine ⟨?_, ?_, ?_, rfl, rfl⟩
  · intro env pfx es k tv eo raw hes h hc
    rw [applyEnv_get, hes, Option.map_some',
      applyEnvStep_hit_obj_obj env pfx k tv eo raw h hc]
  · intro eo tv k2 hn
    exact shallowMergeEnv_get eo tv k2 hn
  · intro env pfx es k v raw hes h hno
    rw [applyEnv_get, hes, Option.map_some',
      applyEnvStep_hit_nonobj env pfx k v raw h hno]

/-- Witness for `env_overlay_merge_or_replace`: its hypotheses hold at
the spec's example tree and environments, once for the object-merge case
and once for the scalar-replace case. -/
theorem env_overlay_merge_or_replace_witness :
    getKey treeSpecEx "database" =
      some (JSON.obj [("host", JSON.str "x"), ("port", JSON.num 1)]) ∧
    envSpecObj ("APP_CONFIG_" ++ mangleKey "database") =
      some "\x7b\"host\":\"z\",\"ssl\":true\x7d" ∧
    getKey (applyEnv envSpecObj "APP_CONFIG_" treeSpecEx) "database" =
      some (JSON.obj (shallowMergeEnv
        [("host", JSON.str "x"), ("port", JSON.num 1)]
        [("host", JSON.str "z"), ("ssl", JSON.bool true)])) ∧
    getKey (applyEnv envSpecScalar "APP_CONFIG_" treeSpecEx) "database" =
      some (coerce "plain-string") :=
  ⟨rfl, rfl,
    env_overlay_merge_or_replace.1 envSpecObj "APP_CONFIG_" treeSpecEx
      "database" _ _ _ rfl rfl rfl,
    env_overlay_merge_or_replace.2.2.1 envSpecScalar "APP_CONFIG_" treeSpecEx
      "database" _ _ rfl rfl rfl⟩

theorem applyEnvMap_get (env : String → Option String) (k : String) :
    ∀ (em : List (String × String)) (cfg : Entries),
      getKey (applyEnvMap em env cfg) k = envMapAux em env k (getKey cfg k) := by
  intro em
  induction em with
  | nil => intro cfg; rfl
  | cons e rest ih =>
    intro cfg
    have hl : applyEnvMap (e :: rest) env cfg =
        applyEnvMap rest env
          (match env e.1 with
           | some raw => setKey cfg e.2 (coerce raw)
           | none => cfg) := rfl
    have hr : ∀ acc, envMapAux (e :: rest) env k acc =
        envMapAux rest env k
          (if e.2 = k then
            (match env e.1 with
             | some raw => some (coerce raw)
             | none => acc)
          else acc) := fun acc => rfl
    rw [hl, hr, ih]
    congr 1
    cases henv : env e.1 with
    | none =>
      by_cases he : e.2 = k <;> simp [he]
    | some raw =>
      by_cases he : e.2 = k
      · subst he
        simp [getKey_setKey_self]
      · have hne : k ≠ e.2 := fun hh => he hh.symm
        simp [he, getKey_setKey_ne cfg e.2 k _ hne]

theorem envMapAux_absorb (env : String → Option String) (k : String) :
    ∀ (em : List (String × String)) (acc : Option JSON),
      envMapAux em env k acc =
        (match envMapValueAt em env k with
         | some v => some v
         | none => acc) := by
  intro em
  induction em with
  | nil => intro acc; rfl
  | cons e rest ih =>
    intro acc
    have hr : ∀ a, envMapAux (e :: rest) env k a =
        envMapAux rest env k
          (if e.2 = k then
            (match env e.1 with
             | some raw => some (coerce raw)
             | none => a)
          else a) := fun a => rfl
    unfold envMapValueAt
    rw [hr, hr]
    by_cases he : e.2 = k
    · cases henv : env e.1 with
      | none =>
        simp only [he, if_pos, henv]
        rw [ih acc]
        rfl
      | some raw =>
        simp only [he, if_pos, henv]
        rw [ih (some (coerce raw))]
        cases envMapValueAt rest env k <;> rfl
    · simp only [if_neg he]
      rw [ih acc]
      rfl

theorem envMapAux_const (env : String → Option String) (k ek raw : String)
    (henv : env ek = some raw) :
    ∀ (em : List (String × String)), (∀ e ∈ em, e.2 = k → e.1 = ek) →
      envMapAux em env k (some (coerce raw)) = some (coerce raw) := by
  intro em
  induction em with
  | nil => intro _; rfl
  | cons e rest ih =>
    intro hu
    have hr : envMapAux (e :: rest) env k (some (coerce raw)) =
        envMapAux rest env k
          (if e.2 = k then
            (match env e.1 with
             | some raw' => some (coerce raw')
             | none => some (coerce raw))
          else some (coerce raw)) := rfl
    rw [hr]
    by_cases he : e.2 = k
    · have h1 : e.1 = ek := hu e (List.mem_cons_self _ _) he
      rw [if_pos he, h1, henv]
      exact ih (fun e' he' => hu e' (List.mem_cons_of_mem _ he'))
    · rw [if_neg he]
      exact ih (fun e' he' => hu e' (List.mem_cons_of_mem _ he'))

theorem envMapValueAt_unique_hit (env : String → Option String)
    (k ek raw : String) (henv : env ek = some raw) :
    ∀ (em : List (String × String)), (∀ e ∈ em, e.2 = k → e.1 = ek) →
      (ek, k) ∈ em → envMapValueAt em env k = some (coerce raw) := by
  intro em
  induction em with
  | nil => intro _ hmem; simp at hmem
  | cons e rest ih =>
    intro hu hmem
    unfold envMapValueAt
    have hr : envMapAux (e :: rest) env k none =
        envMapAux rest env k
          (if e.2 = k then
            (match env e.1 with
             | some raw' => some (coerce raw')
             | none => none)
          else none) := rfl
    rw [hr]
    by_cases he : e.2 = k
    · have h1 : e.1 = ek := hu e (List.mem_cons_self _ _) he
      rw [if_pos he, h1, henv]
      exact envMapAux_const env k ek raw henv rest
        (fun e' he' => hu e' (List.mem_cons_of_mem _ he'))
    · rcases List.mem_cons.mp hmem with hmem | hmem
      · exact absurd (congrArg Prod.snd hmem.symm) he
      · rw [if_neg he]
        exact ih (fun e' he' => hu e' (List.mem_cons_of_mem _ he')) hmem

theorem envMapValueAt_none_of_undef (env : String → Option String)
    (k : String) :
    ∀ (em : List (String × String)), (∀ e ∈ em, e.2 = k → env e.1 = none) →
      envMapValueAt em env k = none := by
  intro em
  induction em with
  | nil => intro _; rfl
  | cons e rest ih =>
    intro hu
    unfold envMapValueAt
    have hr : envMapAux (e :: rest) env k none =
        envMapAux rest env k
          (if e.2 = k then
            (match env e.1 with
             | some raw' => some (coerce raw')
             | none => none)
          else none) := rfl
    rw [hr]
    by_cases he : e.2 = k
    · rw [if_pos he, hu e (List.mem_cons_self _ _) he]
      exact ih (fun e' he' => hu e' (List.mem_cons_of_mem _ he'))
    · rw [if_neg he]
      exact ih (fun e' he' => hu e' (List.mem_cons_of_mem _ he'))

/-- C7: an envMap entry whose environment variable is defined assigns the
coerced raw value to its config key in the environment layer, after (and
overriding) the path-mangled overlay; entries whose variables are
undefined leave the key exactly as the overlay produced it. -/
theorem envmap_overrides_overlay :
    (∀ (o : LoadOpts) (ek k raw : String),
      o.dotenv = true → (∀ e ∈ o.envMap, e.2 = k → e.1 = ek) →
      (ek, k) ∈ o.envMap → o.env ek = some raw →
      getKey (envConfig o) k = some (coerce raw)) ∧
    (∀ (o : LoadOpts) (k : String),
      o.dotenv = true → (∀ e ∈ o.envMap, e.2 = k → o.env e.1 = none) →
      getKey (envConfig o) k =
        getKey (applyEnv o.env (envPfx o) (preConfig o)) k) := by
  constructor
  · intro o ek k raw hd hu hmem henv
    unfold envConfig
    rw [if_pos hd, applyEnvMap_get, envMapAux_absorb,
      envMapValueAt_unique_hit o.env k ek raw henv o.envMap hu hmem]
  · intro o k hd hu
    unfold envConfig
    rw [if_pos hd, applyEnvMap_get, envMapAux_absorb,
      envMapValueAt_none_of_undef o.env k o.envMap hu]

/-- Witness for `envmap_overrides_overlay`: one defined envMap entry
assigns its coerced value; one undefined entry leaves its key as the
overlay produced it. -/
theorem envmap_overrides_overlay_witness :
    exOptsC7.dotenv = true ∧
    ("DATABASE_URL", "database") ∈ exOptsC7.envMap ∧
    exOptsC7.env "DATABASE_URL" = some "postgres://localhost" ∧
    getKey (envConfig exOptsC7) "database" =
      some (coerce "postgres://localhost") ∧
    getKey (envConfig exOptsC7) "port" =
      getKey (applyEnv exOptsC7.env (envPfx exOptsC7)
        (preConfig exOptsC7)) "port" :=
  ⟨rfl, by decide, rfl,
    envmap_overrides_overlay.1 exOptsC7 "DATABASE_URL" "database"
      "postgres://localhost" rfl (by decide) (by decide) rfl,
    envmap_overrides_overlay.2 exOptsC7 "port" rfl (by decide)⟩

/-- C8: Value Coercion is a total, deterministic function of the raw
string — it is defined as a Lean function, so every input produces exactly
one output and no exception can occur — and whenever the input is none of
the recognized forms (the boolean keywords, a numeric literal, or a string
opening with a brace or bracket that parses completely), the original
string is returned unchanged. -/
theorem coerce_total_and_fallback :
    ∀ s : String, coerceRecognized s = false → coerce s = JSON.str s := by
  intro s h
  unfold coerceRecognized at h
  simp only [Bool.or_eq_false_iff] at h
  obtain ⟨⟨⟨h1, h2⟩, h3⟩, h4⟩ := h
  unfold coerce
  rw [if_neg (by simpa using h1), if_neg (by simpa using h2),
    if_neg (by simp [h3])]
  revert h4
  generalize s.data = d
  intro h4
  cases d with
  | nil => rfl
  | cons c cs =>
    simp only [Bool.and_eq_false_iff] at h4
    show (if (decide (c = lbrace) || decide (c = lbrack)) = true then
        match parseVal (s.length + 2) (c :: cs) with
        | some (v, rest) => if (skipWs rest).isEmpty = true then v else JSON.str s
        | none => JSON.str s
      else JSON.str s) = JSON.str s
    rcases h4 with h4 | h4
    · rw [if_neg (by simp [h4])]
    · cases hp : parseVal (s.length + 2) (c :: cs) with
      | none =>
        by_cases hg : (decide (c = lbrace) || decide (c = lbrack)) = true
        · rw [if_pos hg]
        · rw [if_neg hg]
      | some p =>
        obtain ⟨v, rest⟩ := p
        have h4' : (skipWs rest).isEmpty = false := by
          rw [hp] at h4
          exact h4
        by_cases hg : (decide (c = lbrace) || decide (c = lbrack)) = true
        · rw [if_pos hg]
          show (if (skipWs rest).isEmpty = true then v else JSON.str s) =
            JSON.str s
          rw [if_neg (by simp [h4'])]
        · rw [if_neg hg]

/-- Witness for `coerce_total_and_fallback` at an unrecognized input. -/
theorem coerce_total_and_fallback_witness :
    coerceRecognized "postgres://localhost" = false ∧
    coerce "postgres://localhost" = JSON.str "postgres://localhost" :=
  ⟨rfl, coerce_total_and_fallback "postgres://localhost" rfl⟩

theorem nodup_setKey (l : Entries) (k : String) (v : JSON)
    (hn : nodupKeysB l = true) : nodupKeysB (setKey l k v) = true := by
  induction l with
  | nil => simp [setKey, nodupKeysB, getKey]
  | cons kv rest ih =>
    obtain ⟨k', v'⟩ := kv
    simp only [nodupKeysB, Bool.and_eq_true] at hn
    by_cases hk : k' = k
    · subst hk
      simp only [setKey, if_pos rfl]
      simp only [nodupKeysB, Bool.and_eq_true]
      exact hn
    · simp only [setKey, if_neg hk]
      simp only [nodupKeysB, Bool.and_eq_true]
      refine ⟨?_, ih hn.2⟩
      rw [getKey_setKey_ne rest k k' v hk]
      exact hn.1

theorem nodup_defuStep (ds : Entries) (k : String) (v : JSON)
    (hn : nodupKeysB ds = true) : nodupKeysB (defuStep ds k v) = true := by
  cases v with
  | null => exact hn
  | str s => exact nodup_setKey ds k _ hn
  | num n => exact nodup_setKey ds k _ hn
  | bool b => exact nodup_setKey ds k _ hn
  | arr a => exact nodup_setKey ds k _ hn
  | obj o1 =>
    unfold defuStep
    cases hg : getKey ds k with
    | none => exact nodup_setKey ds k _ hn
    | some w => cases w <;> exact nodup_setKey ds k _ hn

theorem nodup_defuGo (b : Entries) :
    ∀ (ds : Entries), nodupKeysB ds = true → nodupKeysB (defuGo b ds) = true := by
  induction b with
  | nil => intro ds hn; rw [defuGo_nil]; exact hn
  | cons kv rest ih =>
    intro ds hn
    obtain ⟨k, v⟩ := kv
    rw [defuGo_cons]
    exact ih _ (nodup_defuStep ds k v hn)

theorem nodup_applyEnv (env : String → Option String) (pfx : String)
    (es : Entries) (hn : nodupKeysB es = true) :
    nodupKeysB (applyEnv env pfx es) = true := by
  induction es with
  | nil => exact hn
  | cons kv rest ih =>
    obtain ⟨k, v⟩ := kv
    simp only [nodupKeysB, Bool.and_eq_true] at hn
    rw [applyEnv_cons]
    simp only [nodupKeysB, Bool.and_eq_true]
    refine ⟨?_, ih hn.2⟩
    rw [applyEnv_get]
    cases hg : getKey rest k
    · rfl
    · rw [hg] at hn
      simp at hn

theorem nodup_applyEnvMap (env : String → Option String) :
    ∀ (em : List (String × String)) (cfg : Entries),
      nodupKeysB cfg = true → nodupKeysB (applyEnvMap em env cfg) = true := by
  intro em
  induction em with
  | nil => intro cfg hn; exact hn
  | cons e rest ih =>
    intro cfg hn
    have hl : applyEnvMap (e :: rest) env cfg =
        applyEnvMap rest env
          (match env e.1 with
           | some raw => setKey cfg e.2 (coerce raw)
           | none => cfg) := rfl
    rw [hl]
    cases env e.1 with
    | none => exact ih cfg hn
    | some raw => exact ih _ (nodup_setKey cfg e.2 _ hn)

theorem nodup_preConfig (o : LoadOpts) (hndf : nodupKeysB o.defaultConfig = true) :
    nodupKeysB (preConfig o) = true := by
  have hpre : preConfig o =
      defuGo (defuGo (defuGo o.overrides o.extraConfig) o.moduleConfig)
        o.defaultConfig := rfl
  rw [hpre]
  exact nodup_defuGo _ _ hndf

theorem nodup_envConfig (o : LoadOpts) (hndf : nodupKeysB o.defaultConfig = true) :
    nodupKeysB (envConfig o) = true := by
  unfold envConfig
  cases hd : o.dotenv with
  | false => rfl
  | true =>
    rw [if_pos rfl]
    exact nodup_applyEnvMap o.env o.envMap _
      (nodup_applyEnv o.env (envPfx o) _ (nodup_preConfig o hndf))

theorem nodup_mergedConfig (o : LoadOpts)
    (hndf : nodupKeysB o.defaultConfig = true) :
    nodupKeysB (mergedConfig o) = true := by
  have hm : mergedConfig o =
      defuGo (defuGo o.overrides (envConfig o)) (preConfig o) := rfl
  rw [hm]
  exact nodup_defuGo _ _ (nodup_preConfig o hndf)

theorem tty_gate_bool (a b : Bool) : (a && !b) = true ↔ (!a || b) = false := by
  cases a <;> cases b <;> simp

theorem loadConfig_ok_config (o : LoadOpts) (res : LoadResult)
    (h : loadConfig o = Except.ok res) :
    res.config = defuGo (respUsed o) (mergedConfig o) := by
  unfold loadConfig at h
  by_cases hc1 : (o.required.isSome || o.prompt.isSome) = true
  · rw [if_pos hc1] at h
    by_cases hc2 : (decide ((missingOf o).length > 0) ||
        !(o.prompt.getD []).isEmpty) = true
    · rw [if_pos hc2] at h
      by_cases hc3 : (!o.hasTTY || decide (o.prompts = PromptsOpt.disabled)) = true
      · rw [if_pos hc3] at h
        exact absurd h (by simp)
      · rw [if_neg hc3] at h
        have hph : promptHappens o = true := by
          unfold promptHappens
          rw [hc1, hc2]
          simp only [Bool.true_and]
          exact (tty_gate_bool o.hasTTY
            (decide (o.prompts = PromptsOpt.disabled))).mpr
            (Bool.eq_false_iff.mpr hc3)
        have hr : respUsed o = o.promptFn (promptDescsOf o) := by
          unfold respUsed
          rw [hph]
          rfl
        have hres : res = ⟨defu [o.promptFn (promptDescsOf o), mergedConfig o],
            missingOf o, 1⟩ := by
          injection h with h'
          exact h'.symm
        rw [hres, hr]
        rfl
    · rw [if_neg hc2] at h
      have hph : promptHappens o = false := by
        unfold promptHappens
        rw [Bool.eq_false_iff.mpr hc2]
        simp
      have hr : respUsed o = [] := by
        unfold respUsed
        rw [hph]
        rfl
      have hres : res = ⟨mergedConfig o, [], 0⟩ := by
        injection h with h'
        exact h'.symm
      rw [hres, hr]
      rfl
  · rw [if_neg hc1] at h
    have hph : promptHappens o = false := by
      unfold promptHappens
      rw [Bool.eq_false_iff.mpr hc1]
      simp
    have hr : respUsed o = [] := by
      unfold respUsed
      rw [hph]
      rfl
    have hres : res = ⟨mergedConfig o, [], 0⟩ := by
      injection h with h'
      exact h'.symm
    rw [hres, hr]
    rfl

theorem preConfig_get (o : LoadOpts) (k : String)
    (hnov : nodupKeysB o.overrides = true)
    (hnex : nodupKeysB o.extraConfig = true)
    (hnmod : nodupKeysB o.moduleConfig = true)
    (hov : ∀ v, getKey o.overrides k = some v → isAtomic v = true)
    (hex : ∀ v, getKey o.extraConfig k = some v → isAtomic v = true)
    (hmod : ∀ v, getKey o.moduleConfig k = some v → isAtomic v = true) :
    getKey (preConfig o) k =
      firstSome [getKey o.overrides k, getKey o.extraConfig k,
        getKey o.moduleConfig k, getKey o.defaultConfig k] := by
  have hpre : preConfig o =
      defuGo (defuGo (defuGo o.overrides o.extraConfig) o.moduleConfig)
        o.defaultConfig := rfl
  have hn1 : nodupKeysB (defuGo o.overrides o.extraConfig) = true :=
    nodup_defuGo _ _ hnex
  have hn2 : nodupKeysB (defuGo (defuGo o.overrides o.extraConfig)
      o.moduleConfig) = true := nodup_defuGo _ _ hnmod
  rw [hpre]
  cases hov' : getKey o.overrides k with
  | some v =>
    have h1 : getKey (defuGo o.overrides o.extraConfig) k = some v :=
      defuGo_get_atomic _ _ _ _ hnov hov' (hov v hov')
    have h2 : getKey (defuGo (defuGo o.overrides o.extraConfig)
        o.moduleConfig) k = some v :=
      defuGo_get_atomic _ _ _ _ hn1 h1 (hov v hov')
    rw [defuGo_get_atomic _ _ _ _ hn2 h2 (hov v hov')]
    simp [firstSome]
  | none =>
    have h1 : getKey (defuGo o.overrides o.extraConfig) k =
        getKey o.extraConfig k := defuGo_get_absent _ _ _ hov'
    cases hex' : getKey o.extraConfig k with
    | some v =>
      rw [hex'] at h1
      have h2 : getKey (defuGo (defuGo o.overrides o.extraConfig)
          o.moduleConfig) k = some v :=
        defuGo_get_atomic _ _ _ _ hn1 h1 (hex v hex')
      rw [defuGo_get_atomic _ _ _ _ hn2 h2 (hex v hex')]
      simp [firstSome]
    | none =>
      rw [hex'] at h1
      have h2 : getKey (defuGo (defuGo o.overrides o.extraConfig)
          o.moduleConfig) k = getKey o.moduleConfig k :=
        defuGo_get_absent _ _ _ h1
      cases hmod' : getKey o.moduleConfig k with
      | some v =>
        rw [hmod'] at h2
        rw [defuGo_get_atomic _ _ _ _ hn2 h2 (hmod v hmod')]
        simp [firstSome]
      | none =>
        rw [hmod'] at h2
        rw [defuGo_get_absent _ _ _ h2]
        simp [firstSome]
        cases getKey o.defaultConfig k <;> rfl

theorem firstSome_atomic (l : List (Option JSON))
    (h : ∀ ov ∈ l, ∀ v, ov = some v → isAtomic v = true) :
    ∀ v, firstSome l = some v → isAtomic v = true := by
  induction l with
  | nil => intro v hv; simp [firstSome] at hv
  | cons x rest ih =>
    intro v hv
    cases x with
    | some w =>
      simp only [firstSome, Option.some.injEq] at hv
      rw [← hv]
      exact h (some w) (List.mem_cons_self _ _) w rfl
    | none =>
      simp only [firstSome] at hv
      exact ih (fun ov hov => h ov (List.mem_cons_of_mem _ hov)) v hv

theorem preConfig_atomic (o : LoadOpts) (k : String)
    (hnov : nodupKeysB o.overrides = true)
    (hnex : nodupKeysB o.extraConfig = true)
    (hnmod : nodupKeysB o.moduleConfig = true)
    (hov : ∀ v, getKey o.overrides k = some v → isAtomic v = true)
    (hex : ∀ v, getKey o.extraConfig k = some v → isAtomic v = true)
    (hmod : ∀ v, getKey o.moduleConfig k = some v → isAtomic v = true)
    (hdf : ∀ v, getKey o.defaultConfig k = some v → isAtomic v = true) :
    ∀ v, getKey (preConfig o) k = some v → isAtomic v = true := by
  intro v hv
  rw [preConfig_get o k hnov hnex hnmod hov hex hmod] at hv
  refine firstSome_atomic _ ?_ v hv
  intro ov hov' w hw
  simp only [List.mem_cons, List.not_mem_nil, or_false] at hov'
  rcases hov' with h | h | h | h
  · rw [h] at hw
    exact hov w hw
  · rw [h] at hw
    exact hex w hw
  · rw [h] at hw
    exact hmod w hw
  · rw [h] at hw
    exact hdf w hw

theorem envConfig_get (o : LoadOpts) (k : String) (hd : o.dotenv = true) :
    getKey (envConfig o) k =
      (match envMapValueAt o.envMap o.env k with
       | some v => some v
       | none => Option.map (applyEnvStep o.env (envPfx o) k)
           (getKey (preConfig o) k)) := by
  unfold envConfig
  rw [if_pos hd, applyEnvMap_get, envMapAux_absorb, applyEnv_get]

theorem applyEnvStep_atomic (env : String → Option String) (pfx k : String)
    (v : JSON) (hv : isAtomic v = true) :
    applyEnvStep env pfx k v =
      (match env (pfx ++ mangleKey k) with
       | some raw => coerce raw
       | none => v) := by
  unfold applyEnvStep
  rw [getEnv_pfx_only]
  cases henv : env (pfx ++ mangleKey k) with
  | none =>
    simp only [Option.map_none']
    cases v <;> first | rfl | simp [isAtomic] at hv
  | some raw =>
    simp only [Option.map_some']
    cases coerce raw <;> cases v <;> first | rfl | simp [isAtomic] at hv

theorem mergedConfig_get (o : LoadOpts) (k : String)
    (hnov : nodupKeysB o.overrides = true)
    (hnex : nodupKeysB o.extraConfig = true)
    (hnmod : nodupKeysB o.moduleConfig = true)
    (hndf : nodupKeysB o.defaultConfig = true)
    (hov : ∀ v, getKey o.overrides k = some v → isAtomic v = true)
    (hex : ∀ v, getKey o.extraConfig k = some v → isAtomic v = true)
    (hmod : ∀ v, getKey o.moduleConfig k = some v → isAtomic v = true)
    (hdf : ∀ v, getKey o.defaultConfig k = some v → isAtomic v = true)
    (henv : ∀ v, envLayerValueAt o k = some v → isAtomic v = true) :
    getKey (mergedConfig o) k =
      firstSome [getKey o.overrides k, envLayerValueAt o k,
        getKey o.extraConfig k, getKey o.moduleConfig k,
        getKey o.defaultConfig k] := by
  have hpreget := preConfig_get o k hnov hnex hnmod hov hex hmod
  have hpreat := preConfig_atomic o k hnov hnex hnmod hov hex hmod hdf
  have hnenv := nodup_envConfig o hndf
  have hnb1 : nodupKeysB (defuGo o.overrides (envConfig o)) = true :=
    nodup_defuGo _ _ hnenv
  have hmergedEq : mergedConfig o =
      defuGo (defuGo o.overrides (envConfig o)) (preConfig o) := rfl
  rw [hmergedEq]
  cases hov' : getKey o.overrides k with
  | some v =>
    have ha := hov v hov'
    have h1 : getKey (defuGo o.overrides (envConfig o)) k = some v :=
      defuGo_get_atomic _ _ _ _ hnov hov' ha
    rw [defuGo_get_atomic _ _ _ _ hnb1 h1 ha]
    simp [firstSome]
  | none =>
    have h1 : getKey (defuGo o.overrides (envConfig o)) k =
        getKey (envConfig o) k := defuGo_get_absent _ _ _ hov'
    have hrest : getKey (preConfig o) k =
        firstSome [getKey o.extraConfig k, getKey o.moduleConfig k,
          getKey o.defaultConfig k] := by
      rw [hpreget, hov']
      rfl
    cases hd : o.dotenv with
    | false =>
      have he : getKey (envConfig o) k = none := by
        unfold envConfig
        rw [if_neg (by simp [hd])]
        rfl
      have h2 : getKey (defuGo (defuGo o.overrides (envConfig o))
          (preConfig o)) k = getKey (preConfig o) k :=
        defuGo_get_absent _ _ _ (h1.trans he)
      have henvl : envLayerValueAt o k = none := by
        unfold envLayerValueAt
        rw [if_neg (by simp [hd])]
      rw [h2, hrest, henvl]
      rfl
    | true =>
      have hec := envConfig_get o k hd
      have henvl0 : envLayerValueAt o k =
          (match envMapValueAt o.envMap o.env k with
           | some v => some v
           | none =>
             if hasKey (preConfig o) k then
               (o.env (envPfx o ++ mangleKey k)).map coerce
             else none) := by
        unfold envLayerValueAt
        rw [if_pos hd]
      cases hemv : envMapValueAt o.envMap o.env k with
      | some w =>
        have henvl : envLayerValueAt o k = some w := by
          rw [henvl0, hemv]
        have haw : isAtomic w = true := henv w henvl
        have he : getKey (envConfig o) k = some w := by
          rw [hec, hemv]
        have hb1 : getKey (defuGo o.overrides (envConfig o)) k = some w :=
          h1.trans he
        rw [defuGo_get_atomic _ _ _ _ hnb1 hb1 haw, henvl]
        rfl
      | none =>
        have henvl1 : envLayerValueAt o k =
            (if hasKey (preConfig o) k then
              (o.env (envPfx o ++ mangleKey k)).map coerce
            else none) := by
          rw [henvl0, hemv]
        cases hpre' : getKey (preConfig o) k with
        | none =>
          have he : getKey (envConfig o) k = none := by
            rw [hec, hemv, hpre']
            rfl
          have h2 : getKey (defuGo (defuGo o.overrides (envConfig o))
              (preConfig o)) k = getKey (preConfig o) k :=
            defuGo_get_absent _ _ _ (h1.trans he)
          have henvl : envLayerValueAt o k = none := by
            rw [henvl1, if_neg (by simp [hasKey, hpre'])]
          rw [h2, hpre', henvl]
          rw [hpre'] at hrest
          exact hrest
        | some u =>
          have hau := hpreat u hpre'
          have he : getKey (envConfig o) k =
              some (applyEnvStep o.env (envPfx o) k u) := by
            rw [hec, hemv, hpre']
            rfl
          have hstep := applyEnvStep_atomic o.env (envPfx o) k u hau
          have hhk : hasKey (preConfig o) k = true := by
            simp [hasKey, hpre']
          cases henvv : o.env (envPfx o ++ mangleKey k) with
          | some raw =>
            have hw : applyEnvStep o.env (envPfx o) k u = coerce raw := by
              rw [hstep, henvv]
            have henvl : envLayerValueAt o k = some (coerce raw) := by
              rw [henvl1, if_pos hhk, henvv]
              rfl
            have haw : isAtomic (coerce raw) = true := henv _ henvl
            have hb1 : getKey (defuGo o.overrides (envConfig o)) k =
                some (coerce raw) := by
              rw [h1, he, hw]
            rw [defuGo_get_atomic _ _ _ _ hnb1 hb1 haw, henvl]
            rfl
          | none =>
            have hw : applyEnvStep o.env (envPfx o) k u = u := by
              rw [hstep, henvv]
            have henvl : envLayerValueAt o k = none := by
              rw [henvl1, if_pos hhk, henvv]
              rfl
            have hb1 : getKey (defuGo o.overrides (envConfig o)) k = some u := by
              rw [h1, he, hw]
            rw [defuGo_get_atomic _ _ _ _ hnb1 hb1 hau, henvl]
            rw [hpre'] at hrest
            exact hrest

/-- C1: for every successful `loadConfig` invocation and every key, the
returned config respects the precedence chain prompt response > explicit
overrides > environment layer > explicit config-file layer > discovered
module-config layer > defaultConfig, whichever layers are present or
absent.  Stated for keys whose layer values are atomic — neither `null`
(which defu deliberately skips) nor objects (which the engine deep-merges
rather than selecting wholesale) — with every layer's keys unique, as JS
objects guarantee.  `specPrecedence` is the spec-side chain the computed
value is compared against. -/
theorem precedence_invariant (o : LoadOpts) (k : String) (res : LoadResult)
    (hnov : nodupKeysB o.overrides = true)
    (hnex : nodupKeysB o.extraConfig = true)
    (hnmod : nodupKeysB o.moduleConfig = true)
    (hndf : nodupKeysB o.defaultConfig = true)
    (hnresp : nodupKeysB (respUsed o) = true)
    (hov : ∀ v, getKey o.overrides k = some v → isAtomic v = true)
    (hex : ∀ v, getKey o.extraConfig k = some v → isAtomic v = true)
    (hmod : ∀ v, getKey o.moduleConfig k = some v → isAtomic v = true)
    (hdf : ∀ v, getKey o.defaultConfig k = some v → isAtomic v = true)
    (henv : ∀ v, envLayerValueAt o k = some v → isAtomic v = true)
    (hresp : ∀ v, getKey (respUsed o) k = some v → isAtomic v = true)
    (hres : loadConfig o = Except.ok res) :
    getKey res.config k = specPrecedence o (respUsed o) k := by
  rw [loadConfig_ok_config o res hres]
  have hmg := mergedConfig_get o k hnov hnex hnmod hndf hov hex hmod hdf henv
  cases hresp' : getKey (respUsed o) k with
  | some v =>
    rw [defuGo_get_atomic _ _ _ _ hnresp hresp' (hresp v hresp')]
    unfold specPrecedence
    rw [hresp']
    rfl
  | none =>
    rw [defuGo_get_absent _ _ _ hresp']
    unfold specPrecedence
    rw [hresp']
    exact hmg

/-- Witness for `precedence_invariant` at the key `envv` of `exOptsC1`:
absent from overrides, set by the environment, also present in the module
and default layers — the environment layer's value wins, as the chain
prescribes. -/
theorem precedence_invariant_witness :
    loadConfig exOptsC1 = Except.ok ⟨mergedConfig exOptsC1, [], 0⟩ ∧
    getKey (mergedConfig exOptsC1) "envv" = some (JSON.str "env-value") ∧
    specPrecedence exOptsC1 (respUsed exOptsC1) "envv" =
      some (JSON.str "env-value") ∧
    getKey (LoadResult.mk (mergedConfig exOptsC1) [] 0).config "envv" =
      specPrecedence exOptsC1 (respUsed exOptsC1) "envv" :=
  ⟨rfl, rfl, rfl,
    precedence_invariant exOptsC1 "envv" ⟨mergedConfig exOptsC1, [], 0⟩
      rfl rfl rfl rfl rfl
      (by intro v hv; cases hv)
      (by intro v hv; cases hv)
      (by intro v hv; cases hv; rfl)
      (by intro v hv; cases hv; rfl)
      (by intro v hv; cases hv; rfl)
      (by intro v hv; cases hv)
      rfl⟩

theorem sizeJ_pos (j : JSON) : 0 < sizeJ j := by
  cases j <;> simp [sizeJ]

theorem sizeJA_pos (vs : List JSON) : 0 < sizeJA vs := by
  cases vs with
  | nil => simp [sizeJA]
  | cons v rest => simp [sizeJA]

theorem alloc_mem (h : Heap) (ob : HObj) (id : Nat) :
    (alloc h ob).1.mem id = if h.next = id then some ob else h.mem id := rfl

theorem writeAt_mem (h : Heap) (r : Nat) (ob : HObj) (id : Nat) :
    (writeAt h r ob).mem id = if r = id then some ob else h.mem id := rfl

theorem alloc_wf (h : Heap) (ob : HObj) (hw : heapWF h) :
    heapWF (alloc h ob).1 := by
  intro id hid
  have hid' : h.next + 1 ≤ id := hid
  rw [alloc_mem, if_neg (by omega)]
  exact hw id (by omega)

theorem FrameAll_refl (h : Heap) : FrameAll h h :=
  ⟨le_refl _, fun _ _ => rfl, fun hw => hw⟩

theorem FrameAll_trans {h1 h2 h3 : Heap} (a : FrameAll h1 h2)
    (b : FrameAll h2 h3) : FrameAll h1 h3 := by
  refine ⟨le_trans a.1 b.1, ?_, fun hw => b.2.2 (a.2.2 hw)⟩
  intro id hid
  rw [b.2.1 id (lt_of_lt_of_le hid a.1), a.2.1 id hid]

theorem FrameAll_alloc (h : Heap) (ob : HObj) : FrameAll h (alloc h ob).1 := by
  refine ⟨by show h.next ≤ h.next + 1; omega, ?_, alloc_wf h ob⟩
  intro id hid
  rw [alloc_mem, if_neg (by omega)]

theorem setFieldAt_next (h : Heap) (r : Nat) (k : String) (v : HVal) :
    (setFieldAt h r k v).next = h.next := by
  cases hm : h.mem r with
  | none => simp [setFieldAt, hm]
  | some ob =>
    cases ob with
    | obj es => simp [setFieldAt, hm, writeAt]
    | arr vs => simp [setFieldAt, hm]

theorem setFieldAt_mem_ne (h : Heap) (r : Nat) (k : String) (v : HVal)
    (id : Nat) (hid : id ≠ r) : (setFieldAt h r k v).mem id = h.mem id := by
  cases hm : h.mem r with
  | none => simp [setFieldAt, hm]
  | some ob =>
    cases ob with
    | obj es => simp [setFieldAt, hm, writeAt_mem, Ne.symm hid]
    | arr vs => simp [setFieldAt, hm]

theorem setFieldAt_wf (h : Heap) (r : Nat) (k : String) (v : HVal)
    (hw : heapWF h) : heapWF (setFieldAt h r k v) := by
  cases hm : h.mem r with
  | none => simpa [setFieldAt, hm] using hw
  | some ob =>
    cases ob with
    | arr vs => simpa [setFieldAt, hm] using hw
    | obj es =>
      intro id hid
      have hrn : r < h.next := by
        by_contra hge
        push_neg at hge
        rw [hw r hge] at hm
        exact Option.noConfusion hm
      rw [setFieldAt_next] at hid
      rw [setFieldAt_mem_ne h r k v id (by omega)]
      exact hw id hid

theorem ValAbove_mono {n0 n1 : Nat} (hn : n0 ≤ n1) {v : HVal}
    (hv : ValAbove n1 v) : ValAbove n0 v := by
  cases v with
  | ref r => exact le_trans hn hv
  | str s => trivial
  | num n => trivial
  | bool b => trivial
  | null => trivial

theorem ObjAbove_mono {n0 n1 : Nat} (hn : n0 ≤ n1) {ob : HObj}
    (hob : ObjAbove n1 ob) : ObjAbove n0 ob := by
  cases ob with
  | obj es => exact fun kv hkv => ValAbove_mono hn (hob kv hkv)
  | arr vs => exact fun v hv => ValAbove_mono hn (hob v hv)

theorem SegAbove_of_wf (h : Heap) (hw : heapWF h) : SegAbove h h.next := by
  intro id ob hid hm
  rw [hw id hid] at hm
  exact Option.noConfusion hm

theorem getF_mem : ∀ (es : List (String × HVal)) (k : String) (v : HVal),
    getF es k = some v → (k, v) ∈ es := by
  intro es
  induction es with
  | nil => intro k v hv; exact Option.noConfusion hv
  | cons kw rest ih =>
    intro k v hv
    obtain ⟨k', w⟩ := kw
    by_cases hk : k' = k
    · subst hk
      simp only [getF, if_pos rfl] at hv
      cases hv
      exact List.mem_cons_self _ _
    · simp only [getF, if_neg hk] at hv
      exact List.mem_cons_of_mem _ (ih k v hv)

theorem setF_mem : ∀ (es : List (String × HVal)) (k : String) (v : HVal)
    (kv : String × HVal), kv ∈ setF es k v → kv.2 = v ∨ kv ∈ es := by
  intro es
  induction es with
  | nil =>
    intro k v kv hkv
    simp only [setF, List.mem_singleton] at hkv
    left
    rw [hkv]
  | cons kw rest ih =>
    intro k v kv hkv
    obtain ⟨k', w⟩ := kw
    by_cases hk : k' = k
    · rw [show setF ((k', w) :: rest) k v = (k, v) :: rest by
        simp [setF, hk]] at hkv
      rcases List.mem_cons.mp hkv with h1 | h2
      · left; rw [h1]
      · right; exact List.mem_cons_of_mem _ h2
    · rw [show setF ((k', w) :: rest) k v = (k', w) :: setF rest k v by
        simp [setF, hk]] at hkv
      rcases List.mem_cons.mp hkv with h1 | h2
      · right; rw [h1]; exact List.mem_cons_self _ _
      · rcases ih k v kv h2 with ha | hb
        · left; exact ha
        · right; exact List.mem_cons_of_mem _ hb

theorem SegAbove_setFieldAt {h : Heap} {n0 : Nat} (hs : SegAbove h n0)
    (r : Nat) (k : String) {v : HVal} (hv : ValAbove n0 v) :
    SegAbove (setFieldAt h r k v) n0 := by
  cases hm : h.mem r with
  | none => simpa [setFieldAt, hm] using hs
  | some ob =>
    cases ob with
    | arr vs => simpa [setFieldAt, hm] using hs
    | obj es =>
      intro id ob2 hid hm2
      by_cases hir : id = r
      · subst hir
        have hm2' : (setFieldAt h id k v).mem id =
            some (HObj.obj (setF es k v)) := by
          simp [setFieldAt, hm, writeAt_mem]
        rw [hm2'] at hm2
        cases hm2
        intro kv hkv
        rcases setF_mem es k v kv hkv with h1 | h2
        · rw [h1]; exact hv
        · exact (hs id (HObj.obj es) hid hm) kv h2
      · rw [setFieldAt_mem_ne h r k v id hir] at hm2
        exact hs id ob2 hid hm2

theorem SegAbove_alloc {h : Heap} {n0 : Nat} (hs : SegAbove h n0)
    {ob : HObj} (hob : ObjAbove n0 ob) : SegAbove (alloc h ob).1 n0 := by
  intro id ob2 hid hm2
  by_cases hin : id = h.next
  · subst hin
    have hme : (alloc h ob).1.mem h.next = some ob := by
      rw [alloc_mem, if_pos rfl]
    rw [hme] at hm2
    cases hm2
    exact hob
  · have hme : (alloc h ob).1.mem id = h.mem id := by
      rw [alloc_mem, if_neg (fun he => hin he.symm)]
    rw [hme] at hm2
    exact hs id ob2 hid hm2

theorem allocJSON_aux : ∀ n : Nat,
    (∀ h j, sizeJ j ≤ n →
      FrameAll h (allocJSON h j).1 ∧ ValAbove h.next (allocJSON h j).2 ∧
        ∀ n0, n0 ≤ h.next → SegAbove h n0 → SegAbove (allocJSON h j).1 n0) ∧
    (∀ h vs, sizeJA vs ≤ n →
      FrameAll h (allocJSONArr h vs).1 ∧
        (∀ v, v ∈ (allocJSONArr h vs).2 → ValAbove h.next v) ∧
        ∀ n0, n0 ≤ h.next → SegAbove h n0 →
          SegAbove (allocJSONArr h vs).1 n0) ∧
    (∀ h es, sizeJE es ≤ n →
      FrameAll h (allocJSONEntries h es).1 ∧
        (∀ kv, kv ∈ (allocJSONEntries h es).2 → ValAbove h.next kv.2) ∧
        ∀ n0, n0 ≤ h.next → SegAbove h n0 →
          SegAbove (allocJSONEntries h es).1 n0) := by
  intro n
  induction n with
  | zero =>
    refine ⟨fun h j hsz => ?_, fun h vs hsz => ?_, fun h es hsz => ?_⟩
    · have := sizeJ_pos j; omega
    · have := sizeJA_pos vs; omega
    · have := sizeJE_pos es; omega
  | succ n ih =>
    obtain ⟨ihJ, ihA, ihE⟩ := ih
    refine ⟨fun h j hsz => ?_, fun h vs hsz => ?_, fun h es hsz => ?_⟩
    · cases j with
      | str s => exact ⟨FrameAll_refl h, trivial, fun n0 _ hs => hs⟩
      | num m => exact ⟨FrameAll_refl h, trivial, fun n0 _ hs => hs⟩
      | bool b => exact ⟨FrameAll_refl h, trivial, fun n0 _ hs => hs⟩
      | null => exact ⟨FrameAll_refl h, trivial, fun n0 _ hs => hs⟩
      | arr es =>
        simp only [sizeJ] at hsz
        obtain ⟨f1, v1, s1⟩ := ihA h es (by omega)
        refine ⟨FrameAll_trans f1 (FrameAll_alloc _ _), f1.1, ?_⟩
        intro n0 hn hs
        exact SegAbove_alloc (s1 n0 hn hs)
          (fun v hv => ValAbove_mono hn (v1 v hv))
      | obj es =>
        simp only [sizeJ] at hsz
        obtain ⟨f1, v1, s1⟩ := ihE h es (by omega)
        refine ⟨FrameAll_trans f1 (FrameAll_alloc _ _), f1.1, ?_⟩
        intro n0 hn hs
        exact SegAbove_alloc (s1 n0 hn hs)
          (fun kv hkv => ValAbove_mono hn (v1 kv hkv))
    · cases vs with
      | nil => exact ⟨FrameAll_refl h, fun v hv => absurd hv (List.not_mem_nil v), fun n0 _ hs => hs⟩
      | cons v rest =>
        simp only [sizeJA] at hsz
        obtain ⟨fj, vj, sj⟩ := ihJ h v (by have := sizeJ_pos v; omega)
        obtain ⟨fa, va, sa⟩ := ihA (allocJSON h v).1 rest (by omega)
        refine ⟨FrameAll_trans fj fa, ?_, ?_⟩
        · intro w hw
          rcases List.mem_cons.mp hw with h1 | h2
          · rw [h1]; exact vj
          · exact ValAbove_mono fj.1 (va w h2)
        · intro n0 hn hs
          exact sa n0 (le_trans hn fj.1) (sj n0 hn hs)
    · cases es with
      | nil => exact ⟨FrameAll_refl h, fun kv hkv => absurd hkv (List.not_mem_nil kv), fun n0 _ hs => hs⟩
      | cons kv rest =>
        obtain ⟨k, v⟩ := kv
        rw [sizeJE_cons] at hsz
        obtain ⟨fj, vj, sj⟩ := ihJ h v (by omega)
        obtain ⟨fa, va, sa⟩ := ihE (allocJSON h v).1 rest (by omega)
        refine ⟨FrameAll_trans fj fa, ?_, ?_⟩
        · intro kw hkw
          rcases List.mem_cons.mp hkw with h1 | h2
          · rw [h1]; exact vj
          · exact ValAbove_mono fj.1 (va kw h2)
        · intro n0 hn hs
          exact sa n0 (le_trans hn fj.1) (sj n0 hn hs)

theorem allocJSON_frame (h : Heap) (j : JSON) :
    FrameAll h (allocJSON h j).1 ∧ ValAbove h.next (allocJSON h j).2 ∧
      ∀ n0, n0 ≤ h.next → SegAbove h n0 → SegAbove (allocJSON h j).1 n0 :=
  (allocJSON_aux (sizeJ j)).1 h j le_rfl

theorem defu_frame_aux : ∀ fuel : Nat,
    (∀ h b d p, defuH fuel h b d = some p →
      FrameAll h p.1 ∧ h.next ≤ p.2 ∧ p.2 < p.1.next) ∧
    (∀ h robj es p, robj < h.next → defuEntriesH fuel h robj es = some p →
      h.next ≤ p.1.next ∧
        (∀ id, id < h.next → id ≠ robj → p.1.mem id = h.mem id) ∧
        (heapWF h → heapWF p.1) ∧ p.2 = robj) := by
  intro fuel
  induction fuel with
  | zero =>
    constructor
    · intro h b d p hp; exact Option.noConfusion hp
    · intro h robj es p _ hp; exact Option.noConfusion hp
  | succ n ih =>
    obtain ⟨ihH, ihE⟩ := ih
    constructor
    · intro h b d p hp
      simp only [defuH] at hp
      have hA : FrameAll h (alloc h (HObj.obj (objEntriesOf h d))).1 :=
        FrameAll_alloc h _
      have hAn : (alloc h (HObj.obj (objEntriesOf h d))).1.next = h.next + 1 := rfl
      have hA2 : (alloc h (HObj.obj (objEntriesOf h d))).2 = h.next := rfl
      split at hp
      · split at hp
        · obtain ⟨a1, a2, a3, a4⟩ :=
            ihE _ h.next _ p (by rw [hAn]; omega) hp
          refine ⟨⟨?_, ?_, ?_⟩, ?_, ?_⟩
          · omega
          · intro id hid
            rw [a2 id (by omega) (by omega), hA.2.1 id hid]
          · exact fun hw => a3 (hA.2.2 hw)
          · rw [a4]
          · rw [a4]; omega
        · cases hp; exact ⟨hA, le_refl _, by rw [hAn]; omega⟩
      · cases hp; exact ⟨hA, le_refl _, by rw [hAn]; omega⟩
    · intro h robj es p hro hp
      cases es with
      | nil =>
        cases hp
        exact ⟨le_refl _, fun _ _ _ => rfl, fun hw => hw, rfl⟩
      | cons kv rest =>
        obtain ⟨k, v⟩ := kv
        have step : ∀ h2 : Heap, h.next ≤ h2.next →
            (∀ id, id < h.next → id ≠ robj → h2.mem id = h.mem id) →
            (heapWF h → heapWF h2) →
            defuEntriesH n h2 robj rest = some p →
            h.next ≤ p.1.next ∧
              (∀ id, id < h.next → id ≠ robj → p.1.mem id = h.mem id) ∧
              (heapWF h → heapWF p.1) ∧ p.2 = robj := by
          intro h2 hnx hfr hwf hrec
          obtain ⟨a1, a2, a3, a4⟩ :=
            ihE h2 robj rest p (lt_of_lt_of_le hro hnx) hrec
          refine ⟨le_trans hnx a1, ?_, fun hw => a3 (hwf hw), a4⟩
          intro id hid hne
          rw [a2 id (lt_of_lt_of_le hid hnx) hne, hfr id hid hne]
        simp only [defuEntriesH] at hp
        split at hp
        · exact step h le_rfl (fun _ _ _ => rfl) (fun hw => hw) hp
        · split at hp
          · rename_i cur hcur
            split at hp
            · exact step (setFieldAt h robj k v)
                (le_of_eq (setFieldAt_next h robj k v).symm)
                (fun id _ hne => setFieldAt_mem_ne h robj k v id hne)
                (setFieldAt_wf h robj k v) hp
            · split at hp
              · split at hp
                · rename_i q hq
                  obtain ⟨fq, _, _⟩ := ihH h v cur q hq
                  exact step (setFieldAt q.1 robj k (HVal.ref q.2))
                    (le_trans fq.1 (le_of_eq (setFieldAt_next q.1 robj k _).symm))
                    (fun id hid hne => by
                      rw [setFieldAt_mem_ne q.1 robj k _ id hne, fq.2.1 id hid])
                    (fun hw => setFieldAt_wf q.1 robj k _ (fq.2.2 hw)) hp
                · exact Option.noConfusion hp
              · exact step (setFieldAt h robj k v)
                  (le_of_eq (setFieldAt_next h robj k v).symm)
                  (fun id _ hne => setFieldAt_mem_ne h robj k v id hne)
                  (setFieldAt_wf h robj k v) hp
          · exact step (setFieldAt h robj k v)
              (le_of_eq (setFieldAt_next h robj k v).symm)
              (fun id _ hne => setFieldAt_mem_ne h robj k v id hne)
              (setFieldAt_wf h robj k v) hp

theorem defuH_frame {fuel : Nat} {h : Heap} {b d : HVal} {p : Heap × Nat}
    (hp : defuH fuel h b d = some p) :
    FrameAll h p.1 ∧ h.next ≤ p.2 ∧ p.2 < p.1.next :=
  (defu_frame_aux fuel).1 h b d p hp

theorem defuFoldH_frame : ∀ (layers : List HVal) (fuel : Nat) (h : Heap)
    (racc : Nat) (p : Heap × Nat), defuFoldH fuel h racc layers = some p →
    FrameAll h p.1 := by
  intro layers
  induction layers with
  | nil =>
    intro fuel h racc p hp
    cases hp
    exact FrameAll_refl h
  | cons c rest ih =>
    intro fuel h racc p hp
    simp only [defuFoldH] at hp
    cases hq : defuH fuel h (HVal.ref racc) c with
    | none => rw [hq] at hp; exact Option.noConfusion hp
    | some q =>
      rw [hq] at hp
      simp only [] at hp
      exact FrameAll_trans (defuH_frame hq).1 (ih fuel q.1 q.2 p hp)

theorem defuNH_frame {fuel : Nat} {h : Heap} {layers : List HVal}
    {p : Heap × Nat} (hp : defuNH fuel h layers = some p) :
    FrameAll h p.1 :=
  FrameAll_trans (FrameAll_alloc h (HObj.obj []))
    (defuFoldH_frame layers fuel _ _ p hp)

theorem klona_frame_aux : ∀ fuel : Nat,
    (∀ h v p, klonaH fuel h v = some p →
      FrameAll h p.1 ∧ ValAbove h.next p.2 ∧
        ∀ n0, n0 ≤ h.next → SegAbove h n0 → SegAbove p.1 n0) ∧
    (∀ h es p, klonaEntriesH fuel h es = some p →
      FrameAll h p.1 ∧ (∀ kv, kv ∈ p.2 → ValAbove h.next kv.2) ∧
        ∀ n0, n0 ≤ h.next → SegAbove h n0 → SegAbove p.1 n0) ∧
    (∀ h vs p, klonaListH fuel h vs = some p →
      FrameAll h p.1 ∧ (∀ v, v ∈ p.2 → ValAbove h.next v) ∧
        ∀ n0, n0 ≤ h.next → SegAbove h n0 → SegAbove p.1 n0) := by
  intro fuel
  induction fuel with
  | zero =>
    refine ⟨fun h v p hp => ?_, fun h es p hp => ?_, fun h vs p hp => ?_⟩
    · exact Option.noConfusion hp
    · exact Option.noConfusion hp
    · exact Option.noConfusion hp
  | succ n ih =>
    obtain ⟨ihV, ihE, ihA⟩ := ih
    refine ⟨fun h v p hp => ?_, fun h es p hp => ?_, fun h vs p hp => ?_⟩
    · simp only [klonaH] at hp
      split at hp
      · split at hp
        · split at hp
          · rename_i p0 hp0
            cases hp
            obtain ⟨fe, ve, se⟩ := ihE h _ p0 hp0
            refine ⟨FrameAll_trans fe (FrameAll_alloc _ _), fe.1, ?_⟩
            intro n0 hn hs
            exact SegAbove_alloc (se n0 hn hs)
              (fun kv hkv => ValAbove_mono hn (ve kv hkv))
          · exact Option.noConfusion hp
        · split at hp
          · rename_i p0 hp0
            cases hp
            obtain ⟨fa, va, sa⟩ := ihA h _ p0 hp0
            refine ⟨FrameAll_trans fa (FrameAll_alloc _ _), fa.1, ?_⟩
            intro n0 hn hs
            exact SegAbove_alloc (sa n0 hn hs)
              (fun w hw => ValAbove_mono hn (va w hw))
          · exact Option.noConfusion hp
        · cases hp
          exact ⟨FrameAll_refl h, trivial, fun n0 _ hs => hs⟩
      · cases hp
        refine ⟨FrameAll_refl h, ?_, fun n0 _ hs => hs⟩
        cases v with
        | ref r => simp_all
        | str s => trivial
        | num m => trivial
        | bool b => trivial
        | null => trivial
    · cases es with
      | nil =>
        cases hp
        exact ⟨FrameAll_refl h, fun kv hkv => absurd hkv (List.not_mem_nil kv),
          fun n0 _ hs => hs⟩
      | cons kv rest =>
        obtain ⟨k, v⟩ := kv
        simp only [klonaEntriesH] at hp
        split at hp
        · rename_i p1 hp1
          split at hp
          · rename_i q hq
            cases hp
            obtain ⟨f1, v1, s1⟩ := ihV h v p1 hp1
            obtain ⟨f2, v2, s2⟩ := ihE p1.1 rest q hq
            refine ⟨FrameAll_trans f1 f2, ?_, ?_⟩
            · intro kw hkw
              rcases List.mem_cons.mp hkw with h1 | h2
              · rw [h1]; exact v1
              · exact ValAbove_mono f1.1 (v2 kw h2)
            · intro n0 hn hs
              exact s2 n0 (le_trans hn f1.1) (s1 n0 hn hs)
          · exact Option.noConfusion hp
        · exact Option.noConfusion hp
    · cases vs with
      | nil =>
        cases hp
        exact ⟨FrameAll_refl h, fun w hw => absurd hw (List.not_mem_nil w),
          fun n0 _ hs => hs⟩
      | cons v rest =>
        simp only [klonaListH] at hp
        split at hp
        · rename_i p1 hp1
          split at hp
          · rename_i q hq
            cases hp
            obtain ⟨f1, v1, s1⟩ := ihV h v p1 hp1
            obtain ⟨f2, v2, s2⟩ := ihA p1.1 rest q hq
            refine ⟨FrameAll_trans f1 f2, ?_, ?_⟩
            · intro w hw
              rcases List.mem_cons.mp hw with h1 | h2
              · rw [h1]; exact v1
              · exact ValAbove_mono f1.1 (v2 w h2)
            · intro n0 hn hs
              exact s2 n0 (le_trans hn f1.1) (s1 n0 hn hs)
          · exact Option.noConfusion hp
        · exact Option.noConfusion hp

theorem FrameSeg_refl {n0 : Nat} {h : Heap} (hw : heapWF h)
    (hs : SegAbove h n0) : FrameSeg n0 h h :=
  ⟨le_refl _, fun _ _ => rfl, hw, hs⟩

theorem FrameSeg_trans {n0 : Nat} {h1 h2 h3 : Heap} (a : FrameSeg n0 h1 h2)
    (b : FrameSeg n0 h2 h3) : FrameSeg n0 h1 h3 :=
  ⟨le_trans a.1 b.1, fun id hid => by rw [b.2.1 id hid, a.2.1 id hid],
    b.2.2.1, b.2.2.2⟩

theorem FrameSeg_setFieldAt {n0 : Nat} {h : Heap} (hw : heapWF h)
    (hs : SegAbove h n0) (r : Nat) (k : String) {v : HVal} (hr : n0 ≤ r)
    (hv : ValAbove n0 v) : FrameSeg n0 h (setFieldAt h r k v) :=
  ⟨le_of_eq (setFieldAt_next h r k v).symm,
    fun id hid => setFieldAt_mem_ne h r k v id (by omega),
    setFieldAt_wf h r k v hw, SegAbove_setFieldAt hs r k hv⟩

theorem FrameSeg_allocJSON {n0 : Nat} {h : Heap} (hw : heapWF h)
    (hs : SegAbove h n0) (hn : n0 ≤ h.next) (j : JSON) :
    FrameSeg n0 h (allocJSON h j).1 ∧ ValAbove n0 (allocJSON h j).2 := by
  obtain ⟨fa, va, sa⟩ := allocJSON_frame h j
  exact ⟨⟨fa.1, fun id hid => fa.2.1 id (lt_of_lt_of_le hid hn), fa.2.2 hw,
    sa n0 hn hs⟩, ValAbove_mono hn va⟩

theorem getFieldAt_ValAbove {n0 : Nat} {h : Heap} (hs : SegAbove h n0)
    {r : Nat} {k : String} {v : HVal} (hr : n0 ≤ r)
    (hg : getFieldAt h r k = some v) : ValAbove n0 v := by
  unfold getFieldAt at hg
  split at hg
  · rename_i es heq
    exact (hs r (HObj.obj es) hr heq) (k, v) (getF_mem es k v hg)
  · exact Option.noConfusion hg

theorem shallowMergeH_frame : ∀ (eo : Entries) (h : Heap) (rk n0 : Nat),
    heapWF h → SegAbove h n0 → n0 ≤ rk → n0 ≤ h.next →
    FrameSeg n0 h (shallowMergeH h rk eo) := by
  intro eo
  induction eo with
  | nil =>
    intro h rk n0 hw hs _ _
    exact FrameSeg_refl hw hs
  | cons kj rest ih =>
    intro h rk n0 hw hs hrk hn
    obtain ⟨k, j⟩ := kj
    obtain ⟨fs1, va1⟩ := FrameSeg_allocJSON hw hs hn j
    have fs2 := FrameSeg_setFieldAt fs1.2.2.1 fs1.2.2.2 rk k hrk va1
    have fs3 := ih (setFieldAt (allocJSON h j).1 rk k (allocJSON h j).2) rk n0
      fs2.2.2.1 fs2.2.2.2 hrk (le_trans hn (le_trans fs1.1 fs2.1))
    exact FrameSeg_trans (FrameSeg_trans fs1 fs2) fs3

theorem applyEnvMapH_frame : ∀ (em : List (String × String))
    (env : String → Option String) (h : Heap) (r n0 : Nat),
    heapWF h → SegAbove h n0 → n0 ≤ r → n0 ≤ h.next →
    FrameSeg n0 h (applyEnvMapH em env h r) := by
  intro em
  induction em with
  | nil =>
    intro env h r n0 hw hs _ _
    exact FrameSeg_refl hw hs
  | cons e rest ih =>
    intro env h r n0 hw hs hr hn
    show FrameSeg n0 h (applyEnvMapH (e :: rest) env h r)
    simp only [applyEnvMapH]
    split
    · obtain ⟨fs1, va1⟩ := FrameSeg_allocJSON hw hs hn (coerce _)
      have fs2 := FrameSeg_setFieldAt fs1.2.2.1 fs1.2.2.2 r e.2 hr va1
      have fs3 := ih env _ r n0 fs2.2.2.1 fs2.2.2.2 hr
        (le_trans hn (le_trans fs1.1 fs2.1))
      exact FrameSeg_trans (FrameSeg_trans fs1 fs2) fs3
    · exact ih env h r n0 hw hs hr hn

theorem applyEnv_frame_aux : ∀ fuel : Nat,
    (∀ env pfx h r n0 h2, applyEnvH fuel env pfx h r = some h2 →
      heapWF h → SegAbove h n0 → n0 ≤ r → n0 ≤ h.next →
      FrameSeg n0 h h2) ∧
    (∀ env pfx h r ks n0 h2, applyEnvKeysH fuel env pfx h r ks = some h2 →
      heapWF h → SegAbove h n0 → n0 ≤ r → n0 ≤ h.next →
      FrameSeg n0 h h2) := by
  intro fuel
  induction fuel with
  | zero =>
    constructor
    · intro env pfx h r n0 h2 hp
      exact Option.noConfusion hp
    · intro env pfx h r ks n0 h2 hp
      exact Option.noConfusion hp
  | succ n ih =>
    obtain ⟨ihV, ihK⟩ := ih
    constructor
    · intro env pfx h r n0 h2 hp hw hs hr hn
      simp only [applyEnvH] at hp
      split at hp
      · exact ihK env pfx h r _ n0 h2 hp hw hs hr hn
      · cases hp
        exact FrameSeg_refl hw hs
    · intro env pfx h r ks n0 h2 hp hw hs hr hn
      cases ks with
      | nil =>
        cases hp
        exact FrameSeg_refl hw hs
      | cons k rest =>
        simp only [applyEnvKeysH] at hp
        split at hp
        · rename_i raw heqr
          split at hp
          · rename_i eo rk heq1 heq2
            split at hp
            · have hrk : n0 ≤ rk := getFieldAt_ValAbove hs hr heq2
              have fs1 := shallowMergeH_frame eo h rk n0 hw hs hrk hn
              exact FrameSeg_trans fs1
                (ihK env pfx _ r rest n0 h2 hp fs1.2.2.1 fs1.2.2.2 hr
                  (le_trans hn fs1.1))
            · obtain ⟨fs1, va1⟩ :=
                FrameSeg_allocJSON hw hs hn (JSON.obj eo)
              have fs2 := FrameSeg_setFieldAt fs1.2.2.1 fs1.2.2.2 r k hr va1
              exact FrameSeg_trans (FrameSeg_trans fs1 fs2)
                (ihK env pfx _ r rest n0 h2 hp fs2.2.2.1 fs2.2.2.2 hr
                  (le_trans hn (le_trans fs1.1 fs2.1)))
          · obtain ⟨fs1, va1⟩ := FrameSeg_allocJSON hw hs hn (coerce raw)
            have fs2 := FrameSeg_setFieldAt fs1.2.2.1 fs1.2.2.2 r k hr va1
            exact FrameSeg_trans (FrameSeg_trans fs1 fs2)
              (ihK env pfx _ r rest n0 h2 hp fs2.2.2.1 fs2.2.2.2 hr
                (le_trans hn (le_trans fs1.1 fs2.1)))
        · split at hp
          · rename_i rk heq2
            split at hp
            · split at hp
              · rename_i h3 hh3
                have hrk : n0 ≤ rk := getFieldAt_ValAbove hs hr heq2
                have fs1 := ihV env (pfx ++ mangleKey k ++ "_") h rk n0 h3
                  hh3 hw hs hrk hn
                exact FrameSeg_trans fs1
                  (ihK env pfx h3 r rest n0 h2 hp fs1.2.2.1 fs1.2.2.2 hr
                    (le_trans hn fs1.1))
              · exact Option.noConfusion hp
            · exact ihK env pfx h r rest n0 h2 hp hw hs hr hn
          · exact ihK env pfx h r rest n0 h2 hp hw hs hr hn

theorem loadConfigPipeH_frame (fuel : Nat) (h : Heap) (name : String)
    (ov ex md df : HVal) (dotenv : Bool) (env : String → Option String)
    (em : List (String × String)) (respond : Option JSON) (p : Heap × Nat)
    (hw : heapWF h)
    (hp : loadConfigPipeH fuel h name ov ex md df dotenv env em respond =
      some p) :
    FrameAll h p.1 := by
  simp only [loadConfigPipeH] at hp
  split at hp
  · exact Option.noConfusion hp
  · rename_i c1 hc1
    have f1 : FrameAll h c1.1 :=
      FrameAll_trans (FrameAll_alloc h (HObj.obj [])) (defuNH_frame hc1)
    have hw1 : heapWF c1.1 := f1.2.2 hw
    split at hp
    · exact Option.noConfusion hp
    · rename_i envp henv
      have f2 : FrameAll c1.1 envp.1 := by
        split at henv
        · split at henv
          · rename_i p0 hk
            obtain ⟨fk, vk, sk⟩ := (klona_frame_aux fuel).1 c1.1 _ p0 hk
            split at henv
            · rename_i rk heq
              split at henv
              · rename_i h3 hae
                cases henv
                have wf1 : heapWF p0.1 := fk.2.2 hw1
                have seg : SegAbove p0.1 c1.1.next :=
                  sk c1.1.next le_rfl (SegAbove_of_wf c1.1 hw1)
                have hrk : c1.1.next ≤ rk := by rw [heq] at vk; exact vk
                have fsA := (applyEnv_frame_aux fuel).1 env _ p0.1 rk
                  c1.1.next h3 hae wf1 seg hrk fk.1
                have fsM := applyEnvMapH_frame em env h3 rk c1.1.next
                  fsA.2.2.1 fsA.2.2.2 hrk (le_trans fk.1 fsA.1)
                refine ⟨le_trans fk.1 (le_trans fsA.1 fsM.1), ?_,
                  fun _ => fsM.2.2.1⟩
                intro id hid
                rw [fsM.2.1 id hid, fsA.2.1 id hid, fk.2.1 id hid]
              · exact Option.noConfusion henv
            · cases henv
              exact fk
          · exact Option.noConfusion henv
        · cases henv
          exact FrameAll_alloc c1.1 (HObj.obj [])
      split at hp
      · exact Option.noConfusion hp
      · rename_i c2 hc2
        have f3 : FrameAll envp.1 c2.1 :=
          FrameAll_trans (FrameAll_alloc envp.1 (HObj.obj []))
            (defuNH_frame hc2)
        have f123 : FrameAll h c2.1 :=
          FrameAll_trans f1 (FrameAll_trans f2 f3)
        split at hp
        · cases hp
          exact f123
        · rename_i j
          have f4 : FrameAll c2.1 (allocJSON c2.1 j).1 :=
            (allocJSON_frame c2.1 j).1
          have f5 : FrameAll (allocJSON c2.1 j).1 p.1 :=
            FrameAll_trans (FrameAll_alloc _ (HObj.obj []))
              (defuNH_frame hp)
          exact FrameAll_trans f123 (FrameAll_trans f4 f5)

/-- C10: `loadConfig` never mutates the caller-supplied
`options.defaultConfig` or `options.overrides` objects — nor any other
object that existed before the call.  On the heap semantics of the
pipeline (`loadConfigPipeH`): every `defu` merge writes only into the
fresh `Object.assign` copies it allocates, and the in-place environment
overlay and envMap loop mutate only the `klona` deep clone of the merged
config (and values materialized during the overlay), so every heap cell
present at entry — in particular the cells holding `defaultConfig` and
`overrides` and everything they reference — holds exactly the same
object when `loadConfig` returns. -/
theorem load_config_no_mutation (fuel : Nat) (h : Heap) (name : String)
    (ov ex md df : HVal) (dotenv : Bool) (env : String → Option String)
    (em : List (String × String)) (respond : Option JSON)
    (hw : heapWF h) :
    ∀ p, loadConfigPipeH fuel h name ov ex md df dotenv env em respond =
        some p →
      ∀ r ob, h.mem r = some ob → p.1.mem r = some ob := by
  intro p hp r ob hm
  have hfr := loadConfigPipeH_frame fuel h name ov ex md df dotenv env em
    respond p hw hp
  have hr : r < h.next := by
    by_contra hge
    push_neg at hge
    rw [hw r hge] at hm
    exact Option.noConfusion hm
  rw [hfr.2.1 r hr]
  exact hm

/-- Witness for the frame theorem: a concrete two-cell caller heap
(`overrides` at cell 0, `defaultConfig` at cell 1), a dotenv-enabled run
with one overlay hit, an envMap entry and a prompt response.  The
pipeline succeeds, and the theorem instance shows both caller cells (and
any other pre-existing cell) are returned untouched. -/
theorem loadPipeC10_eq : loadConfigPipeH 30 heapC10 "test" (HVal.ref 0)
    HVal.null HVal.null (HVal.ref 1) true envC10 [("PORT_VAR", "port")]
    (some (JSON.obj [("extra", JSON.num 7)])) = some (pipeH7C10, 21) := by
  simp only [loadConfigPipeH]
  rw [show defuNH 30 (alloc heapC10 (HObj.obj [])).1
      [HVal.ref (alloc heapC10 (HObj.obj [])).2, HVal.ref 0, HVal.null,
        HVal.null, HVal.ref 1] = some (pipeH1C10, 8) from rfl]
  dsimp only []
  simp only [if_true]
  rw [show klonaH 30 pipeH1C10 (HVal.ref 8) = some (pipeH2C10, HVal.ref 9) from rfl]
  dsimp only []
  rw [show (mangleKey "test" ++ "_CONFIG_" : String) = "TEST_CONFIG_" from rfl]
  rw [show applyEnvH 30 envC10 "TEST_CONFIG_" pipeH2C10 9 = some pipeH3C10 from rfl]
  dsimp only []
  rw [show applyEnvMapH [("PORT_VAR", "port")] envC10 pipeH3C10 9 = pipeH3C10 from rfl]
  rw [show alloc pipeH3C10 (HObj.obj []) =
    (⟨11, (10, HObj.obj []) :: pipeH3C10.cells⟩, 10) from rfl]
  dsimp only []
  rw [show defuNH 30 ⟨11, (10, HObj.obj []) :: pipeH3C10.cells⟩
      [HVal.ref 10, HVal.ref 0, HVal.ref 9, HVal.ref 8] =
    some (pipeH5C10, 15) from rfl]
  dsimp only []
  rw [show allocJSON pipeH5C10 (JSON.obj [("extra", JSON.num 7)]) =
    (pipeH6C10, HVal.ref 16) from rfl]
  dsimp only []
  rw [show alloc pipeH6C10 (HObj.obj []) =
    (⟨18, (17, HObj.obj []) :: pipeH6C10.cells⟩, 17) from rfl]
  dsimp only []
  rw [show defuNH 30 ⟨18, (17, HObj.obj []) :: pipeH6C10.cells⟩
      [HVal.ref 17, HVal.ref 16, HVal.ref 15] = some (pipeH7C10, 21) from rfl]

/-- Witness for the frame theorem: a concrete two-cell caller heap
(`overrides` at cell 0, `defaultConfig` at cell 1), a dotenv-enabled run
with one overlay hit, an envMap entry and a prompt response.  The
pipeline succeeds (staged evaluation `loadPipeC10_eq`), and the theorem
instance shows both caller cells (and any other pre-existing cell) are
returned untouched. -/
theorem load_config_no_mutation_witness :
    heapWF heapC10 ∧
    (loadConfigPipeH 30 heapC10 "test" (HVal.ref 0) HVal.null HVal.null
        (HVal.ref 1) true envC10 [("PORT_VAR", "port")]
        (some (JSON.obj [("extra", JSON.num 7)]))).isSome = true ∧
    (∀ r ob, heapC10.mem r = some ob → pipeH7C10.mem r = some ob) := by
  have hw : heapWF heapC10 := by
    intro id hid
    have hid2 : 2 ≤ id := hid
    show (if 0 = id then some (HObj.obj [("host", HVal.str "o")])
      else if 1 = id then
        some (HObj.obj [("host", HVal.str "d"), ("port", HVal.num 1)])
      else none) = none
    rw [if_neg (by omega), if_neg (by omega)]
  refine ⟨hw, ?_, load_config_no_mutation 30 heapC10 "test" (HVal.ref 0)
    HVal.null HVal.null (HVal.ref 1) true envC10 [("PORT_VAR", "port")]
    (some (JSON.obj [("extra", JSON.num 7)])) hw (pipeH7C10, 21)
    loadPipeC10_eq⟩
  rw [loadPipeC10_eq]
  rfl

/-- Counterexample to C1 as stated (the unrestricted precedence claim):
on `exOptsC1cx` the invocation succeeds, yet at key `a` — present (defined)
in `overrides` as `null` — the final config carries `defaultConfig`'s
`5` (defu skips null entries, so the lower layer wins), and at key `b`
— present in `overrides` as the object `\x7bx: 1\x7d` — the final
config carries the deep merge `\x7bx: 1, y: 3\x7d`, not the overrides
layer's value wholesale. -/
theorem precedence_null_object_counterexample :
    loadConfig exOptsC1cx = Except.ok ⟨mergedConfig exOptsC1cx, [], 0⟩ ∧
    getKey (mergedConfig exOptsC1cx) "a" = some (JSON.num 5) ∧
    (match getKey (mergedConfig exOptsC1cx) "a" with
     | some JSON.null => true
     | _ => false) = false ∧
    getKey (mergedConfig exOptsC1cx) "b" =
      some (JSON.obj [("x", JSON.num 1), ("y", JSON.num 3)]) ∧
    (match getKey (mergedConfig exOptsC1cx) "b" with
     | some (JSON.obj [("x", JSON.num 1)]) => true
     | _ => false) = false :=
  ⟨rfl, rfl, rfl, rfl, rfl⟩

end ConfigLoader
